import Mathlib

/-!
# Tree topologies of the collective layer (`treeutil.c`)

A shallow embedding of the three tree builders of
`src/mpi/coll/algorithms/treealgo/treeutil.c`:

* `MPII_Treeutil_tree_kary_init`
* `MPII_Treeutil_tree_knomial_1_init`
* `MPII_Treeutil_tree_knomial_2_init`

C `int` values are integers reduced to 32 bits after every arithmetic
operation (`wrap`); `/` and `%` truncate toward zero as in C99.  Loops are
recursions on a step budget; a loop that exhausts its budget, a failed
`MPIR_Assert`, a division by zero and a power with a negative exponent are
reported as a `Fault` instead of a value.  Memory allocation is taken to
succeed.
-/

namespace Treeutil

/-! ## Machine integers -/

/-- Reduction of an integer to the two's-complement range of a 32-bit `int`. -/
def wrap (x : Int) : Int := (x + 2147483648) % 4294967296 - 2147483648

/-- Largest value of a C `int`. -/
def INT_MAX : Int := 2147483647

/-- C `a + b` on `int`. -/
def iadd (a b : Int) : Int := wrap (a + b)

/-- C `a - b` on `int`. -/
def isub (a b : Int) : Int := wrap (a - b)

/-- C `a * b` on `int`. -/
def imul (a b : Int) : Int := wrap (a * b)

/-- C `a / b` on `int` for `b ≠ 0`: the quotient truncated toward zero. -/
def idiv (a b : Int) : Int := wrap (Int.tdiv a b)

/-- C `a % b` on `int` for `b ≠ 0`: the remainder has the sign of `a`. -/
def imod (a b : Int) : Int := Int.tmod a b

/-! ## Results -/

/-- Ways in which a call fails to return a value. -/
inductive Fault where
  /-- An `MPIR_Assert` whose condition is false. -/
  | assertion
  /-- An integer division whose divisor is zero. -/
  | div_by_zero
  /-- A call of `MPL_ipow` with a negative exponent. -/
  | negative_exponent
  /-- A loop that did not finish within its step budget. -/
  | fuel
  deriving DecidableEq, Repr

deriving instance DecidableEq for Except

/-- The value of `MPI_SUCCESS`. -/
def MPI_SUCCESS : Int := 0

/-- The record `MPIR_Treealgo_tree_t`; `children` is the content of the
`utarray` of child ranks, in insertion order. -/
structure MPIR_Treealgo_tree_t where
  rank : Int
  nranks : Int
  parent : Int
  num_children : Int
  children : List Int
  deriving DecidableEq, Repr

/-- What a builder returns: `mpi_errno` and the record it wrote. -/
abbrev Built := Except Fault (Int × MPIR_Treealgo_tree_t)

/-- `tree_add_child`: append `rank` to the children and count it. -/
def tree_add_child (t : MPIR_Treealgo_tree_t) (rank : Int) : Int × MPIR_Treealgo_tree_t :=
  (MPI_SUCCESS, { t with children := t.children ++ [rank], num_children := iadd t.num_children 1 })

/-! ## Helpers of the MPL library -/

/-- Modelled from the spec: `MPL_ipow` is defined in the MPL headers, which are
not among the sources.  The spec writes the block size of the k-nomial trees as
the power `k^(D−step−1)`; the value is that power as an `int`.  A negative
exponent has no such power and the call yields no value. -/
def MPL_ipow (base exp : Int) : Except Fault Int :=
  if exp < 0 then .error .negative_exponent else .ok (wrap (base ^ exp.toNat))

/-- Modelled from the spec: `MPL_getdigit` is defined in the MPL headers, which
are not among the sources.  It is the digit of `number` at position `digit` of
its base-`k` representation ("represent `lrank` in base-k digits"). -/
def MPL_getdigit (k number digit : Int) : Int :=
  imod (idiv number (wrap (k ^ digit.toNat))) k

/-- Modelled from the spec: `MPL_setdigit` is defined in the MPL headers, which
are not among the sources.  It is `number` with its base-`k` digit at position
`digit` replaced by `newdigit`. -/
def MPL_setdigit (k number digit newdigit : Int) : Int :=
  iadd (isub number (imul (MPL_getdigit k number digit) (wrap (k ^ digit.toNat))))
    (imul newdigit (wrap (k ^ digit.toNat)))

/-- `tree_ilog`, the loop `for (; p - 1 < number; i++) p *= k;` from the state
`(i, p)`. -/
def tree_ilog_loop (k number : Int) : Nat → Int → Int → Except Fault Int
  | 0, _, _ => .error .fuel
  | fuel + 1, i, p =>
    if isub p 1 < number then tree_ilog_loop k number fuel (iadd i 1) (imul p k)
    else .ok i

/-- `tree_ilog(k, number)`: starts from `i = 1, p = k - 1`. -/
def tree_ilog (k number : Int) : Except Fault Int :=
  tree_ilog_loop k number 64 1 (isub k 1)

/-! ## k-ary tree -/

/-- The loop `for (child = 1; child <= k; child++)` of the k-ary builder, from
the state `(child, ct)`. -/
def kary_child_loop (lrank nranks k root : Int) :
    Nat → Int → MPIR_Treealgo_tree_t → Built
  | 0, _, _ => .error .fuel
  | fuel + 1, child, ct =>
    if child ≤ k then
      let val := iadd (imul lrank k) child
      if val ≥ nranks then .ok (MPI_SUCCESS, ct)
      else
        let r := tree_add_child ct (imod (iadd val root) nranks)
        if r.1 ≠ MPI_SUCCESS then .ok r
        else kary_child_loop lrank nranks k root fuel (iadd child 1) r.2
    else .ok (MPI_SUCCESS, ct)

/-- `MPII_Treeutil_tree_kary_init(rank, nranks, k, root, ct)`. -/
def MPII_Treeutil_tree_kary_init (rank nranks k root : Int) (ct : MPIR_Treealgo_tree_t) :
    Built :=
  let ct : MPIR_Treealgo_tree_t :=
    { ct with rank := rank, nranks := nranks, parent := -1, children := [], num_children := 0 }
  if ¬ (nranks ≥ 0) then .error .assertion
  else if nranks = 0 then .ok (MPI_SUCCESS, ct)
  else
    let lrank := imod (iadd rank (isub nranks root)) nranks
    if lrank ≠ 0 ∧ k = 0 then .error .div_by_zero
    else
      let ct := { ct with parent :=
        if lrank = 0 then -1 else imod (iadd (idiv (isub lrank 1) k) root) nranks }
      kary_child_loop lrank nranks k root (k.toNat + 1) 1 ct

/-! ## k-nomial tree, variant 1 -/

/-- The loop `for (tmp = nranks - 1; tmp; tmp /= k) maxstep++;` from the state
`(tmp, maxstep)`. -/
def knomial_1_maxstep_loop (k : Int) : Nat → Int → Int → Except Fault Int
  | 0, _, _ => .error .fuel
  | fuel + 1, tmp, maxstep =>
    if tmp ≠ 0 then knomial_1_maxstep_loop k fuel (idiv tmp k) (iadd maxstep 1)
    else .ok maxstep

/-- The variables the descent of variant 1 carries from step to step. -/
structure Descent where
  parent : Int
  current_rank : Int
  running_rank : Int
  deriving DecidableEq, Repr

/-- The loop `for (j = 1; j < k; j++)` inside the descent, at a given `step`
(`e` is the exponent `maxstep - step - 1`), from the state `(j, d)`. -/
def knomial_1_range_loop (lrank k e : Int) : Nat → Int → Descent → Except Fault Descent
  | 0, _, _ => .error .fuel
  | fuel + 1, j, d =>
    if j < k then
      match MPL_ipow k e with
      | .error f => .error f
      | .ok pw =>
        if lrank ≥ d.running_rank ∧ lrank < iadd d.running_rank pw then
          .ok { parent := d.current_rank, current_rank := d.running_rank,
                running_rank := iadd d.running_rank 1 }
        else
          knomial_1_range_loop lrank k e fuel (iadd j 1)
            { d with running_rank := iadd d.running_rank pw }
    else .ok d

/-- The loop `for (step = 0;; step++)` of variant 1, from the state `(step, d)`;
it returns the value of `step` at the `break` together with the variables. -/
def knomial_1_descent_loop (lrank nranks k maxstep : Int) :
    Nat → Int → Descent → Except Fault (Int × Descent)
  | 0, _, _ => .error .fuel
  | fuel + 1, step, d =>
    if ¬ (step ≤ nranks) then .error .assertion
    else if lrank = d.current_rank then .ok (step, d)
    else
      match knomial_1_range_loop lrank k (isub (isub maxstep step) 1) k.toNat 1 d with
      | .error f => .error f
      | .ok d1 => knomial_1_descent_loop lrank nranks k maxstep fuel (iadd step 1) d1

/-- The loop `for (j = 1; j < k; j++)` of the children phase of variant 1 at a
given `i` (`e` is the exponent `maxstep - i - 1`), from the state
`(j, crank, ct)`; it returns `mpi_errno`, `crank` and the record. -/
def knomial_1_child_inner (nranks k root e : Int) :
    Nat → Int → Int → MPIR_Treealgo_tree_t → Except Fault (Int × Int × MPIR_Treealgo_tree_t)
  | 0, _, _, _ => .error .fuel
  | fuel + 1, j, crank, ct =>
    if j < k then
      let r := if crank < nranks then tree_add_child ct (imod (iadd crank root) nranks)
               else (MPI_SUCCESS, ct)
      if r.1 ≠ MPI_SUCCESS then .ok (r.1, crank, r.2)
      else
        match MPL_ipow k e with
        | .error f => .error f
        | .ok pw => knomial_1_child_inner nranks k root e fuel (iadd j 1) (iadd crank pw) r.2
    else .ok (MPI_SUCCESS, crank, ct)

/-- The loop `for (i = step; i < maxstep; i++)` of the children phase of
variant 1, from the state `(i, crank, ct)`. -/
def knomial_1_child_outer (nranks k root maxstep : Int) :
    Nat → Int → Int → MPIR_Treealgo_tree_t → Built
  | 0, _, _, _ => .error .fuel
  | fuel + 1, i, crank, ct =>
    if i < maxstep then
      match knomial_1_child_inner nranks k root (isub (isub maxstep i) 1) k.toNat 1 crank ct with
      | .error f => .error f
      | .ok (errno, crank1, ct1) =>
        if errno ≠ MPI_SUCCESS then .ok (errno, ct1)
        else knomial_1_child_outer nranks k root maxstep fuel (iadd i 1) crank1 ct1
    else .ok (MPI_SUCCESS, ct)

/-- `MPII_Treeutil_tree_knomial_1_init(rank, nranks, k, root, ct)`. -/
def MPII_Treeutil_tree_knomial_1_init (rank nranks k root : Int) (ct : MPIR_Treealgo_tree_t) :
    Built :=
  let ct : MPIR_Treealgo_tree_t := { ct with rank := rank, nranks := nranks, parent := -1 }
  if ¬ (nranks ≥ 0) then .error .assertion
  else if nranks = 0 then .ok (MPI_SUCCESS, ct)
  else
    let lrank := imod (iadd rank (isub nranks root)) nranks
    if ¬ (k ≥ 2) then .error .assertion
    else
      match knomial_1_maxstep_loop k 64 (isub nranks 1) 0 with
      | .error f => .error f
      | .ok maxstep =>
        let ct := { ct with children := [], num_children := 0 }
        match knomial_1_descent_loop lrank nranks k maxstep (nranks.toNat + 2) 0
            { parent := -1, current_rank := 0, running_rank := iadd 0 1 } with
        | .error f => .error f
        | .ok (step, d) =>
          let ct := { ct with parent :=
            if d.parent = -1 then -1 else imod (iadd d.parent root) nranks }
          knomial_1_child_outer nranks k root maxstep ((isub maxstep step).toNat + 1)
            step (iadd lrank 1) ct

/-! ## k-nomial tree, variant 2 -/

/-- The parent loop `for (i = 0; i < depth; i++)` of variant 2, from the state
`(i, ct)`: the first position with a nonzero digit decides the parent. -/
def knomial_2_parent_loop (lrank nranks k root depth : Int) :
    Nat → Int → MPIR_Treealgo_tree_t → Except Fault MPIR_Treealgo_tree_t
  | 0, _, _ => .error .fuel
  | fuel + 1, i, ct =>
    if i < depth then
      if MPL_getdigit k lrank i ≠ 0 then
        .ok { ct with parent := imod (iadd (MPL_setdigit k lrank i 0) root) nranks }
      else knomial_2_parent_loop lrank nranks k root depth fuel (iadd i 1) ct
    else .ok ct

/-- The loop `for (j = 0; j < depth; j++)` that fills `flip_bit`, from the state
`(j, flip_bit)`. -/
def knomial_2_flip_loop (lrank k depth : Int) : Nat → Int → List Int → Except Fault (List Int)
  | 0, _, _ => .error .fuel
  | fuel + 1, j, flip_bit =>
    if j < depth then
      if MPL_getdigit k lrank j ≠ 0 then .ok flip_bit
      else knomial_2_flip_loop lrank k depth fuel (iadd j 1) (flip_bit.set j.toNat 1)
    else .ok flip_bit

/-- The loop `for (i = k - 1; i >= 1; i--)` that emits the children of one digit
position `j`, from the state `(i, ct)`. -/
def knomial_2_digit_loop (lrank nranks k root j : Int) :
    Nat → Int → MPIR_Treealgo_tree_t → Except Fault MPIR_Treealgo_tree_t
  | 0, _, _ => .error .fuel
  | fuel + 1, i, ct =>
    if i ≥ 1 then
      let child := MPL_setdigit k lrank j i
      let ct1 := if child < nranks then (tree_add_child ct (imod (iadd child root) nranks)).2
                 else ct
      knomial_2_digit_loop lrank nranks k root j fuel (isub i 1) ct1
    else .ok ct

/-- The loop `for (j = depth - 1; j >= 0; j--)` over the digit positions, from
the state `(j, ct)`. -/
def knomial_2_child_loop (lrank nranks k root : Int) (flip_bit : List Int) :
    Nat → Int → MPIR_Treealgo_tree_t → Except Fault MPIR_Treealgo_tree_t
  | 0, _, _ => .error .fuel
  | fuel + 1, j, ct =>
    if j ≥ 0 then
      if flip_bit.getD j.toNat 0 = 1 then
        match knomial_2_digit_loop lrank nranks k root j k.toNat (isub k 1) ct with
        | .error f => .error f
        | .ok ct1 => knomial_2_child_loop lrank nranks k root flip_bit fuel (isub j 1) ct1
      else knomial_2_child_loop lrank nranks k root flip_bit fuel (isub j 1) ct
    else .ok ct

/-- `MPII_Treeutil_tree_knomial_2_init(rank, nranks, k, root, ct)`. -/
def MPII_Treeutil_tree_knomial_2_init (rank nranks k root : Int) (ct : MPIR_Treealgo_tree_t) :
    Built :=
  let ct : MPIR_Treealgo_tree_t :=
    { ct with rank := rank, nranks := nranks, num_children := 0, parent := -1 }
  if ¬ (nranks ≥ 0) then .error .assertion
  else if nranks ≤ 0 then .ok (MPI_SUCCESS, ct)
  else
    let lrank := imod (iadd rank (isub nranks root)) nranks
    if ¬ (k ≥ 2) then .error .assertion
    else
      let ct := { ct with children := [], num_children := 0 }
      let withParent : Except Fault MPIR_Treealgo_tree_t :=
        if lrank ≤ 0 then .ok { ct with parent := -1 }
        else
          match tree_ilog k (isub nranks 1) with
          | .error f => .error f
          | .ok depth => knomial_2_parent_loop lrank nranks k root depth (depth.toNat + 1) 0 ct
      match withParent with
      | .error f => .error f
      | .ok ct =>
        match tree_ilog k (isub nranks 1) with
        | .error f => .error f
        | .ok depth =>
          match knomial_2_flip_loop lrank k depth (depth.toNat + 1) 0
              (List.replicate depth.toNat 0) with
          | .error f => .error f
          | .ok flip_bit =>
            match knomial_2_child_loop lrank nranks k root flip_bit (depth.toNat + 1)
                (isub depth 1) ct with
            | .error f => .error f
            | .ok ct => .ok (MPI_SUCCESS, ct)

/-! ## Reading a result -/

/-- The parent written by a builder call that returned. -/
def parentOf (b : Built) : Option Int :=
  match b with
  | .ok (_, ct) => some ct.parent
  | .error _ => none

/-- The children written by a builder call that returned. -/
def childrenOf (b : Built) : Option (List Int) :=
  match b with
  | .ok (_, ct) => some ct.children
  | .error _ => none

/-- The type of the three builders. -/
abbrev Builder := Int → Int → Int → Int → MPIR_Treealgo_tree_t → Built

/-- Replace a rank by the parent its builder call computes, `steps` times in a
row; `none` when one of the calls does not return or reports no parent (`-1`). -/
def climb (build : Builder) (nranks k root : Int) (ct : MPIR_Treealgo_tree_t) :
    Nat → Int → Option Int
  | 0, r => some r
  | steps + 1, r =>
    match parentOf (build r nranks k root ct) with
    | some p => if p = -1 then none else climb build nranks k root ct steps p
    | none => none

/-- Rotation equivariance of a builder at one rank: building for the rank and
the root both shifted by `s` modulo `nranks` gives the parent and the children
of the unshifted build, shifted by `s` modulo `nranks` (no parent stays no
parent). -/
def RotationEquivariant (build : Builder) (rank nranks k root s : Nat)
    (ct ct' : MPIR_Treealgo_tree_t) : Prop :=
  ∃ (p : Int) (l : List Int),
    parentOf (build rank nranks k root ct) = some p ∧
    childrenOf (build rank nranks k root ct) = some l ∧
    parentOf (build (((rank + s) % nranks : Nat) : Int) nranks k
        (((root + s) % nranks : Nat) : Int) ct')
      = some (if p = -1 then -1 else (p + (s : Int)) % (nranks : Int)) ∧
    childrenOf (build (((rank + s) % nranks : Nat) : Int) nranks k
        (((root + s) % nranks : Nat) : Int) ct')
      = some (l.map (fun c => (c + (s : Int)) % (nranks : Int)))

/-- The parent of a builder at one rank is `-1` exactly at the root, and a rank
of the communicator otherwise. -/
def ParentIffRoot (build : Builder) (rank nranks k root : Nat)
    (ct : MPIR_Treealgo_tree_t) : Prop :=
  ∃ p : Int, parentOf (build rank nranks k root ct) = some p ∧
    (p = -1 ↔ rank = root) ∧ (rank ≠ root → 0 ≤ p ∧ p < (nranks : Int))

/-- The rank `rank` reaches the root within `bound` parent steps. -/
def ReachesRoot (build : Builder) (rank nranks k root : Nat) (bound : Nat)
    (ct : MPIR_Treealgo_tree_t) : Prop :=
  ∃ m, m ≤ bound ∧ climb build nranks k root ct m rank = some (root : Int)

/-! ## Logical (root-relative) description of the trees

The builders work on the logical rank `lrank = (rank + nranks - root) mod nranks`
and rotate every rank they emit back by `+ root mod nranks`.  The definitions of
this section describe the trees on logical ranks, as natural numbers. -/

/-- The logical rank of `rank`: the rotation that sends the root to 0. -/
def lrankN (rank nranks root : Nat) : Nat := (rank + (nranks - root)) % nranks

/-- The rank of a logical rank: the rotation back. -/
def rotN (nranks root x : Nat) : Int := (((x + root) % nranks : Nat) : Int)

/-- The parent field for a logical parent: `-1` when there is none. -/
def rotParent (nranks root : Nat) : Option Nat → Int
  | none => -1
  | some p => rotN nranks root p

/-- The record after a sequence of `tree_add_child` calls. -/
def pushed (ct : MPIR_Treealgo_tree_t) (l : List Int) : MPIR_Treealgo_tree_t :=
  { ct with children := ct.children ++ l, num_children := ct.num_children + l.length }

/-- The record a builder leaves for a given parent and children. -/
def treeOf (rank nranks : Nat) (parent : Int) (children : List Int) : MPIR_Treealgo_tree_t :=
  { rank := rank, nranks := nranks, parent := parent,
    num_children := children.length, children := children }

/-- Logical parent in the k-ary tree. -/
def karyParentN (k l : Nat) : Option Nat := if l = 0 then none else some ((l - 1) / k)

/-- Logical children in the k-ary tree, from child index `c` on. -/
def karyChildrenFrom (nranks k l c : Nat) : List Nat :=
  ((List.range' c (k + 1 - c)).filter (fun j => decide (l * k + j < nranks))).map
    (fun j => l * k + j)

/-- Logical children in the k-ary tree. -/
def karyChildrenN (nranks k l : Nat) : List Nat := karyChildrenFrom nranks k l 1

/-- The loop of `tree_ilog` on natural numbers, for `number = n - 1`. -/
def ilogN (k n : Nat) : Nat → Nat → Nat → Nat
  | 0, i, _ => i
  | fuel + 1, i, p => if p < n then ilogN k n fuel (i + 1) (p * k) else i

/-- The depth variant 2 uses for `nranks` ranks: `tree_ilog(k, nranks - 1)`. -/
def depthN (k nranks : Nat) : Nat := ilogN k nranks 63 1 (k - 1)

/-- Base-`k` digit of `x` at position `j`. -/
def digitN (k x j : Nat) : Nat := x / k ^ j % k

/-- The number `x` with its base-`k` digit at position `j` replaced by `v`. -/
def setdigitN (k x j v : Nat) : Nat := x - digitN k x j * k ^ j + v * k ^ j

/-- Position `i` holds the least-significant nonzero base-`k` digit of `l`. -/
def LowDigit (k l i : Nat) : Prop := digitN k l i ≠ 0 ∧ ∀ j < i, digitN k l j = 0

instance (k l i : Nat) : Decidable (LowDigit k l i) := by
  unfold LowDigit; infer_instance

/-- The rule for the children of variant 2 as the specification words it: a
digit position `j` below the depth qualifies when digit `j` of `l` is zero and
every more-significant position below the depth is zero as well; the logical
rank `x` is then `l` with digit `j` replaced by a value `v` in `1 .. k-1`,
provided `x < nranks`. -/
def specLeadingZeroChild (k nranks depth l x : Nat) : Prop :=
  ∃ j v, j < depth ∧ digitN k l j = 0 ∧ (∀ j', j < j' → j' < depth → digitN k l j' = 0) ∧
    1 ≤ v ∧ v ≤ k - 1 ∧ x = setdigitN k l j v ∧ x < nranks

/-- The rule for the children of variant 2 that the code follows: a digit
position `j` below the depth qualifies when digit `j` of `l` and every
less-significant digit of `l` are zero; the logical rank `x` is then `l` with
digit `j` replaced by a value `v` in `1 .. k-1`, provided `x < nranks`. -/
def trailingZeroChild (k nranks depth l x : Nat) : Prop :=
  ∃ j v, j < depth ∧ (∀ j', j' ≤ j → digitN k l j' = 0) ∧
    1 ≤ v ∧ v ≤ k - 1 ∧ x = setdigitN k l j v ∧ x < nranks

/-- Parent loop of variant 2 on logical ranks, from position `i`. -/
def kn2ParentFrom (k l : Nat) : Nat → Nat → Option Nat
  | 0, _ => none
  | fuel + 1, i =>
    if digitN k l i ≠ 0 then some (setdigitN k l i 0) else kn2ParentFrom k l fuel (i + 1)

/-- Logical parent in variant 2. -/
def kn2ParentN (k nranks l : Nat) : Option Nat :=
  if l = 0 then none else kn2ParentFrom k l (depthN k nranks) 0

/-- Number of positions flagged in `flip_bit`, counting from position `j`. -/
def kn2FlipFrom (k l : Nat) : Nat → Nat → Nat
  | 0, j => j
  | fuel + 1, j => if digitN k l j ≠ 0 then j else kn2FlipFrom k l fuel (j + 1)

/-- Number of positions flagged in `flip_bit` by variant 2: positions
`0 .. kn2FlipN - 1` hold 1, the others 0. -/
def kn2FlipN (k nranks l : Nat) : Nat := kn2FlipFrom k l (depthN k nranks) 0

/-- Logical children variant 2 emits for position `j`, trying the digit values
`i, i - 1, .., 1`. -/
def kn2DigitChildren (k nranks l j i : Nat) : List Nat :=
  ((List.range' 1 i).reverse.map (fun v => setdigitN k l j v)).filter
    (fun x => decide (x < nranks))

/-- Logical children variant 2 emits for the positions `m - 1, .., 0`, of which
those below `t` are flagged. -/
def kn2ChildrenUpto (k nranks l t m : Nat) : List Nat :=
  (List.range (min m t)).reverse.flatMap (fun j => kn2DigitChildren k nranks l j (k - 1))

/-- Logical children in variant 2. -/
def kn2ChildrenN (k nranks l : Nat) : List Nat :=
  kn2ChildrenUpto k nranks l (kn2FlipN k nranks l) (depthN k nranks)

/-- The loop that counts `maxstep` in variant 1, on natural numbers. -/
def maxstepFrom (k : Nat) : Nat → Nat → Nat → Nat
  | 0, _, ms => ms
  | fuel + 1, tmp, ms => if tmp ≠ 0 then maxstepFrom k fuel (tmp / k) (ms + 1) else ms

/-- The value of `maxstep` variant 1 computes for `nranks` ranks. -/
def maxstepN (k nranks : Nat) : Nat := maxstepFrom k 63 (nranks - 1) 0

/-- The descent variables of variant 1 on logical ranks:
`(parent, current_rank, running_rank)`. -/
abbrev DescentN := Option Nat × Nat × Nat

/-- The inner loop of the descent of variant 1 on logical ranks: `f` blocks of
size `B` are tried for the target `t`. -/
def kn1Range (B t : Nat) : Nat → DescentN → DescentN
  | 0, st => st
  | f + 1, (par, c, r) =>
    if r ≤ t ∧ t < r + B then (some c, r, r + 1) else kn1Range B t f (par, c, r + B)

/-- The descent of variant 1 on logical ranks towards the target `t`, with `m`
levels left (`m = maxstep - step`); it returns the levels left at the `break`
and the variables. -/
def kn1Descent (k t : Nat) : Nat → DescentN → Nat × DescentN
  | 0, st => (0, st)
  | m + 1, (par, c, r) =>
    if t = c then (m + 1, (par, c, r))
    else kn1Descent k t m (kn1Range (k ^ m) t (k - 1) (par, c, r))

/-- The ranks `crank, crank + B, ..` tried by one pass of the inner loop of the
children phase of variant 1. -/
def kn1Block (B f crank : Nat) : List Nat := (List.range f).map (fun i => crank + i * B)

/-- The candidate children of variant 1 from `crank` on with `m` levels left,
each with the levels left below it. -/
def kn1Slots (k : Nat) : Nat → Nat → List (Nat × Nat)
  | 0, _ => []
  | m + 1, crank =>
    (kn1Block (k ^ m) (k - 1) crank).map (fun x => (x, m))
      ++ kn1Slots k m (crank + (k - 1) * k ^ m)

/-- The result of the descent of variant 1 for the logical rank `t`. -/
def kn1Final (k nranks t : Nat) : Nat × DescentN :=
  kn1Descent k t (maxstepN k nranks) (none, 0, 1)

/-- Levels left below the logical rank `t` in variant 1. -/
def kn1LevelN (k nranks t : Nat) : Nat := (kn1Final k nranks t).1

/-- Logical parent in variant 1. -/
def kn1ParentN (k nranks t : Nat) : Option Nat := (kn1Final k nranks t).2.1

/-- Logical children in variant 1. -/
def kn1ChildrenN (k nranks t : Nat) : List Nat :=
  ((kn1Slots k (kn1LevelN k nranks t) (t + 1)).map Prod.fst).filter
    (fun x => decide (x < nranks))

/-- The descent variables are consistent with the target `t` when `m` levels
are left: the target is the current rank, or it lies in the part of the range
that is still to be scanned. -/
def kn1Valid (k m t : Nat) (st : DescentN) : Prop :=
  st.2.1 < st.2.2 ∧ (t = st.2.1 ∨ (st.2.2 ≤ t ∧ t + 1 < st.2.2 + k ^ m))

/-- The `parent` variable of the descent for a logical parent. -/
def parI : Option Nat → Int
  | none => -1
  | some p => (p : Int)

/-- The descent variables as the builder holds them. -/
def toDescent (st : DescentN) : Descent :=
  { parent := parI st.1, current_rank := (st.2.1 : Int), running_rank := (st.2.2 : Int) }

/-- Follow a logical parent function `steps` times. -/
def lclimb (lpar : Nat → Option Nat) : Nat → Nat → Option Nat
  | 0, l => some l
  | steps + 1, l =>
    match lpar l with
    | some p => lclimb lpar steps p
    | none => none

end Treeutil

/-!
# Dispatchers of the collective layer (`allreduce.c`, `reduce_scatter.c`)

A shallow embedding of the dispatch functions of
`src/mpi/coll/allreduce/allreduce.c` and
`src/mpi/coll/reduce_scatter/reduce_scatter.c`:

* `MPIR_Allreduce_allcomm_auto`, `MPIR_Allreduce_impl`, `MPIR_Allreduce`
* `MPIR_Reduce_scatter_allcomm_auto`, `MPIR_Reduce_scatter_impl`, `MPIR_Reduce_scatter`

The concrete algorithms, the device entry points, the selection lookup and the
staging helpers are defined outside these files; they are the fields of an
environment `Env`.  A call of a dispatch function yields a `Run`: the external
calls it made, in order, and either the status it returned or the `Fault` that
ended it (a failed `MPIR_Assert`).  Pointers are addresses, `0` is `NULL`.
-/

namespace Coll

open Treeutil

/-! ## Communicators, operators, arguments -/

/-- The field `comm_kind` of a communicator; the dispatchers compare it with
`MPIR_COMM_KIND__INTRACOMM` only. -/
inductive MPIR_Comm_kind where
  | MPIR_COMM_KIND__INTRACOMM
  | MPIR_COMM_KIND__INTERCOMM
  deriving DecidableEq, Repr

/-- The fields of `MPIR_Comm` the dispatchers read: `comm_kind`, the size that
`MPIR_Comm_size` returns, and the handle `csel_comm` of the selection
structure. -/
structure MPIR_Comm where
  comm_kind : MPIR_Comm_kind
  local_size : Int
  csel_comm : Int
  deriving DecidableEq, Repr

/-- Modelled from the spec: the type `MPI_Op` is declared in the MPI headers,
which are not among the sources.  The spec describes the reduction-operator
descriptor as one that "includes a commutativity flag". -/
structure MPI_Op where
  handle : Int
  is_commutative : Bool
  deriving DecidableEq, Repr

/-- The arguments of an allreduce call. -/
structure Allreduce_args where
  sendbuf : Int
  recvbuf : Int
  count : Int
  datatype : Int
  op : MPI_Op
  comm_ptr : MPIR_Comm
  errflag : Int
  deriving DecidableEq, Repr

/-- The arguments of a reduce-scatter call; `recvcounts` is the content of the
array of `MPI_Aint` the caller passes. -/
structure Reduce_scatter_args where
  sendbuf : Int
  recvbuf : Int
  recvcounts : List Int
  datatype : Int
  op : MPI_Op
  comm_ptr : MPIR_Comm
  errflag : Int
  deriving DecidableEq, Repr

/-! ## Algorithms and configuration -/

/-- The concrete algorithms the dispatchers can call. -/
inductive Algorithm where
  | MPIR_Allreduce_intra_recursive_doubling
  | MPIR_Allreduce_intra_reduce_scatter_allgather
  | MPIR_Allreduce_intra_smp
  | MPIR_Allreduce_inter_reduce_exchange_bcast
  | MPIR_Allreduce_allcomm_nb
  | MPIR_Reduce_scatter_intra_noncommutative
  | MPIR_Reduce_scatter_intra_pairwise
  | MPIR_Reduce_scatter_intra_recursive_doubling
  | MPIR_Reduce_scatter_intra_recursive_halving
  | MPIR_Reduce_scatter_inter_remote_reduce_local_scatter
  | MPIR_Reduce_scatter_allcomm_nb
  deriving DecidableEq, Repr

/-- Values of `MPIR_CVAR_ALLREDUCE_INTRA_ALGORITHM`, whose enumeration is declared
outside the sources: the ones `MPIR_Allreduce_impl` has a case for, and any
other value. -/
inductive MPIR_CVAR_ALLREDUCE_INTRA_ALGORITHM_t where
  | recursive_doubling
  | reduce_scatter_allgather
  | nb
  | smp
  | auto
  | unrecognized (value : Int)
  deriving DecidableEq, Repr

/-- Values of `MPIR_CVAR_ALLREDUCE_INTER_ALGORITHM`: the ones `MPIR_Allreduce_impl`
has a case for, and any other value. -/
inductive MPIR_CVAR_ALLREDUCE_INTER_ALGORITHM_t where
  | reduce_exchange_bcast
  | nb
  | auto
  | unrecognized (value : Int)
  deriving DecidableEq, Repr

/-- Values of `MPIR_CVAR_REDUCE_SCATTER_INTRA_ALGORITHM`: the ones
`MPIR_Reduce_scatter_impl` has a case for, and any other value. -/
inductive MPIR_CVAR_REDUCE_SCATTER_INTRA_ALGORITHM_t where
  | noncommutative
  | pairwise
  | recursive_halving
  | recursive_doubling
  | nb
  | auto
  | unrecognized (value : Int)
  deriving DecidableEq, Repr

/-- Values of `MPIR_CVAR_REDUCE_SCATTER_INTER_ALGORITHM`: the ones
`MPIR_Reduce_scatter_impl` has a case for, and any other value. -/
inductive MPIR_CVAR_REDUCE_SCATTER_INTER_ALGORITHM_t where
  | remote_reduce_local_scatter
  | nb
  | auto
  | unrecognized (value : Int)
  deriving DecidableEq, Repr

/-- Values of `MPIR_CVAR_DEVICE_COLLECTIVES`: the two the entry points compare
with, and any other value. -/
inductive MPIR_CVAR_DEVICE_COLLECTIVES_t where
  | all
  | percoll
  | other (value : Int)
  deriving DecidableEq, Repr

/-- The field `id` of a selection container, whose enumeration is declared
outside the sources: `ALGORITHM a` is `MPII_CSEL_CONTAINER_TYPE__ALGORITHM__a`,
`other` any other value. -/
inductive MPII_Csel_container_type_e where
  | ALGORITHM (a : Algorithm)
  | other (value : Int)
  deriving DecidableEq, Repr

/-- The container `MPIR_Csel_search` returns. -/
structure MPII_Csel_container_s where
  id : MPII_Csel_container_type_e
  deriving DecidableEq, Repr

/-- The signature `MPIR_Csel_coll_sig_s` the automatic path builds: the kind of
the collective with the arguments of the call. -/
inductive MPIR_Csel_coll_sig_s where
  | MPIR_CSEL_COLL_TYPE__ALLREDUCE (args : Allreduce_args)
  | MPIR_CSEL_COLL_TYPE__REDUCE_SCATTER (args : Reduce_scatter_args)
  deriving DecidableEq, Repr

/-- What lies outside the two files: the configuration variables, the
selection lookup (`none` is a `NULL` container), the status each concrete
algorithm and each device entry point returns for given arguments, and the
host buffers `MPIR_Coll_host_buffer_alloc` hands out (`host_sendbuf`,
`host_recvbuf`; `0` where no staging is needed). -/
structure Env where
  MPIR_CVAR_ALLREDUCE_INTRA_ALGORITHM : MPIR_CVAR_ALLREDUCE_INTRA_ALGORITHM_t
  MPIR_CVAR_ALLREDUCE_INTER_ALGORITHM : MPIR_CVAR_ALLREDUCE_INTER_ALGORITHM_t
  MPIR_CVAR_REDUCE_SCATTER_INTRA_ALGORITHM : MPIR_CVAR_REDUCE_SCATTER_INTRA_ALGORITHM_t
  MPIR_CVAR_REDUCE_SCATTER_INTER_ALGORITHM : MPIR_CVAR_REDUCE_SCATTER_INTER_ALGORITHM_t
  MPIR_CVAR_DEVICE_COLLECTIVES : MPIR_CVAR_DEVICE_COLLECTIVES_t
  MPIR_CVAR_ALLREDUCE_DEVICE_COLLECTIVE : Int
  MPIR_CVAR_REDUCE_SCATTER_DEVICE_COLLECTIVE : Int
  MPIR_Csel_search : Int → MPIR_Csel_coll_sig_s → Option MPII_Csel_container_s
  allreduce_algorithm : Algorithm → Allreduce_args → Int
  reduce_scatter_algorithm : Algorithm → Reduce_scatter_args → Int
  MPID_Allreduce : Allreduce_args → Int
  MPID_Reduce_scatter : Reduce_scatter_args → Int
  MPIR_Coll_host_buffer_alloc : Int → Int → Int → Int → Int × Int

/-! ## Runs -/

/-- An external call made by a dispatch function. -/
inductive Event where
  /-- A concrete allreduce algorithm called with the given arguments. -/
  | allreduce (a : Algorithm) (args : Allreduce_args)
  /-- A concrete reduce-scatter algorithm called with the given arguments. -/
  | reduce_scatter (a : Algorithm) (args : Reduce_scatter_args)
  | MPID_Allreduce (args : Allreduce_args)
  | MPID_Reduce_scatter (args : Reduce_scatter_args)
  | MPIR_Coll_host_buffer_alloc (sendbuf recvbuf count datatype : Int)
  | MPIR_Localcopy (sendbuf sendcount sendtype recvbuf recvcount recvtype : Int)
  | MPIR_Coll_host_buffer_free (host_sendbuf host_recvbuf : Int)
  deriving DecidableEq, Repr

/-- The external calls of a dispatch function, in order, and how it ended: the
status it returned, or the fault that stopped it. -/
structure Run where
  trace : List Event
  outcome : Except Fault Int
  deriving DecidableEq

/-- A failed `MPIR_Assert` before any external call. -/
def assert_fail : Run := { trace := [], outcome := .error .assertion }

/-- Modelled from the spec: `MPIR_ERR_CHECK` is a macro of the error-handling
headers, which are not among the sources.  The spec has the dispatcher "invoke
it, return its `ErrorFlag`/result": the macro sends control to `fn_fail` when
the status is not `MPI_SUCCESS` and leaves the status as it is.  The value says
whether control goes to `fn_fail`. -/
def MPIR_ERR_CHECK (mpi_errno : Int) : Bool := decide (mpi_errno ≠ MPI_SUCCESS)

/-- The end of the four dispatch functions after the `switch`:
`MPIR_ERR_CHECK(mpi_errno); fn_exit: return mpi_errno; fn_fail: goto fn_exit;`. -/
def fn_exit (r : Run) : Run :=
  match r.outcome with
  | .error f => { trace := r.trace, outcome := .error f }
  | .ok mpi_errno =>
    if MPIR_ERR_CHECK mpi_errno then { trace := r.trace, outcome := .ok mpi_errno }
    else { trace := r.trace, outcome := .ok mpi_errno }

/-- A call `mpi_errno = a(sendbuf, recvbuf, count, datatype, op, comm_ptr, errflag)`
of a concrete allreduce algorithm. -/
def call_allreduce (env : Env) (a : Algorithm) (args : Allreduce_args) : Run :=
  { trace := [.allreduce a args], outcome := .ok (env.allreduce_algorithm a args) }

/-- A call `mpi_errno = a(sendbuf, recvbuf, recvcounts, datatype, op, comm_ptr, errflag)`
of a concrete reduce-scatter algorithm. -/
def call_reduce_scatter (env : Env) (a : Algorithm) (args : Reduce_scatter_args) : Run :=
  { trace := [.reduce_scatter a args], outcome := .ok (env.reduce_scatter_algorithm a args) }

/-! ## Allreduce -/

/-- `MPIR_Allreduce_allcomm_auto`: look the signature up in the selection
structure of the communicator and call the algorithm the container names. -/
def MPIR_Allreduce_allcomm_auto (env : Env) (args : Allreduce_args) : Run :=
  let coll_sig := MPIR_Csel_coll_sig_s.MPIR_CSEL_COLL_TYPE__ALLREDUCE args
  match env.MPIR_Csel_search args.comm_ptr.csel_comm coll_sig with
  | none => assert_fail
  | some cnt =>
    match cnt.id with
    | .ALGORITHM .MPIR_Allreduce_intra_recursive_doubling =>
      fn_exit (call_allreduce env .MPIR_Allreduce_intra_recursive_doubling args)
    | .ALGORITHM .MPIR_Allreduce_intra_reduce_scatter_allgather =>
      fn_exit (call_allreduce env .MPIR_Allreduce_intra_reduce_scatter_allgather args)
    | .ALGORITHM .MPIR_Allreduce_intra_smp =>
      fn_exit (call_allreduce env .MPIR_Allreduce_intra_smp args)
    | .ALGORITHM .MPIR_Allreduce_inter_reduce_exchange_bcast =>
      fn_exit (call_allreduce env .MPIR_Allreduce_inter_reduce_exchange_bcast args)
    | .ALGORITHM .MPIR_Allreduce_allcomm_nb =>
      fn_exit (call_allreduce env .MPIR_Allreduce_allcomm_nb args)
    | _ => assert_fail

/-- `MPIR_Allreduce_impl`: the configured value for the kind of the communicator
decides the call. -/
def MPIR_Allreduce_impl (env : Env) (args : Allreduce_args) : Run :=
  if args.comm_ptr.comm_kind = .MPIR_COMM_KIND__INTRACOMM then
    match env.MPIR_CVAR_ALLREDUCE_INTRA_ALGORITHM with
    | .recursive_doubling =>
      fn_exit (call_allreduce env .MPIR_Allreduce_intra_recursive_doubling args)
    | .reduce_scatter_allgather =>
      fn_exit (call_allreduce env .MPIR_Allreduce_intra_reduce_scatter_allgather args)
    | .nb => fn_exit (call_allreduce env .MPIR_Allreduce_allcomm_nb args)
    | .smp => fn_exit (call_allreduce env .MPIR_Allreduce_intra_smp args)
    | .auto => fn_exit (MPIR_Allreduce_allcomm_auto env args)
    | .unrecognized _ => assert_fail
  else
    match env.MPIR_CVAR_ALLREDUCE_INTER_ALGORITHM with
    | .reduce_exchange_bcast =>
      fn_exit (call_allreduce env .MPIR_Allreduce_inter_reduce_exchange_bcast args)
    | .nb => fn_exit (call_allreduce env .MPIR_Allreduce_allcomm_nb args)
    | .auto => fn_exit (MPIR_Allreduce_allcomm_auto env args)
    | .unrecognized _ => assert_fail

/-- The part of `MPIR_Allreduce` and `MPIR_Reduce_scatter` after the dispatched
call `r`: copy the host receive buffer out if there is one, free the host
buffers, return the status.  A dispatched call that is stopped by a fault does
not come back. -/
def staging_epilogue (alloc : Event) (r : Run) (host_sendbuf host_recvbuf in_recvbuf count
    datatype : Int) : Run :=
  match r.outcome with
  | .error f => { trace := alloc :: r.trace, outcome := .error f }
  | .ok mpi_errno =>
    let copy_out : List Event :=
      if host_recvbuf ≠ 0 then
        [.MPIR_Localcopy host_recvbuf count datatype in_recvbuf count datatype]
      else []
    { trace := alloc :: r.trace ++ copy_out
        ++ [.MPIR_Coll_host_buffer_free host_sendbuf host_recvbuf],
      outcome := .ok mpi_errno }

/-- The arguments after staging: `if (host_sendbuf) sendbuf = host_sendbuf;
if (host_recvbuf) recvbuf = host_recvbuf;`. -/
def Allreduce_staged (args : Allreduce_args) (host_sendbuf host_recvbuf : Int) :
    Allreduce_args :=
  { args with
    sendbuf := if host_sendbuf ≠ 0 then host_sendbuf else args.sendbuf,
    recvbuf := if host_recvbuf ≠ 0 then host_recvbuf else args.recvbuf }

/-- The dispatched call of `MPIR_Allreduce`: `MPID_Allreduce` when device
collectives are configured, `MPIR_Allreduce_impl` otherwise. -/
def Allreduce_dispatched (env : Env) (args : Allreduce_args) : Run :=
  if env.MPIR_CVAR_DEVICE_COLLECTIVES = .all ∨
      (env.MPIR_CVAR_DEVICE_COLLECTIVES = .percoll ∧
        env.MPIR_CVAR_ALLREDUCE_DEVICE_COLLECTIVE ≠ 0) then
    { trace := [.MPID_Allreduce args], outcome := .ok (env.MPID_Allreduce args) }
  else MPIR_Allreduce_impl env args

/-- `MPIR_Allreduce`: stage the buffers, dispatch to the device entry point or
to `MPIR_Allreduce_impl`, copy out, free the host buffers. -/
def MPIR_Allreduce (env : Env) (args : Allreduce_args) : Run :=
  let in_recvbuf := args.recvbuf
  let host := env.MPIR_Coll_host_buffer_alloc args.sendbuf args.recvbuf args.count args.datatype
  let host_sendbuf := host.1
  let host_recvbuf := host.2
  let alloc := Event.MPIR_Coll_host_buffer_alloc args.sendbuf args.recvbuf args.count
    args.datatype
  let r := Allreduce_dispatched env (Allreduce_staged args host_sendbuf host_recvbuf)
  staging_epilogue alloc r host_sendbuf host_recvbuf in_recvbuf args.count args.datatype

/-! ## Reduce-scatter -/

/-- `MPIR_Reduce_scatter_allcomm_auto`. -/
def MPIR_Reduce_scatter_allcomm_auto (env : Env) (args : Reduce_scatter_args) : Run :=
  let coll_sig := MPIR_Csel_coll_sig_s.MPIR_CSEL_COLL_TYPE__REDUCE_SCATTER args
  match env.MPIR_Csel_search args.comm_ptr.csel_comm coll_sig with
  | none => assert_fail
  | some cnt =>
    match cnt.id with
    | .ALGORITHM .MPIR_Reduce_scatter_intra_noncommutative =>
      fn_exit (call_reduce_scatter env .MPIR_Reduce_scatter_intra_noncommutative args)
    | .ALGORITHM .MPIR_Reduce_scatter_intra_pairwise =>
      fn_exit (call_reduce_scatter env .MPIR_Reduce_scatter_intra_pairwise args)
    | .ALGORITHM .MPIR_Reduce_scatter_intra_recursive_doubling =>
      fn_exit (call_reduce_scatter env .MPIR_Reduce_scatter_intra_recursive_doubling args)
    | .ALGORITHM .MPIR_Reduce_scatter_intra_recursive_halving =>
      fn_exit (call_reduce_scatter env .MPIR_Reduce_scatter_intra_recursive_halving args)
    | .ALGORITHM .MPIR_Reduce_scatter_inter_remote_reduce_local_scatter =>
      fn_exit (call_reduce_scatter env
        .MPIR_Reduce_scatter_inter_remote_reduce_local_scatter args)
    | .ALGORITHM .MPIR_Reduce_scatter_allcomm_nb =>
      fn_exit (call_reduce_scatter env .MPIR_Reduce_scatter_allcomm_nb args)
    | _ => assert_fail

/-- `MPIR_Reduce_scatter_impl`. -/
def MPIR_Reduce_scatter_impl (env : Env) (args : Reduce_scatter_args) : Run :=
  if args.comm_ptr.comm_kind = .MPIR_COMM_KIND__INTRACOMM then
    match env.MPIR_CVAR_REDUCE_SCATTER_INTRA_ALGORITHM with
    | .noncommutative =>
      fn_exit (call_reduce_scatter env .MPIR_Reduce_scatter_intra_noncommutative args)
    | .pairwise => fn_exit (call_reduce_scatter env .MPIR_Reduce_scatter_intra_pairwise args)
    | .recursive_halving =>
      fn_exit (call_reduce_scatter env .MPIR_Reduce_scatter_intra_recursive_halving args)
    | .recursive_doubling =>
      fn_exit (call_reduce_scatter env .MPIR_Reduce_scatter_intra_recursive_doubling args)
    | .nb => fn_exit (call_reduce_scatter env .MPIR_Reduce_scatter_allcomm_nb args)
    | .auto => fn_exit (MPIR_Reduce_scatter_allcomm_auto env args)
    | .unrecognized _ => assert_fail
  else
    match env.MPIR_CVAR_REDUCE_SCATTER_INTER_ALGORITHM with
    | .remote_reduce_local_scatter =>
      fn_exit (call_reduce_scatter env
        .MPIR_Reduce_scatter_inter_remote_reduce_local_scatter args)
    | .nb => fn_exit (call_reduce_scatter env .MPIR_Reduce_scatter_allcomm_nb args)
    | .auto => fn_exit (MPIR_Reduce_scatter_allcomm_auto env args)
    | .unrecognized _ => assert_fail

/-- The loop `for (int i = 0; i < MPIR_Comm_size(comm_ptr); i++) count += recvcounts[i];`
of `MPIR_Reduce_scatter`: the sum is formed in `MPI_Aint` and stored to the
`int` counter, that is, reduced to 32 bits, at every step.  An entry the
caller's array does not have reads as 0. -/
def reduce_scatter_count (size : Int) (recvcounts : List Int) : Int :=
  (List.range size.toNat).foldl (fun count i => wrap (count + recvcounts.getD i 0)) 0

/-- The arguments after staging: `if (host_sendbuf) sendbuf = host_sendbuf;
if (host_recvbuf) recvbuf = host_recvbuf;`. -/
def Reduce_scatter_staged (args : Reduce_scatter_args) (host_sendbuf host_recvbuf : Int) :
    Reduce_scatter_args :=
  { args with
    sendbuf := if host_sendbuf ≠ 0 then host_sendbuf else args.sendbuf,
    recvbuf := if host_recvbuf ≠ 0 then host_recvbuf else args.recvbuf }

/-- The dispatched call of `MPIR_Reduce_scatter`: `MPID_Reduce_scatter` when
device collectives are configured, `MPIR_Reduce_scatter_impl` otherwise. -/
def Reduce_scatter_dispatched (env : Env) (args : Reduce_scatter_args) : Run :=
  if env.MPIR_CVAR_DEVICE_COLLECTIVES = .all ∨
      (env.MPIR_CVAR_DEVICE_COLLECTIVES = .percoll ∧
        env.MPIR_CVAR_REDUCE_SCATTER_DEVICE_COLLECTIVE ≠ 0) then
    { trace := [.MPID_Reduce_scatter args], outcome := .ok (env.MPID_Reduce_scatter args) }
  else MPIR_Reduce_scatter_impl env args

/-- `MPIR_Reduce_scatter`: add up the receive counts, stage the buffers,
dispatch to the device entry point or to `MPIR_Reduce_scatter_impl`, copy out,
free the host buffers. -/
def MPIR_Reduce_scatter (env : Env) (args : Reduce_scatter_args) : Run :=
  let in_recvbuf := args.recvbuf
  let count := reduce_scatter_count args.comm_ptr.local_size args.recvcounts
  let host := env.MPIR_Coll_host_buffer_alloc args.sendbuf args.recvbuf count args.datatype
  let host_sendbuf := host.1
  let host_recvbuf := host.2
  let alloc := Event.MPIR_Coll_host_buffer_alloc args.sendbuf args.recvbuf count args.datatype
  let r := Reduce_scatter_dispatched env (Reduce_scatter_staged args host_sendbuf host_recvbuf)
  staging_epilogue alloc r host_sendbuf host_recvbuf in_recvbuf count args.datatype

/-! ## Reading a run, and the selection as the specification describes it -/

/-- The concrete algorithms a run called, in order. -/
def invoked (r : Run) : List Algorithm :=
  r.trace.filterMap fun e =>
    match e with
    | .allreduce a _ => some a
    | .reduce_scatter a _ => some a
    | _ => none

/-- The host buffer pairs a run passed to `MPIR_Coll_host_buffer_free`, in order. -/
def freed (r : Run) : List (Int × Int) :=
  r.trace.filterMap fun e =>
    match e with
    | .MPIR_Coll_host_buffer_free s r => some (s, r)
    | _ => none

/-- The namesake algorithm of a value of `MPIR_CVAR_ALLREDUCE_INTRA_ALGORITHM`
other than `auto`. -/
def allreduce_intra_namesake : MPIR_CVAR_ALLREDUCE_INTRA_ALGORITHM_t → Option Algorithm
  | .recursive_doubling => some .MPIR_Allreduce_intra_recursive_doubling
  | .reduce_scatter_allgather => some .MPIR_Allreduce_intra_reduce_scatter_allgather
  | .nb => some .MPIR_Allreduce_allcomm_nb
  | .smp => some .MPIR_Allreduce_intra_smp
  | .auto => none
  | .unrecognized _ => none

/-- The namesake algorithm of a value of `MPIR_CVAR_ALLREDUCE_INTER_ALGORITHM`
other than `auto`. -/
def allreduce_inter_namesake : MPIR_CVAR_ALLREDUCE_INTER_ALGORITHM_t → Option Algorithm
  | .reduce_exchange_bcast => some .MPIR_Allreduce_inter_reduce_exchange_bcast
  | .nb => some .MPIR_Allreduce_allcomm_nb
  | .auto => none
  | .unrecognized _ => none

/-- The namesake algorithm of a value of
`MPIR_CVAR_REDUCE_SCATTER_INTRA_ALGORITHM` other than `auto`. -/
def reduce_scatter_intra_namesake :
    MPIR_CVAR_REDUCE_SCATTER_INTRA_ALGORITHM_t → Option Algorithm
  | .noncommutative => some .MPIR_Reduce_scatter_intra_noncommutative
  | .pairwise => some .MPIR_Reduce_scatter_intra_pairwise
  | .recursive_halving => some .MPIR_Reduce_scatter_intra_recursive_halving
  | .recursive_doubling => some .MPIR_Reduce_scatter_intra_recursive_doubling
  | .nb => some .MPIR_Reduce_scatter_allcomm_nb
  | .auto => none
  | .unrecognized _ => none

/-- The namesake algorithm of a value of
`MPIR_CVAR_REDUCE_SCATTER_INTER_ALGORITHM` other than `auto`. -/
def reduce_scatter_inter_namesake :
    MPIR_CVAR_REDUCE_SCATTER_INTER_ALGORITHM_t → Option Algorithm
  | .remote_reduce_local_scatter => some .MPIR_Reduce_scatter_inter_remote_reduce_local_scatter
  | .nb => some .MPIR_Reduce_scatter_allcomm_nb
  | .auto => none
  | .unrecognized _ => none

/-- Manual selection for allreduce: the namesake of the value configured for
the kind of the communicator, if that value is recognized and not `auto`. -/
def allreduce_manual (env : Env) (kind : MPIR_Comm_kind) : Option Algorithm :=
  match kind with
  | .MPIR_COMM_KIND__INTRACOMM =>
    allreduce_intra_namesake env.MPIR_CVAR_ALLREDUCE_INTRA_ALGORITHM
  | .MPIR_COMM_KIND__INTERCOMM =>
    allreduce_inter_namesake env.MPIR_CVAR_ALLREDUCE_INTER_ALGORITHM

/-- Manual selection for reduce-scatter. -/
def reduce_scatter_manual (env : Env) (kind : MPIR_Comm_kind) : Option Algorithm :=
  match kind with
  | .MPIR_COMM_KIND__INTRACOMM =>
    reduce_scatter_intra_namesake env.MPIR_CVAR_REDUCE_SCATTER_INTRA_ALGORITHM
  | .MPIR_COMM_KIND__INTERCOMM =>
    reduce_scatter_inter_namesake env.MPIR_CVAR_REDUCE_SCATTER_INTER_ALGORITHM

/-- The value configured for allreduce on communicators of this kind is `auto`. -/
def allreduce_auto_configured (env : Env) (kind : MPIR_Comm_kind) : Prop :=
  match kind with
  | .MPIR_COMM_KIND__INTRACOMM => env.MPIR_CVAR_ALLREDUCE_INTRA_ALGORITHM = .auto
  | .MPIR_COMM_KIND__INTERCOMM => env.MPIR_CVAR_ALLREDUCE_INTER_ALGORITHM = .auto

/-- The value configured for reduce-scatter on communicators of this kind is
`auto`. -/
def reduce_scatter_auto_configured (env : Env) (kind : MPIR_Comm_kind) : Prop :=
  match kind with
  | .MPIR_COMM_KIND__INTRACOMM => env.MPIR_CVAR_REDUCE_SCATTER_INTRA_ALGORITHM = .auto
  | .MPIR_COMM_KIND__INTERCOMM => env.MPIR_CVAR_REDUCE_SCATTER_INTER_ALGORITHM = .auto

instance (env : Env) (kind : MPIR_Comm_kind) :
    Decidable (allreduce_auto_configured env kind) := by
  unfold allreduce_auto_configured; cases kind <;> infer_instance

instance (env : Env) (kind : MPIR_Comm_kind) :
    Decidable (reduce_scatter_auto_configured env kind) := by
  unfold reduce_scatter_auto_configured; cases kind <;> infer_instance

/-- The algorithm a container id stands for in the automatic path of
allreduce, if the id is one of those with a case there. -/
def allreduce_case : MPII_Csel_container_type_e → Option Algorithm
  | .ALGORITHM .MPIR_Allreduce_intra_recursive_doubling =>
    some .MPIR_Allreduce_intra_recursive_doubling
  | .ALGORITHM .MPIR_Allreduce_intra_reduce_scatter_allgather =>
    some .MPIR_Allreduce_intra_reduce_scatter_allgather
  | .ALGORITHM .MPIR_Allreduce_intra_smp => some .MPIR_Allreduce_intra_smp
  | .ALGORITHM .MPIR_Allreduce_inter_reduce_exchange_bcast =>
    some .MPIR_Allreduce_inter_reduce_exchange_bcast
  | .ALGORITHM .MPIR_Allreduce_allcomm_nb => some .MPIR_Allreduce_allcomm_nb
  | _ => none

/-- The algorithm a container id stands for in the automatic path of
reduce-scatter, if the id is one of those with a case there. -/
def reduce_scatter_case : MPII_Csel_container_type_e → Option Algorithm
  | .ALGORITHM .MPIR_Reduce_scatter_intra_noncommutative =>
    some .MPIR_Reduce_scatter_intra_noncommutative
  | .ALGORITHM .MPIR_Reduce_scatter_intra_pairwise => some .MPIR_Reduce_scatter_intra_pairwise
  | .ALGORITHM .MPIR_Reduce_scatter_intra_recursive_doubling =>
    some .MPIR_Reduce_scatter_intra_recursive_doubling
  | .ALGORITHM .MPIR_Reduce_scatter_intra_recursive_halving =>
    some .MPIR_Reduce_scatter_intra_recursive_halving
  | .ALGORITHM .MPIR_Reduce_scatter_inter_remote_reduce_local_scatter =>
    some .MPIR_Reduce_scatter_inter_remote_reduce_local_scatter
  | .ALGORITHM .MPIR_Reduce_scatter_allcomm_nb => some .MPIR_Reduce_scatter_allcomm_nb
  | _ => none

/-- Automatic selection for allreduce: the algorithm of the container the
lookup returns for the signature of the call, if there is one with a case. -/
def allreduce_auto_selection (env : Env) (args : Allreduce_args) : Option Algorithm :=
  (env.MPIR_Csel_search args.comm_ptr.csel_comm (.MPIR_CSEL_COLL_TYPE__ALLREDUCE args)).bind
    fun cnt => allreduce_case cnt.id

/-- Automatic selection for reduce-scatter. -/
def reduce_scatter_auto_selection (env : Env) (args : Reduce_scatter_args) :
    Option Algorithm :=
  (env.MPIR_Csel_search args.comm_ptr.csel_comm
    (.MPIR_CSEL_COLL_TYPE__REDUCE_SCATTER args)).bind fun cnt => reduce_scatter_case cnt.id

/-- The recognized selection of an allreduce call, manual or automatic; `none`
when the selection is outside the recognized set. -/
def allreduce_selection (env : Env) (args : Allreduce_args) : Option Algorithm :=
  if allreduce_auto_configured env args.comm_ptr.comm_kind then allreduce_auto_selection env args
  else allreduce_manual env args.comm_ptr.comm_kind

/-- The recognized selection of a reduce-scatter call, manual or automatic;
`none` when the selection is outside the recognized set. -/
def reduce_scatter_selection (env : Env) (args : Reduce_scatter_args) : Option Algorithm :=
  if reduce_scatter_auto_configured env args.comm_ptr.comm_kind then
    reduce_scatter_auto_selection env args
  else reduce_scatter_manual env args.comm_ptr.comm_kind

/-- What the allreduce dispatch functions do for a selection as the
specification has it: one call of the selected algorithm with the arguments of
the call, whose status is returned; a failed assertion, and no call, when the
selection is outside the recognized set. -/
def dispatch_allreduce (env : Env) (args : Allreduce_args) : Option Algorithm → Run
  | some a => { trace := [.allreduce a args], outcome := .ok (env.allreduce_algorithm a args) }
  | none => { trace := [], outcome := .error .assertion }

/-- What the reduce-scatter dispatch functions do for a selection as the
specification has it. -/
def dispatch_reduce_scatter (env : Env) (args : Reduce_scatter_args) : Option Algorithm → Run
  | some a =>
    { trace := [.reduce_scatter a args], outcome := .ok (env.reduce_scatter_algorithm a args) }
  | none => { trace := [], outcome := .error .assertion }

/-- The host buffers `MPIR_Allreduce` obtains for a call. -/
def Allreduce_host (env : Env) (args : Allreduce_args) : Int × Int :=
  env.MPIR_Coll_host_buffer_alloc args.sendbuf args.recvbuf args.count args.datatype

/-- The host buffers `MPIR_Reduce_scatter` obtains for a call. -/
def Reduce_scatter_host (env : Env) (args : Reduce_scatter_args) : Int × Int :=
  env.MPIR_Coll_host_buffer_alloc args.sendbuf args.recvbuf
    (reduce_scatter_count args.comm_ptr.local_size args.recvcounts) args.datatype

/-- The element counts a run passed to `MPIR_Coll_host_buffer_alloc` and, as
send count and receive count, to `MPIR_Localcopy`, in order. -/
def staging_counts (r : Run) : List Int :=
  r.trace.flatMap fun e =>
    match e with
    | .MPIR_Coll_host_buffer_alloc _ _ count _ => [count]
    | .MPIR_Localcopy _ sendcount _ _ recvcount _ => [sendcount, recvcount]
    | _ => []

/-! ## A concrete environment -/

/-- An environment for concrete evaluations: manual values for
intracommunicators, `auto` and an unrecognized value for intercommunicators, a
lookup that knows allreduce only, algorithms that return a status taken from
their arguments, and staging of the receive buffer only. -/
def env0 : Env where
  MPIR_CVAR_ALLREDUCE_INTRA_ALGORITHM := .recursive_doubling
  MPIR_CVAR_ALLREDUCE_INTER_ALGORITHM := .auto
  MPIR_CVAR_REDUCE_SCATTER_INTRA_ALGORITHM := .pairwise
  MPIR_CVAR_REDUCE_SCATTER_INTER_ALGORITHM := .unrecognized 7
  MPIR_CVAR_DEVICE_COLLECTIVES := .other 0
  MPIR_CVAR_ALLREDUCE_DEVICE_COLLECTIVE := 0
  MPIR_CVAR_REDUCE_SCATTER_DEVICE_COLLECTIVE := 0
  MPIR_Csel_search := fun _ coll_sig =>
    match coll_sig with
    | .MPIR_CSEL_COLL_TYPE__ALLREDUCE _ => some ⟨.ALGORITHM .MPIR_Allreduce_allcomm_nb⟩
    | .MPIR_CSEL_COLL_TYPE__REDUCE_SCATTER _ => none
  allreduce_algorithm := fun _ args => args.count
  reduce_scatter_algorithm := fun _ args => args.datatype
  MPID_Allreduce := fun _ => 0
  MPID_Reduce_scatter := fun _ => 0
  MPIR_Coll_host_buffer_alloc := fun _ _ _ _ => (0, 4096)

/-- The environment `env0` with `auto` configured for reduce-scatter on
intracommunicators, a lookup that returns the container of the pairwise
algorithm, and device collectives for allreduce. -/
def env1 : Env :=
  { env0 with
    MPIR_CVAR_REDUCE_SCATTER_INTRA_ALGORITHM := .auto,
    MPIR_CVAR_DEVICE_COLLECTIVES := .percoll,
    MPIR_CVAR_ALLREDUCE_DEVICE_COLLECTIVE := 1,
    MPID_Allreduce := fun _ => 15,
    MPIR_Csel_search := fun _ _ => some ⟨.ALGORITHM .MPIR_Reduce_scatter_intra_pairwise⟩ }

/-- An intracommunicator of 4 ranks. -/
def intra4 : MPIR_Comm :=
  { comm_kind := .MPIR_COMM_KIND__INTRACOMM, local_size := 4, csel_comm := 1 }

/-- An intercommunicator whose local group has 4 ranks. -/
def inter4 : MPIR_Comm :=
  { comm_kind := .MPIR_COMM_KIND__INTERCOMM, local_size := 4, csel_comm := 2 }

/-- An intracommunicator of 2 ranks. -/
def intra2 : MPIR_Comm :=
  { comm_kind := .MPIR_COMM_KIND__INTRACOMM, local_size := 2, csel_comm := 1 }

/-- An allreduce call with a non-commutative operator. -/
def allreduce0 (comm_ptr : MPIR_Comm) : Allreduce_args :=
  { sendbuf := 100, recvbuf := 200, count := 5, datatype := 3,
    op := { handle := 1, is_commutative := false }, comm_ptr := comm_ptr, errflag := 300 }

/-- A reduce-scatter call with a non-commutative operator. -/
def reduce_scatter0 (comm_ptr : MPIR_Comm) : Reduce_scatter_args :=
  { sendbuf := 100, recvbuf := 200, recvcounts := [1, 2, 3, 4], datatype := 3,
    op := { handle := 1, is_commutative := false }, comm_ptr := comm_ptr, errflag := 300 }

end Coll

/-! # Theorems -/

set_option maxRecDepth 100000

namespace Treeutil

/-! ## Machine arithmetic on values in range -/

theorem wrap_id {x : Int} (h1 : 0 ≤ x) (h2 : x ≤ 2147483647) : wrap x = x := by
  unfold wrap; omega

theorem wrap_range {x : Int} (h1 : -2147483648 ≤ x) (h2 : x ≤ 2147483647) : wrap x = x := by
  unfold wrap; omega

theorem iadd_cast {a b : Nat} (h : a + b ≤ 2147483647) :
    iadd (a : Int) (b : Int) = ((a + b : Nat) : Int) := by
  unfold iadd; rw [wrap_id] <;> push_cast <;> omega

theorem isub_cast {a b : Nat} (h : b ≤ a) (h2 : a ≤ 2147483647) :
    isub (a : Int) (b : Int) = ((a - b : Nat) : Int) := by
  unfold isub; rw [wrap_id] <;> omega

theorem imul_cast {a b : Nat} (h : a * b ≤ 2147483647) :
    imul (a : Int) (b : Int) = ((a * b : Nat) : Int) := by
  unfold imul
  have : ((a : Int) * (b : Int)) = ((a * b : Nat) : Int) := by push_cast; rfl
  rw [this, wrap_id] <;> omega

theorem idiv_cast {a b : Nat} (h : a ≤ 2147483647) :
    idiv (a : Int) (b : Int) = ((a / b : Nat) : Int) := by
  unfold idiv
  rw [← Int.ofNat_tdiv, wrap_id]
  · exact Int.ofNat_nonneg _
  · have := Nat.div_le_self a b
    have h3 : ((a / b : Nat) : Int) ≤ (a : Int) := by exact_mod_cast this
    omega

theorem imod_cast (a b : Nat) : imod (a : Int) (b : Int) = ((a % b : Nat) : Int) := by
  unfold imod; rw [← Int.ofNat_tmod]

theorem wrap_pow_cast {k e : Nat} (h : k ^ e ≤ 2147483647) :
    wrap ((k : Int) ^ e) = ((k ^ e : Nat) : Int) := by
  have : ((k : Int) ^ e) = ((k ^ e : Nat) : Int) := by push_cast; rfl
  rw [this, wrap_id] <;> omega

theorem iadd_one_cast {a : Nat} (h : a + 1 ≤ 2147483647) :
    iadd (a : Int) 1 = ((a + 1 : Nat) : Int) := by
  have := iadd_cast (a := a) (b := 1) h
  simpa using this

theorem isub_one_cast {a : Nat} (h : 1 ≤ a) (h2 : a ≤ 2147483647) :
    isub (a : Int) 1 = ((a - 1 : Nat) : Int) := by
  have := isub_cast (a := a) (b := 1) h h2
  simpa using this

/-! ## Bookkeeping of the children array -/

theorem pushed_nil (ct : MPIR_Treealgo_tree_t) : pushed ct [] = ct := by
  simp [pushed]

theorem pushed_pushed (ct : MPIR_Treealgo_tree_t) (a b : List Int) :
    pushed (pushed ct a) b = pushed ct (a ++ b) := by
  simp [pushed, List.append_assoc, add_assoc]

theorem tree_add_child_eq (ct : MPIR_Treealgo_tree_t) (x : Int)
    (h0 : 0 ≤ ct.num_children) (h1 : ct.num_children < 2147483647) :
    tree_add_child ct x = (MPI_SUCCESS, pushed ct [x]) := by
  unfold tree_add_child pushed iadd
  rw [wrap_id (by omega) (by omega)]
  simp

theorem pushed_num (ct : MPIR_Treealgo_tree_t) (l : List Int) :
    (pushed ct l).num_children = ct.num_children + l.length := rfl

/-! ## Rotation -/

theorem lrankN_lt {rank nranks root : Nat} (hn : 1 ≤ nranks) : lrankN rank nranks root < nranks :=
  Nat.mod_lt _ (by omega)

theorem lrank_cast {rank nranks root : Nat} (hr : rank < nranks) (hroot : root < nranks)
    (hb : 2 * nranks ≤ 2147483648) :
    imod (iadd (rank : Int) (isub (nranks : Int) (root : Int))) (nranks : Int)
      = ((lrankN rank nranks root : Nat) : Int) := by
  rw [isub_cast (by omega) (by omega), iadd_cast (by omega), imod_cast]
  rfl

theorem rot_cast {nranks root x : Nat} (hx : x + root ≤ 2147483647) :
    imod (iadd (x : Int) (root : Int)) (nranks : Int) = rotN nranks root x := by
  rw [iadd_cast hx, imod_cast]
  rfl

/-! ## The k-ary builder computes the logical description -/

theorem karyChildrenFrom_stop {nranks k l c : Nat} (h : nranks ≤ l * k + c) :
    karyChildrenFrom nranks k l c = [] := by
  unfold karyChildrenFrom
  rw [List.map_eq_nil_iff, List.filter_eq_nil_iff]
  intro a ha
  rw [List.mem_range'_1] at ha
  simp only [decide_eq_true_eq]
  omega

theorem karyChildrenFrom_step {nranks k l c : Nat} (hc : c ≤ k) (h : l * k + c < nranks) :
    karyChildrenFrom nranks k l c = (l * k + c) :: karyChildrenFrom nranks k l (c + 1) := by
  unfold karyChildrenFrom
  have e : k + 1 - c = (k + 1 - (c + 1)) + 1 := by omega
  rw [e, List.range'_succ, List.filter_cons_of_pos (by simpa using h), List.map_cons]

theorem karyChildrenFrom_end {nranks k l c : Nat} (hc : k < c) :
    karyChildrenFrom nranks k l c = [] := by
  unfold karyChildrenFrom
  have e : k + 1 - c = 0 := by omega
  rw [e]; rfl

theorem kary_child_loop_eq (l nranks k root : Nat) (hl : l < nranks) (hroot : root < nranks)
    (hb : nranks * (k + 1) ≤ 2147483647) :
    ∀ (fuel c : Nat) (ct : MPIR_Treealgo_tree_t), 1 ≤ c → c ≤ k + 1 → k + 2 ≤ fuel + c →
      0 ≤ ct.num_children → ct.num_children + k < 2147483647 + c →
      kary_child_loop l nranks k root fuel c ct
        = .ok (MPI_SUCCESS, pushed ct ((karyChildrenFrom nranks k l c).map (rotN nranks root))) := by
  intro fuel
  induction fuel with
  | zero => intro c ct h1 h2 h3; omega
  | succ fuel ih =>
    intro c ct h1 h2 h3 h4 h5
    have hnk : nranks * k + nranks ≤ 2147483647 := by rw [← Nat.mul_succ]; exact hb
    have hlk : l * k + k ≤ nranks * k := by
      have : (l + 1) * k ≤ nranks * k := Nat.mul_le_mul_right k hl
      rw [Nat.succ_mul] at this; exact this
    unfold kary_child_loop
    by_cases hck : c ≤ k
    · have hck' : (c : Int) ≤ (k : Int) := by exact_mod_cast hck
      rw [if_pos hck', imul_cast (by omega), iadd_cast (by omega)]
      by_cases hv : nranks ≤ l * k + c
      · have hv' : ((l * k + c : Nat) : Int) ≥ (nranks : Int) := by exact_mod_cast hv
        simp only [hv', if_true]
        rw [karyChildrenFrom_stop hv]
        simp [pushed_nil]
      · have hv' : ¬ ((l * k + c : Nat) : Int) ≥ (nranks : Int) := by
          intro hh; exact hv (by exact_mod_cast hh)
        simp only [hv', if_false]
        rw [rot_cast (by omega), tree_add_child_eq ct _ h4 (by omega)]
        simp only [ne_eq, not_true_eq_false, if_false]
        rw [iadd_one_cast (by omega), ih (c + 1) _ (by omega) (by omega) (by omega)
          (by rw [pushed_num]; simp; omega) (by rw [pushed_num]; simp; omega)]
        rw [pushed_pushed, karyChildrenFrom_step hck (by omega)]
        simp
    · have hck' : ¬ (c : Int) ≤ (k : Int) := by
        intro hh; exact hck (by exact_mod_cast hh)
      rw [if_neg hck', karyChildrenFrom_end (by omega)]
      simp [pushed_nil]

theorem kary_init_eq (rank nranks k root : Nat) (hn : 1 ≤ nranks) (hk : 1 ≤ k)
    (hr : rank < nranks) (hroot : root < nranks) (hb : nranks * (k + 1) ≤ 2147483647)
    (ct : MPIR_Treealgo_tree_t) :
    MPII_Treeutil_tree_kary_init rank nranks k root ct
      = .ok (MPI_SUCCESS, treeOf rank nranks
          (rotParent nranks root (karyParentN k (lrankN rank nranks root)))
          ((karyChildrenN nranks k (lrankN rank nranks root)).map (rotN nranks root))) := by
  have hnk : nranks * k + nranks ≤ 2147483647 := by rw [← Nat.mul_succ]; exact hb
  have hkn : nranks ≤ nranks * k := Nat.le_mul_of_pos_right _ hk
  have hkk : k ≤ nranks * k := Nat.le_mul_of_pos_left _ hn
  have hl := @lrankN_lt rank nranks root hn
  unfold MPII_Treeutil_tree_kary_init
  have h1 : ((nranks : Int) ≥ 0) := by positivity
  have h2 : ¬ ((nranks : Int) = 0) := by omega
  have h3 : ¬ ((k : Int) = 0) := by omega
  simp only [h1, not_true_eq_false, if_false, h2, h3, and_false]
  rw [lrank_cast hr hroot (by omega)]
  have e1 : (1 : Int) = ((1 : Nat) : Int) := rfl
  rw [Int.toNat_natCast, e1]
  rw [kary_child_loop_eq _ nranks k root hl hroot hb _ 1 _ (by omega) (by omega)
    (by omega) (by simp) (by simp; omega)]
  congr 2
  unfold treeOf pushed karyChildrenN
  simp only [List.nil_append, List.length_map, zero_add]
  congr 1
  unfold karyParentN rotParent
  by_cases h0 : lrankN rank nranks root = 0
  · simp [h0]
  · have h0' : ¬ ((lrankN rank nranks root : Nat) : Int) = 0 := by exact_mod_cast h0
    simp only [h0', if_false, h0]
    rw [isub_cast (by omega) (by omega), idiv_cast (by omega), rot_cast]
    have := Nat.div_le_self (lrankN rank nranks root - 1) k
    omega

/-! ## Rotation arithmetic -/

theorem mod_two {a n : Nat} (h : a < 2 * n) : a % n = if a < n then a else a - n := by
  split
  · next h1 => exact Nat.mod_eq_of_lt h1
  · next h1 =>
    rw [Nat.mod_eq_sub_mod (by omega), Nat.mod_eq_of_lt (by omega)]

theorem lrankN_eq {rank nranks root : Nat} (hr : rank < nranks) (hroot : root < nranks) :
    lrankN rank nranks root = if root ≤ rank then rank - root else rank + nranks - root := by
  unfold lrankN
  rw [mod_two (by omega)]
  split <;> split <;> omega

theorem lrankN_zero_iff {rank nranks root : Nat} (hr : rank < nranks) (hroot : root < nranks) :
    lrankN rank nranks root = 0 ↔ rank = root := by
  rw [lrankN_eq hr hroot]
  split <;> omega

theorem rotN_eq {nranks root x : Nat} (hx : x < nranks) (hroot : root < nranks) :
    rotN nranks root x = ((if x + root < nranks then x + root else x + root - nranks : Nat) : Int) := by
  unfold rotN
  rw [mod_two (by omega)]

theorem rotN_nonneg (nranks root x : Nat) : 0 ≤ rotN nranks root x := by
  unfold rotN; exact Int.ofNat_nonneg _

theorem rotN_lt {nranks : Nat} (root x : Nat) (hn : 1 ≤ nranks) :
    rotN nranks root x < (nranks : Int) := by
  unfold rotN
  exact_mod_cast Nat.mod_lt _ (by omega)

theorem rotN_lrankN {rank nranks root : Nat} (hr : rank < nranks) (hroot : root < nranks) :
    rotN nranks root (lrankN rank nranks root) = (rank : Int) := by
  rw [rotN_eq (lrankN_lt (by omega)) hroot, lrankN_eq hr hroot]
  congr 1
  split <;> split <;> omega

theorem rotN_zero {nranks root : Nat} (hroot : root < nranks) :
    rotN nranks root 0 = (root : Int) := by
  rw [rotN_eq (by omega) hroot]
  congr 1
  split <;> omega

theorem rotN_inj {nranks root x y : Nat} (hx : x < nranks) (hy : y < nranks)
    (hroot : root < nranks) (h : rotN nranks root x = rotN nranks root y) : x = y := by
  rw [rotN_eq hx hroot, rotN_eq hy hroot] at h
  have h' := Int.ofNat_inj.mp h
  split at h' <;> split at h' <;> omega

theorem rotN_eq_iff {nranks root x c : Nat} (hx : x < nranks) (hc : c < nranks)
    (hroot : root < nranks) : rotN nranks root x = (c : Int) ↔ x = lrankN c nranks root := by
  constructor
  · intro h
    rw [← rotN_lrankN hc hroot] at h
    exact rotN_inj hx (lrankN_lt (by omega)) hroot h
  · intro h
    rw [h, rotN_lrankN hc hroot]

theorem lrankN_shift {rank nranks root s : Nat} (hr : rank < nranks) (hroot : root < nranks)
    (hs : s < nranks) :
    lrankN ((rank + s) % nranks) nranks ((root + s) % nranks) = lrankN rank nranks root := by
  have h1 : (rank + s) % nranks < nranks := Nat.mod_lt _ (by omega)
  have h2 : (root + s) % nranks < nranks := Nat.mod_lt _ (by omega)
  rw [lrankN_eq h1 h2, lrankN_eq hr hroot]
  rw [mod_two (a := rank + s) (by omega), mod_two (a := root + s) (by omega)]
  split <;> split <;> split <;> split <;> omega

theorem rotN_shift {nranks root s x : Nat} (hx : x < nranks) (hroot : root < nranks)
    (hs : s < nranks) :
    rotN nranks ((root + s) % nranks) x = (rotN nranks root x + (s : Int)) % (nranks : Int) := by
  have h2 : (root + s) % nranks < nranks := Nat.mod_lt _ (by omega)
  rw [rotN_eq hx h2, rotN_eq hx hroot]
  rw [← Int.natCast_add, ← Int.natCast_mod]
  congr 1
  rw [mod_two (a := root + s) (by omega)]
  rw [mod_two (a := (if x + root < nranks then x + root else x + root - nranks) + s)
    (by split <;> omega)]
  split <;> split <;> split <;> split <;> omega

/-! ## Children lists under rotation -/

theorem count_rot_children {nranks root : Nat} (kids : List Nat) (hroot : root < nranks)
    (hk : ∀ x ∈ kids, x < nranks) (hnd : kids.Nodup) {c : Nat} (hc : c < nranks) :
    (kids.map (rotN nranks root)).count (c : Int)
      = if lrankN c nranks root ∈ kids then 1 else 0 := by
  have hnd' : (kids.map (rotN nranks root)).Nodup := by
    apply List.Nodup.map_on _ hnd
    intro x hx y hy hxy
    exact rotN_inj (hk x hx) (hk y hy) hroot hxy
  have hmem : (c : Int) ∈ kids.map (rotN nranks root) ↔ lrankN c nranks root ∈ kids := by
    rw [List.mem_map]
    constructor
    · rintro ⟨x, hx, hxc⟩
      rw [rotN_eq_iff (hk x hx) hc hroot] at hxc
      rw [← hxc]; exact hx
    · intro h
      exact ⟨_, h, rotN_lrankN hc hroot⟩
  split
  · next h => exact List.count_eq_one_of_mem hnd' (hmem.mpr h)
  · next h => exact List.count_eq_zero.mpr (fun hh => h (hmem.mp hh))

theorem rotParent_eq_iff {nranks root : Nat} (hroot : root < nranks) (o : Option Nat)
    (ho : ∀ x, o = some x → x < nranks) {p : Nat} (hp : p < nranks) :
    rotParent nranks root o = (p : Int) ↔ o = some (lrankN p nranks root) := by
  cases o with
  | none =>
    simp only [rotParent]
    constructor
    · intro h; omega
    · intro h; cases h
  | some x =>
    simp only [rotParent, Option.some.injEq]
    exact rotN_eq_iff (ho x rfl) hp hroot

theorem rotParent_neg_iff (nranks root : Nat) (o : Option Nat) :
    rotParent nranks root o = -1 ↔ o = none := by
  cases o with
  | none => simp [rotParent]
  | some x =>
    simp only [rotParent]
    have := rotN_nonneg nranks root x
    constructor
    · intro h; omega
    · intro h; cases h

/-! ## Climbing by parents -/

theorem climb_of_lclimb (build : Builder) (lpar : Nat → Option Nat) (nranks root : Nat)
    (kk : Int) (ct : MPIR_Treealgo_tree_t) (hroot : root < nranks)
    (hpar : ∀ rank : Nat, rank < nranks →
      parentOf (build rank nranks kk root ct)
        = some (rotParent nranks root (lpar (lrankN rank nranks root))))
    (hlt : ∀ l p, l < nranks → lpar l = some p → p < nranks) :
    ∀ (m l : Nat), l < nranks → lclimb lpar m l = some 0 →
      climb build nranks kk root ct m (rotN nranks root l) = some (root : Int) := by
  intro m
  induction m with
  | zero =>
    intro l _ h
    simp only [lclimb, Option.some.injEq] at h
    simp only [climb, h, rotN_zero hroot]
  | succ m ih =>
    intro l hl h
    have hl2 : (l + root) % nranks < nranks := Nat.mod_lt _ (by omega)
    have e : rotN nranks root l = (((l + root) % nranks : Nat) : Int) := rfl
    have hlr : lrankN ((l + root) % nranks) nranks root = l := by
      have := rotN_eq_iff (x := l) (c := (l + root) % nranks) hl hl2 hroot
      exact (this.mp e).symm
    simp only [lclimb] at h
    simp only [climb]
    rw [e, hpar _ hl2, hlr]
    cases hp : lpar l with
    | none => rw [hp] at h; cases h
    | some p =>
      rw [hp] at h
      simp only [rotParent]
      have hne : ¬ (rotN nranks root p = -1) := by
        have := rotN_nonneg nranks root p
        omega
      rw [if_neg hne]
      exact ih p (hlt l p hl hp) h

/-! ## The k-ary tree on logical ranks -/

theorem mem_karyChildrenN {nranks k l x : Nat} :
    x ∈ karyChildrenN nranks k l ↔ ∃ j, 1 ≤ j ∧ j ≤ k ∧ l * k + j < nranks ∧ x = l * k + j := by
  unfold karyChildrenN karyChildrenFrom
  simp only [List.mem_map, List.mem_filter, List.mem_range'_1, decide_eq_true_eq]
  constructor
  · rintro ⟨j, ⟨⟨h1, h2⟩, h3⟩, rfl⟩
    exact ⟨j, h1, by omega, h3, rfl⟩
  · rintro ⟨j, h1, h2, h3, rfl⟩
    exact ⟨j, ⟨⟨h1, by omega⟩, h3⟩, rfl⟩

theorem karyChildrenN_lt {nranks k l x : Nat} (h : x ∈ karyChildrenN nranks k l) : x < nranks := by
  obtain ⟨j, _, _, h3, rfl⟩ := mem_karyChildrenN.mp h
  exact h3

theorem karyChildrenN_nodup (nranks k l : Nat) : (karyChildrenN nranks k l).Nodup := by
  unfold karyChildrenN karyChildrenFrom
  apply List.Nodup.map
  · intro a b hab
    simpa using hab
  · exact List.Nodup.filter _ (List.nodup_range' 1 _)

theorem karyParentN_lt {k l p : Nat} (h : karyParentN k l = some p) : p < l := by
  unfold karyParentN at h
  split at h
  · cases h
  · simp only [Option.some.injEq] at h
    have := Nat.div_le_self (l - 1) k
    omega

theorem karyParentN_none_iff {k l : Nat} : karyParentN k l = none ↔ l = 0 := by
  unfold karyParentN
  split <;> simp_all

theorem mem_karyChildrenN_iff_parent {nranks k p c : Nat} (hk : 1 ≤ k) (hc : c < nranks) :
    c ∈ karyChildrenN nranks k p ↔ karyParentN k c = some p := by
  rw [mem_karyChildrenN]
  unfold karyParentN
  constructor
  · rintro ⟨j, h1, h2, _, rfl⟩
    have hne : ¬ (p * k + j = 0) := by omega
    rw [if_neg hne]
    congr 1
    have e : p * k + j - 1 = (j - 1) + k * p := by rw [Nat.mul_comm]; omega
    rw [e, Nat.add_mul_div_left _ _ (by omega), Nat.div_eq_of_lt (by omega)]
    omega
  · intro h
    split at h
    · cases h
    · next h0 =>
      simp only [Option.some.injEq] at h
      have hdm := Nat.div_add_mod (c - 1) k
      have hml := Nat.mod_lt (c - 1) (show k > 0 by omega)
      rw [h, Nat.mul_comm] at hdm
      exact ⟨(c - 1) % k + 1, by omega, by omega, by omega, by omega⟩

theorem kary_lclimb {k : Nat} :
    ∀ (d l : Nat), l < k ^ d → ∃ m, m ≤ d ∧ lclimb (karyParentN k) m l = some 0 := by
  intro d
  induction d with
  | zero =>
    intro l hl
    simp only [pow_zero, Nat.lt_one_iff] at hl
    exact ⟨0, le_refl _, by simp [lclimb, hl]⟩
  | succ d ih =>
    intro l hl
    by_cases h0 : l = 0
    · exact ⟨0, Nat.zero_le _, by simp [lclimb, h0]⟩
    · have hp : (l - 1) / k < k ^ d := by
        apply Nat.div_lt_of_lt_mul
        rw [pow_succ, Nat.mul_comm] at hl
        omega
      obtain ⟨m, hm, hcl⟩ := ih _ hp
      refine ⟨m + 1, by omega, ?_⟩
      simp only [lclimb, karyParentN, if_neg h0]
      exact hcl

/-! ## Depth of variant 2 -/

theorem ilogN_spec {k n : Nat} (hk : 2 ≤ k) (B : Nat) (hB : n * k ≤ B) :
    ∀ (fuel i p : Nat), 1 ≤ p → p ≤ B → n ≤ p * 2 ^ fuel →
      i ≤ ilogN k n fuel i p ∧ ilogN k n fuel i p ≤ i + fuel ∧
      n ≤ p * k ^ (ilogN k n fuel i p - i) ∧ p * k ^ (ilogN k n fuel i p - i) ≤ B := by
  intro fuel
  induction fuel with
  | zero =>
    intro i p h1 h2 h3
    simp only [ilogN, Nat.sub_self, pow_zero, Nat.mul_one] at h3 ⊢
    omega
  | succ fuel ih =>
    intro i p h1 h2 h3
    unfold ilogN
    by_cases hp : p < n
    · rw [if_pos hp]
      have hpk : p * k ≤ B := le_trans (Nat.mul_le_mul_right k (le_of_lt hp)) hB
      have h3' : n ≤ p * k * 2 ^ fuel := by
        rw [pow_succ] at h3
        calc n ≤ p * (2 ^ fuel * 2) := h3
          _ = p * 2 * 2 ^ fuel := by ring
          _ ≤ p * k * 2 ^ fuel :=
            Nat.mul_le_mul_right _ (Nat.mul_le_mul_left _ hk)
      have h1' : 1 ≤ p * k := Nat.mul_pos (by omega) (by omega)
      obtain ⟨a, b, c, d⟩ := ih (i + 1) (p * k) h1' hpk h3'
      have e : ilogN k n fuel (i + 1) (p * k) - i = (ilogN k n fuel (i + 1) (p * k) - (i + 1)) + 1 := by
        omega
      have e2 : p * k ^ (ilogN k n fuel (i + 1) (p * k) - i)
          = p * k * k ^ (ilogN k n fuel (i + 1) (p * k) - (i + 1)) := by
        rw [e, pow_succ]; ring
      rw [e2]
      exact ⟨by omega, by omega, c, d⟩
    · rw [if_neg hp]
      simp only [Nat.sub_self, pow_zero, Nat.mul_one]
      omega

theorem depthN_spec {k n : Nat} (hk : 2 ≤ k) (hn : 1 ≤ n) (hb : n ≤ 2147483647) :
    1 ≤ depthN k n ∧ depthN k n ≤ 64 ∧ n ≤ (k - 1) * k ^ (depthN k n - 1) ∧
      (k - 1) * k ^ (depthN k n - 1) ≤ n * k := by
  have hnk : k - 1 ≤ n * k := by
    have : k ≤ n * k := Nat.le_mul_of_pos_left _ hn
    omega
  have h63 : n ≤ (k - 1) * 2 ^ 63 := by
    have : 1 * 2 ^ 63 ≤ (k - 1) * 2 ^ 63 := Nat.mul_le_mul_right _ (by omega)
    have h2 : (2 : Nat) ^ 63 = 9223372036854775808 := by norm_num
    omega
  have := ilogN_spec hk (n * k) (le_refl _) 63 1 (k - 1) (by omega) hnk h63
  unfold depthN
  exact ⟨this.1, by omega, this.2.2.1, this.2.2.2⟩

theorem tree_ilog_loop_eq {k n : Nat} (hk : 2 ≤ k) (hn : 1 ≤ n) (hb : n * k ≤ 2147483647) :
    ∀ (fuel i p : Nat), 1 ≤ p → p ≤ 2147483647 → n ≤ p * 2 ^ fuel → i + fuel < 2147483647 →
      tree_ilog_loop k ((n - 1 : Nat) : Int) (fuel + 1) i p
        = .ok ((ilogN k n fuel i p : Nat) : Int) := by
  intro fuel
  induction fuel with
  | zero =>
    intro i p h1 h2 h3 _
    simp only [pow_zero, Nat.mul_one] at h3
    unfold tree_ilog_loop
    rw [isub_one_cast h1 h2]
    have : ¬ (((p - 1 : Nat) : Int) < ((n - 1 : Nat) : Int)) := by
      intro hh
      have : p - 1 < n - 1 := by exact_mod_cast hh
      omega
    rw [if_neg this]
    rfl
  | succ fuel ih =>
    intro i p h1 h2 h3 h4
    unfold tree_ilog_loop
    rw [isub_one_cast h1 h2]
    by_cases hp : p < n
    · have : (((p - 1 : Nat) : Int) < ((n - 1 : Nat) : Int)) := by
        have : p - 1 < n - 1 := by omega
        exact_mod_cast this
      rw [if_pos this]
      have hpk : p * k ≤ 2147483647 := le_trans (Nat.mul_le_mul_right k (le_of_lt hp)) hb
      have h3' : n ≤ p * k * 2 ^ fuel := by
        rw [pow_succ] at h3
        calc n ≤ p * (2 ^ fuel * 2) := h3
          _ = p * 2 * 2 ^ fuel := by ring
          _ ≤ p * k * 2 ^ fuel :=
            Nat.mul_le_mul_right _ (Nat.mul_le_mul_left _ hk)
      have h1' : 1 ≤ p * k := Nat.mul_pos (by omega) (by omega)
      rw [iadd_one_cast (by omega), imul_cast hpk, ih (i + 1) (p * k) h1' hpk h3' (by omega)]
      simp only [ilogN, if_pos hp]
    · have : ¬ (((p - 1 : Nat) : Int) < ((n - 1 : Nat) : Int)) := by
        intro hh
        have : p - 1 < n - 1 := by exact_mod_cast hh
        omega
      rw [if_neg this]
      simp only [ilogN, if_neg hp]

theorem tree_ilog_eq {k n : Nat} (hk : 2 ≤ k) (hn : 1 ≤ n) (hb : n * k ≤ 2147483647) :
    tree_ilog k (isub n 1) = .ok ((depthN k n : Nat) : Int) := by
  have hkn : k ≤ n * k := Nat.le_mul_of_pos_left _ hn
  have hnn : n ≤ n * k := Nat.le_mul_of_pos_right _ (by omega)
  unfold tree_ilog depthN
  rw [isub_one_cast hn (by omega), isub_one_cast (by omega) (by omega)]
  have h63 : n ≤ (k - 1) * 2 ^ 63 := by
    have : 1 * 2 ^ 63 ≤ (k - 1) * 2 ^ 63 := Nat.mul_le_mul_right _ (by omega)
    have h2 : (2 : Nat) ^ 63 = 9223372036854775808 := by norm_num
    omega
  have := tree_ilog_loop_eq hk hn hb 63 1 (k - 1) (by omega) (by omega) h63 (by omega)
  simpa using this

/-! ## Digits -/

theorem digitN_mul_le (k x j : Nat) : digitN k x j * k ^ j ≤ x := by
  unfold digitN
  calc x / k ^ j % k * k ^ j ≤ x / k ^ j * k ^ j := Nat.mul_le_mul_right _ (Nat.mod_le _ _)
    _ ≤ x := Nat.div_mul_le_self _ _

theorem getdigit_cast {k l j : Nat} (hl : l ≤ 2147483647) (hp : k ^ j ≤ 2147483647) :
    MPL_getdigit k l j = ((digitN k l j : Nat) : Int) := by
  unfold MPL_getdigit digitN
  rw [Int.toNat_natCast, wrap_pow_cast hp, idiv_cast hl, imod_cast]

theorem setdigit_cast {k l j v : Nat} (hp : k ^ j ≤ 2147483647) (hv : v * k ^ j ≤ 2147483647)
    (hs : l + v * k ^ j ≤ 2147483647) :
    MPL_setdigit k l j v = ((setdigitN k l j v : Nat) : Int) := by
  have hd := digitN_mul_le k l j
  unfold MPL_setdigit setdigitN
  rw [getdigit_cast (by omega) hp, Int.toNat_natCast, wrap_pow_cast hp, imul_cast (by omega),
    isub_cast hd (by omega), imul_cast hv, iadd_cast (by omega)]

theorem pow_bound {k n depth : Nat} (hk : 2 ≤ k) (hd : 1 ≤ depth)
    (hP : (k - 1) * k ^ (depth - 1) ≤ n * k) {j v : Nat} (hj : j < depth) (hv : v < k) :
    v * k ^ j ≤ n * k := by
  have h1 : k ^ j ≤ k ^ (depth - 1) := Nat.pow_le_pow_right (by omega) (by omega)
  calc v * k ^ j ≤ (k - 1) * k ^ (depth - 1) := Nat.mul_le_mul (by omega) h1
    _ ≤ n * k := hP

/-! ## The loops of variant 2 -/

/-- What the parent loop leaves in the record. -/
theorem knomial_2_parent_loop_eq {l n k root depth : Nat} (hl : l < n) (hroot : root < n)
    (hb : n * (k + 1) ≤ 2147483647)
    (hv : ∀ j v, j < depth → v < k → v * k ^ j ≤ n * k) (hk : 2 ≤ k) (hdb : depth ≤ 64) :
    ∀ (fuel i : Nat) (ct : MPIR_Treealgo_tree_t), i ≤ depth → depth + 1 ≤ fuel + i →
      knomial_2_parent_loop l n k root depth fuel i ct
        = .ok (match kn2ParentFrom k l (depth - i) i with
               | some p => { ct with parent := rotN n root p }
               | none => ct) := by
  have hnk : n * k + n ≤ 2147483647 := by rw [← Nat.mul_succ]; exact hb
  have hnn : n ≤ n * k := Nat.le_mul_of_pos_right _ (by omega)
  intro fuel
  induction fuel with
  | zero => intro i ct h1 h2; omega
  | succ fuel ih =>
    intro i ct h1 h2
    unfold knomial_2_parent_loop
    by_cases hi : i < depth
    · have hi' : (i : Int) < (depth : Int) := by exact_mod_cast hi
      have hp : k ^ i ≤ n * k := by simpa using hv i 1 hi (by omega)
      have e : depth - i = (depth - (i + 1)) + 1 := by omega
      rw [if_pos hi', getdigit_cast (by omega) (by omega), e]
      by_cases hd : digitN k l i = 0
      · have hd' : ¬ (((digitN k l i : Nat) : Int) ≠ 0) := by simp [hd]
        rw [if_neg hd', iadd_one_cast (by omega), ih (i + 1) ct (by omega) (by omega)]
        simp only [kn2ParentFrom, hd, ne_eq, not_true_eq_false, if_false]
      · have hd' : (((digitN k l i : Nat) : Int) ≠ 0) := by exact_mod_cast hd
        rw [if_pos hd']
        have e0 : (0 : Int) = ((0 : Nat) : Int) := rfl
        rw [e0, setdigit_cast (by omega) (by simp) (by simp; omega), rot_cast]
        · simp only [kn2ParentFrom, ne_eq, hd, not_false_eq_true, if_true]
        · have : setdigitN k l i 0 ≤ l := by unfold setdigitN; simp
          omega
    · have hi' : ¬ (i : Int) < (depth : Int) := by
        intro hh; exact hi (by exact_mod_cast hh)
      have e : depth - i = 0 := by omega
      rw [if_neg hi', e]
      simp only [kn2ParentFrom]

theorem flip_set (j m : Nat) :
    (List.replicate j (1 : Int) ++ List.replicate (m + 1) 0).set j 1
      = List.replicate (j + 1) 1 ++ List.replicate m 0 := by
  induction j with
  | zero => simp [List.replicate_succ]
  | succ j ih =>
    simp only [List.replicate_succ, List.cons_append, List.set_cons_succ]
    rw [← List.replicate_succ (n := m), ih]
    simp [List.replicate_succ]

theorem flip_getD (t m j : Nat) :
    (List.replicate t (1 : Int) ++ List.replicate m 0).getD j 0 = if j < t then 1 else 0 := by
  induction t generalizing j with
  | zero =>
    simp only [List.replicate_zero, List.nil_append, Nat.not_lt_zero, if_false]
    rw [List.getD_eq_getElem?_getD]
    by_cases h : j < m
    · simp [List.getElem?_replicate, h]
    · simp [List.getElem?_replicate, h]
  | succ t ih =>
    cases j with
    | zero => simp [List.replicate_succ]
    | succ j =>
      simp only [List.replicate_succ, List.cons_append, List.getD_cons_succ, ih]
      simp

theorem knomial_2_flip_loop_eq {l n k depth : Nat} (hl : l < n)
    (hb : n * (k + 1) ≤ 2147483647)
    (hv : ∀ j v, j < depth → v < k → v * k ^ j ≤ n * k) (hk : 2 ≤ k) (hdb : depth ≤ 64) :
    ∀ (fuel j : Nat), j ≤ depth → depth + 1 ≤ fuel + j →
      knomial_2_flip_loop l k depth fuel j
          (List.replicate j 1 ++ List.replicate (depth - j) 0)
        = .ok (List.replicate (kn2FlipFrom k l (depth - j) j) 1
            ++ List.replicate (depth - kn2FlipFrom k l (depth - j) j) 0) := by
  have hnk : n * k + n ≤ 2147483647 := by rw [← Nat.mul_succ]; exact hb
  have hnn : n ≤ n * k := Nat.le_mul_of_pos_right _ (by omega)
  intro fuel
  induction fuel with
  | zero => intro j h1 h2; omega
  | succ fuel ih =>
    intro j h1 h2
    unfold knomial_2_flip_loop
    by_cases hj : j < depth
    · have hj' : (j : Int) < (depth : Int) := by exact_mod_cast hj
      have hp : k ^ j ≤ n * k := by simpa using hv j 1 hj (by omega)
      have e : depth - j = (depth - (j + 1)) + 1 := by omega
      rw [if_pos hj', getdigit_cast (by omega) (by omega)]
      by_cases hd : digitN k l j = 0
      · have hd' : ¬ (((digitN k l j : Nat) : Int) ≠ 0) := by simp [hd]
        rw [if_neg hd', Int.toNat_natCast, iadd_one_cast (by omega)]
        rw [e, flip_set, ih (j + 1) (by omega) (by omega)]
        simp only [kn2FlipFrom, hd, ne_eq, not_true_eq_false, if_false]
      · have hd' : (((digitN k l j : Nat) : Int) ≠ 0) := by exact_mod_cast hd
        have ef : kn2FlipFrom k l (depth - j) j = j := by
          rw [e]; simp only [kn2FlipFrom, ne_eq, hd, not_false_eq_true, if_true]
        rw [if_pos hd', ef]
    · have hj' : ¬ (j : Int) < (depth : Int) := by
        intro hh; exact hj (by exact_mod_cast hh)
      have e : depth - j = 0 := by omega
      rw [if_neg hj', e]
      simp only [kn2FlipFrom]
      have : j = depth := by omega
      subst this
      simp

theorem kn2DigitChildren_zero (k n l j : Nat) : kn2DigitChildren k n l j 0 = [] := by
  simp [kn2DigitChildren]

theorem kn2DigitChildren_succ (k n l j i : Nat) :
    kn2DigitChildren k n l j (i + 1)
      = (if setdigitN k l j (i + 1) < n then [setdigitN k l j (i + 1)] else [])
        ++ kn2DigitChildren k n l j i := by
  unfold kn2DigitChildren
  rw [List.range'_concat, List.reverse_append]
  simp only [List.reverse_cons, List.reverse_nil, List.nil_append, List.singleton_append,
    List.map_cons, List.filter_cons, Nat.one_mul]
  have e : 1 + i = i + 1 := by omega
  rw [e]
  split <;> simp_all

theorem kn2DigitChildren_length (k n l j i : Nat) : (kn2DigitChildren k n l j i).length ≤ i := by
  induction i with
  | zero => simp [kn2DigitChildren_zero]
  | succ i ih =>
    rw [kn2DigitChildren_succ]
    split <;> simp <;> omega

theorem knomial_2_digit_loop_eq {l n k root depth j : Nat} (hl : l < n) (hroot : root < n)
    (hb : n * (k + 1) ≤ 2147483647)
    (hv : ∀ j v, j < depth → v < k → v * k ^ j ≤ n * k) (hj : j < depth) (hk : 2 ≤ k) :
    ∀ (fuel i : Nat) (ct : MPIR_Treealgo_tree_t), i < k → i + 1 ≤ fuel →
      0 ≤ ct.num_children → ct.num_children + i ≤ 2147483647 →
      knomial_2_digit_loop l n k root j fuel i ct
        = .ok (pushed ct ((kn2DigitChildren k n l j i).map (rotN n root))) := by
  have hnk : n * k + n ≤ 2147483647 := by rw [← Nat.mul_succ]; exact hb
  have hnn : n ≤ n * k := Nat.le_mul_of_pos_right _ (by omega)
  intro fuel
  induction fuel with
  | zero => intro i ct h1 h2; omega
  | succ fuel ih =>
    intro i ct h1 h2 h3 h4
    unfold knomial_2_digit_loop
    cases i with
    | zero =>
      have : ¬ (((0 : Nat) : Int) ≥ 1) := by simp
      rw [if_neg this, kn2DigitChildren_zero]
      simp [pushed_nil]
    | succ i =>
      have : (((i + 1 : Nat) : Int) ≥ 1) := by push_cast; omega
      have hp : k ^ j ≤ n * k := by
        have := hv j 1 hj (by omega)
        simpa using this
      have hvi := hv j (i + 1) hj h1
      rw [if_pos this]
      simp only []
      rw [setdigit_cast (by omega) (by omega) (by omega), isub_one_cast (by omega) (by omega)]
      rw [kn2DigitChildren_succ]
      have e : i + 1 - 1 = i := by omega
      rw [e]
      by_cases hc : setdigitN k l j (i + 1) < n
      · have hc' : ((setdigitN k l j (i + 1) : Nat) : Int) < (n : Int) := by exact_mod_cast hc
        rw [if_pos hc', if_pos hc, rot_cast (by omega),
          tree_add_child_eq ct _ h3 (by push_cast at h4; omega)]
        simp only []
        rw [ih i _ (by omega) (by omega) (by rw [pushed_num]; simp; omega)
          (by rw [pushed_num]; push_cast at h4 ⊢; simp; omega), pushed_pushed]
        simp
      · have hc' : ¬ ((setdigitN k l j (i + 1) : Nat) : Int) < (n : Int) := by
          intro hh; exact hc (by exact_mod_cast hh)
        rw [if_neg hc', if_neg hc, ih i _ (by omega) (by omega) h3 (by push_cast at h4 ⊢; omega)]
        simp

theorem kn2ChildrenUpto_zero (k n l t : Nat) : kn2ChildrenUpto k n l t 0 = [] := by
  simp [kn2ChildrenUpto]

theorem kn2ChildrenUpto_succ_lt {k n l t m : Nat} (h : m < t) :
    kn2ChildrenUpto k n l t (m + 1)
      = kn2DigitChildren k n l m (k - 1) ++ kn2ChildrenUpto k n l t m := by
  unfold kn2ChildrenUpto
  have e1 : min (m + 1) t = m + 1 := by omega
  have e2 : min m t = m := by omega
  rw [e1, e2, List.range_succ, List.reverse_append]
  simp

theorem kn2ChildrenUpto_succ_ge {k n l t m : Nat} (h : t ≤ m) :
    kn2ChildrenUpto k n l t (m + 1) = kn2ChildrenUpto k n l t m := by
  unfold kn2ChildrenUpto
  have e1 : min (m + 1) t = t := by omega
  have e2 : min m t = t := by omega
  rw [e1, e2]

theorem knomial_2_child_loop_eq {l n k root depth t : Nat} (hl : l < n) (hroot : root < n)
    (hb : n * (k + 1) ≤ 2147483647)
    (hv : ∀ j v, j < depth → v < k → v * k ^ j ≤ n * k) (hk : 2 ≤ k) (hdb : depth ≤ 64) :
    ∀ (fuel m : Nat) (ct : MPIR_Treealgo_tree_t), m ≤ depth → m + 1 ≤ fuel →
      0 ≤ ct.num_children → ct.num_children + ((m * (k - 1) : Nat) : Int) ≤ 2147483647 →
      knomial_2_child_loop l n k root
          (List.replicate t 1 ++ List.replicate (depth - t) 0) fuel ((m : Int) - 1) ct
        = .ok (pushed ct ((kn2ChildrenUpto k n l t m).map (rotN n root))) := by
  have hnk : n * k + n ≤ 2147483647 := by rw [← Nat.mul_succ]; exact hb
  have hkk : k ≤ n * k := Nat.le_mul_of_pos_left _ (by omega)
  intro fuel
  induction fuel with
  | zero => intro m ct h1 h2; omega
  | succ fuel ih =>
    intro m ct h1 h2 h3 h4
    unfold knomial_2_child_loop
    cases m with
    | zero =>
      have : ¬ ((((0 : Nat) : Int) - 1) ≥ 0) := by simp
      rw [if_neg this, kn2ChildrenUpto_zero]
      simp [pushed_nil]
    | succ m =>
      have e : (((m + 1 : Nat) : Int) - 1) = (m : Int) := by push_cast; ring
      have hm0 : ((m : Int) ≥ 0) := by positivity
      have es : isub (m : Int) 1 = (m : Int) - 1 := by
        unfold isub; exact wrap_range (by omega) (by omega)
      rw [e, if_pos hm0]
      simp only [Int.toNat_natCast]
      rw [flip_getD, es]
      have hsm : (m + 1) * (k - 1) = m * (k - 1) + (k - 1) := Nat.succ_mul _ _
      rw [hsm] at h4
      push_cast at h4
      by_cases hmt : m < t
      · rw [if_pos hmt]
        simp only [if_true]
        rw [isub_one_cast (by omega) (by omega)]
        rw [knomial_2_digit_loop_eq (j := m) hl hroot hb hv (by omega) hk k (k - 1) ct (by omega)
          (by omega) h3 (by omega)]
        simp only []
        have hlen := kn2DigitChildren_length k n l m (k - 1)
        rw [ih m _ (by omega) (by omega) (by rw [pushed_num]; simp; omega)
          (by rw [pushed_num]; simp; omega), pushed_pushed, kn2ChildrenUpto_succ_lt hmt]
        simp
      · rw [if_neg hmt]
        simp only [zero_ne_one, if_false]
        rw [ih m _ (by omega) (by omega) h3 (by omega), kn2ChildrenUpto_succ_ge (by omega)]

theorem depth_mul_le {k n d : Nat} (hk : 2 ≤ k) (hd : 1 ≤ d)
    (hP : (k - 1) * k ^ (d - 1) ≤ n * k) : d * (k - 1) ≤ n * k := by
  have h1 : d - 1 < k ^ (d - 1) := Nat.lt_pow_self (by omega) _
  calc d * (k - 1) ≤ k ^ (d - 1) * (k - 1) := Nat.mul_le_mul_right _ (by omega)
    _ = (k - 1) * k ^ (d - 1) := Nat.mul_comm _ _
    _ ≤ n * k := hP

/-- The variant-2 builder computes the logical description of the tree. -/
theorem knomial_2_init_eq (rank nranks k root : Nat) (hn : 1 ≤ nranks) (hk : 2 ≤ k)
    (hr : rank < nranks) (hroot : root < nranks) (hb : nranks * (k + 1) ≤ 2147483647)
    (ct : MPIR_Treealgo_tree_t) :
    MPII_Treeutil_tree_knomial_2_init rank nranks k root ct
      = .ok (MPI_SUCCESS, treeOf rank nranks
          (rotParent nranks root (kn2ParentN k nranks (lrankN rank nranks root)))
          ((kn2ChildrenN k nranks (lrankN rank nranks root)).map (rotN nranks root))) := by
  have hnk : nranks * k + nranks ≤ 2147483647 := by rw [← Nat.mul_succ]; exact hb
  have hkn : nranks ≤ nranks * k := Nat.le_mul_of_pos_right _ (by omega)
  have hl := @lrankN_lt rank nranks root hn
  obtain ⟨hd1, hd2, hd3, hd4⟩ := depthN_spec (k := k) (n := nranks) hk hn (by omega)
  have hv : ∀ j v, j < depthN k nranks → v < k → v * k ^ j ≤ nranks * k :=
    fun j v hj hv => pow_bound hk hd1 hd4 hj hv
  have hdm := depth_mul_le hk hd1 hd4
  unfold MPII_Treeutil_tree_knomial_2_init
  have h1 : ((nranks : Int) ≥ 0) := by positivity
  have h2 : ¬ ((nranks : Int) ≤ 0) := by omega
  have h3 : ((k : Int) ≥ 2) := by omega
  simp only [h1, not_true_eq_false, if_false, h2, h3]
  rw [lrank_cast hr hroot (by omega), tree_ilog_eq hk hn (by omega)]
  simp only [Int.toNat_natCast]
  have e0 : (0 : Int) = ((0 : Nat) : Int) := rfl
  have hflip := @knomial_2_flip_loop_eq (lrankN rank nranks root) nranks k (depthN k nranks)
    hl hb hv hk hd2 (depthN k nranks + 1) 0 (by omega) (by omega)
  simp only [List.replicate_zero, List.nil_append, Nat.sub_zero, Nat.cast_zero] at hflip
  have hde : isub ((depthN k nranks : Nat) : Int) 1 = ((depthN k nranks : Nat) : Int) - 1 := by
    unfold isub; exact wrap_range (by omega) (by omega)
  have hchild : ∀ par : Int,
      knomial_2_child_loop (lrankN rank nranks root) nranks k root
        (List.replicate (kn2FlipFrom k (lrankN rank nranks root) (depthN k nranks) 0) 1 ++
          List.replicate
            (depthN k nranks - kn2FlipFrom k (lrankN rank nranks root) (depthN k nranks) 0) 0)
        (depthN k nranks + 1) (((depthN k nranks : Nat) : Int) - 1)
        { rank := rank, nranks := nranks, parent := par, num_children := 0, children := [] }
      = .ok (treeOf rank nranks par
          ((kn2ChildrenN k nranks (lrankN rank nranks root)).map (rotN nranks root))) := by
    intro par
    have hcap : (0 : Int) + ((depthN k nranks * (k - 1) : Nat) : Int) ≤ 2147483647 := by
      have : ((depthN k nranks * (k - 1) : Nat) : Int) ≤ ((nranks * k : Nat) : Int) := by
        exact_mod_cast hdm
      have h' : ((nranks * k : Nat) : Int) ≤ 2147483647 := by
        have : nranks * k ≤ 2147483647 := by omega
        exact_mod_cast this
      omega
    rw [knomial_2_child_loop_eq hl hroot hb hv hk hd2 _ (depthN k nranks) _ (le_refl _)
      (le_refl _) (le_refl _) hcap]
    simp only [treeOf, pushed, kn2ChildrenN, kn2FlipN, List.nil_append, List.length_map,
      zero_add]
  by_cases hl0 : lrankN rank nranks root = 0
  · have hl0' : ((lrankN rank nranks root : Nat) : Int) ≤ 0 := by simp [hl0]
    rw [if_pos hl0']
    dsimp only
    rw [hflip, hde]
    dsimp only
    rw [hchild]
    simp only [kn2ParentN, hl0, if_true, rotParent]
  · have hl0' : ¬ ((lrankN rank nranks root : Nat) : Int) ≤ 0 := by
      have : 0 < lrankN rank nranks root := Nat.pos_of_ne_zero hl0
      omega
    rw [if_neg hl0']
    rw [e0, knomial_2_parent_loop_eq hl hroot hb hv hk hd2 _ 0 _ (by omega) (by omega)]
    simp only [Nat.sub_zero]
    have epar : kn2ParentN k nranks (lrankN rank nranks root)
        = kn2ParentFrom k (lrankN rank nranks root) (depthN k nranks) 0 := by
      simp only [kn2ParentN, hl0, if_false]
    rw [← e0, epar]
    cases kn2ParentFrom k (lrankN rank nranks root) (depthN k nranks) 0 with
    | none =>
      dsimp only
      rw [hflip, hde]
      dsimp only
      rw [hchild]
      simp only [rotParent]
    | some p =>
      dsimp only
      rw [hflip, hde]
      dsimp only
      rw [hchild]
      simp only [rotParent]

/-! ## Base-`k` digits -/

theorem zero_below_iff_dvd (k l : Nat) :
    ∀ i, (∀ j < i, digitN k l j = 0) ↔ k ^ i ∣ l := by
  intro i
  induction i with
  | zero => simp
  | succ i ih =>
    constructor
    · intro h
      have h1 : k ^ i ∣ l := ih.mp (fun j hj => h j (by omega))
      have h2 : digitN k l i = 0 := h i (by omega)
      unfold digitN at h2
      have h3 : k ∣ l / k ^ i := Nat.dvd_of_mod_eq_zero h2
      rw [pow_succ]
      exact (Nat.dvd_div_iff_mul_dvd h1).mp h3
    · intro h j hj
      have h1 : k ^ i ∣ l := dvd_trans (Nat.pow_dvd_pow k (by omega)) h
      by_cases hji : j < i
      · exact ih.mpr h1 j hji
      · have : j = i := by omega
        subst this
        unfold digitN
        rw [pow_succ] at h
        exact Nat.mod_eq_zero_of_dvd ((Nat.dvd_div_iff_mul_dvd h1).mpr h)

theorem digitN_lt {k : Nat} (hk : 0 < k) (l j : Nat) : digitN k l j < k :=
  Nat.mod_lt _ hk

theorem lowDigit_exists {k l : Nat} (hk : 2 ≤ k) (hl : 0 < l) : ∃ i, LowDigit k l i := by
  have hex : ∃ i, ¬ k ^ (i + 1) ∣ l := by
    refine ⟨l, fun h => ?_⟩
    have h1 : l < k ^ l := Nat.lt_pow_self (by omega) l
    have h2 : k ^ l ≤ k ^ (l + 1) := Nat.pow_le_pow_right (by omega) (by omega)
    have := Nat.le_of_dvd hl h
    omega
  classical
  refine ⟨Nat.find hex, ?_, ?_⟩
  · intro h0
    apply Nat.find_spec hex
    apply (zero_below_iff_dvd k l _).mp
    intro j hj
    by_cases hji : j < Nat.find hex
    · have := Nat.find_min hex hji
      simp only [not_not] at this
      exact (zero_below_iff_dvd k l (j + 1)).mpr this j (by omega)
    · have : j = Nat.find hex := by omega
      rw [this]; exact h0
  · intro j hj
    have := Nat.find_min hex hj
    simp only [not_not] at this
    exact (zero_below_iff_dvd k l (j + 1)).mpr this j (by omega)

theorem lowDigit_unique {k l i j : Nat} (hi : LowDigit k l i) (hj : LowDigit k l j) : i = j := by
  by_contra h
  rcases Nat.lt_or_gt_of_ne h with h1 | h1
  · exact hi.1 (hj.2 i h1)
  · exact hj.1 (hi.2 j h1)

theorem lowDigit_pow_le {k l i : Nat} (h : LowDigit k l i) : k ^ i ≤ l := by
  have hd := (zero_below_iff_dvd k l i).mp h.2
  have hl : 0 < l := by
    rcases Nat.eq_zero_or_pos l with h0 | h0
    · exfalso; apply h.1; unfold digitN; rw [h0]; simp
    · exact h0
  exact Nat.le_of_dvd hl hd

theorem lowDigit_lt_depth {k n l i : Nat} (hk : 2 ≤ k) (hn : n ≤ 2147483647) (hl : l < n)
    (h : LowDigit k l i) : i < depthN k n := by
  obtain ⟨hd1, _, hd3, _⟩ := depthN_spec (k := k) (n := n) hk (by omega) hn
  have h1 := lowDigit_pow_le h
  by_contra hcon
  have h2 : k ^ depthN k n ≤ k ^ i := Nat.pow_le_pow_right (by omega) (by omega)
  have h3 : (k - 1) * k ^ (depthN k n - 1) < k ^ depthN k n := by
    have e : depthN k n = (depthN k n - 1) + 1 := by omega
    have hpos : 0 < k ^ (depthN k n - 1) := pow_pos (by omega) _
    calc (k - 1) * k ^ (depthN k n - 1) < k * k ^ (depthN k n - 1) :=
          Nat.mul_lt_mul_of_pos_right (by omega) hpos
      _ = k ^ depthN k n := by
          conv_rhs => rw [e, pow_succ]
          ring
  omega

/-- Replacing a zero digit above a block of zero digits: the new digit is the
least-significant nonzero one. -/
theorem setdigit_low {k l j v : Nat} (hk : 2 ≤ k) (hz : ∀ j' ≤ j, digitN k l j' = 0)
    (hv1 : 1 ≤ v) (hv2 : v < k) :
    setdigitN k l j v = l + v * k ^ j ∧ LowDigit k (setdigitN k l j v) j ∧
      digitN k (setdigitN k l j v) j = v ∧ setdigitN k (setdigitN k l j v) j 0 = l := by
  have hk0 : 0 < k := by omega
  have hpos : 0 < k ^ j := pow_pos hk0 _
  have hdj : k ^ j ∣ l := (zero_below_iff_dvd k l j).mp (fun j' hj' => hz j' (by omega))
  have hdj1 : k ^ (j + 1) ∣ l :=
    (zero_below_iff_dvd k l (j + 1)).mp (fun j' hj' => hz j' (by omega))
  have e1 : setdigitN k l j v = l + v * k ^ j := by
    unfold setdigitN; rw [hz j (le_refl _)]; simp
  have hk' : k ∣ l / k ^ j := by
    rw [pow_succ] at hdj1
    exact (Nat.dvd_div_iff_mul_dvd hdj).mpr hdj1
  have e2 : digitN k (l + v * k ^ j) j = v := by
    unfold digitN
    rw [Nat.add_mul_div_right _ _ hpos]
    obtain ⟨m, hm⟩ := hk'
    rw [hm, Nat.mul_add_mod, Nat.mod_eq_of_lt hv2]
  have hdx : k ^ j ∣ l + v * k ^ j := Dvd.dvd.add hdj (Dvd.intro_left v rfl)
  rw [e1]
  refine ⟨rfl, ⟨?_, ?_⟩, e2, ?_⟩
  · rw [e2]; omega
  · exact (zero_below_iff_dvd k _ j).mpr hdx
  · unfold setdigitN
    have e2' : digitN k (l + v * k ^ j) j = v := e2
    rw [e2']
    simp

/-- Zeroing the least-significant nonzero digit leaves zeros up to that
position, and putting the digit back restores the number. -/
theorem setdigit_zero_low {k c i : Nat} (hk : 2 ≤ k) (h : LowDigit k c i) :
    (∀ j' ≤ i, digitN k (setdigitN k c i 0) j' = 0) ∧
      setdigitN k c i 0 = c - digitN k c i * k ^ i ∧
      setdigitN k (setdigitN k c i 0) i (digitN k c i) = c ∧
      setdigitN k c i 0 < c := by
  have hk0 : 0 < k := by omega
  have hpos : 0 < k ^ i := pow_pos hk0 _
  have hdi : k ^ i ∣ c := (zero_below_iff_dvd k c i).mp h.2
  have hle := digitN_mul_le k c i
  have e1 : setdigitN k c i 0 = c - digitN k c i * k ^ i := by
    unfold setdigitN; simp
  have hd1 : k ^ (i + 1) ∣ c - digitN k c i * k ^ i := by
    obtain ⟨q, hq⟩ := hdi
    have hq' : c / k ^ i = q := by rw [hq]; exact Nat.mul_div_cancel_left q hpos
    have hdm := Nat.div_add_mod q k
    refine ⟨q / k, ?_⟩
    unfold digitN
    rw [hq', pow_succ]
    have : c - q % k * k ^ i = k ^ i * (q - q % k) := by
      rw [Nat.mul_sub, ← hq, Nat.mul_comm (k ^ i) (q % k)]
    rw [this]
    have : q - q % k = k * (q / k) := by omega
    rw [this]; ring
  have hz : ∀ j' ≤ i, digitN k (setdigitN k c i 0) j' = 0 := by
    intro j' hj'
    rw [e1]
    exact (zero_below_iff_dvd k _ (i + 1)).mpr hd1 j' (by omega)
  have hdpos : 0 < digitN k c i := Nat.pos_of_ne_zero h.1
  have hmpos : 0 < digitN k c i * k ^ i := Nat.mul_pos hdpos hpos
  refine ⟨hz, e1, ?_, ?_⟩
  · have := (setdigit_low (l := setdigitN k c i 0) (j := i) (v := digitN k c i) hk hz
      (by omega) (digitN_lt hk0 c i)).1
    rw [this, e1]
    omega
  · rw [e1]; omega

/-! ## Variant 2 on logical ranks: parents -/

theorem kn2ParentFrom_eq {k l i : Nat} (h : LowDigit k l i) :
    ∀ (fuel s : Nat), s ≤ i → i < s + fuel →
      kn2ParentFrom k l fuel s = some (setdigitN k l i 0) := by
  intro fuel
  induction fuel with
  | zero => intro s h1 h2; omega
  | succ fuel ih =>
    intro s h1 h2
    unfold kn2ParentFrom
    by_cases hs : s = i
    · subst hs
      rw [if_pos h.1]
    · have : digitN k l s = 0 := h.2 s (by omega)
      rw [if_neg (by simp [this])]
      exact ih (s + 1) (by omega) (by omega)

theorem kn2ParentN_eq {k n l i : Nat} (hk : 2 ≤ k) (hn : n ≤ 2147483647) (hl : l < n)
    (h : LowDigit k l i) : kn2ParentN k n l = some (setdigitN k l i 0) := by
  have hl0 : l ≠ 0 := by
    intro h0; apply h.1; unfold digitN; rw [h0]; simp
  unfold kn2ParentN
  rw [if_neg hl0]
  exact kn2ParentFrom_eq h _ 0 (by omega) (by have := lowDigit_lt_depth hk hn hl h; omega)

theorem kn2ParentN_zero (k n : Nat) : kn2ParentN k n 0 = none := by
  simp [kn2ParentN]

theorem kn2ParentN_some_iff {k n l p : Nat} (hk : 2 ≤ k) (hn : n ≤ 2147483647) (hl : l < n) :
    kn2ParentN k n l = some p ↔ ∃ i, LowDigit k l i ∧ p = setdigitN k l i 0 := by
  constructor
  · intro h
    have hl0 : 0 < l := by
      rcases Nat.eq_zero_or_pos l with h0 | h0
      · rw [h0, kn2ParentN_zero] at h; cases h
      · exact h0
    obtain ⟨i, hi⟩ := lowDigit_exists hk hl0
    rw [kn2ParentN_eq hk hn hl hi] at h
    exact ⟨i, hi, (Option.some.inj h).symm⟩
  · rintro ⟨i, hi, rfl⟩
    exact kn2ParentN_eq hk hn hl hi

theorem kn2ParentN_none_iff {k n l : Nat} (hk : 2 ≤ k) (hn : n ≤ 2147483647) (hl : l < n) :
    kn2ParentN k n l = none ↔ l = 0 := by
  constructor
  · intro h
    by_contra h0
    obtain ⟨i, hi⟩ := lowDigit_exists hk (Nat.pos_of_ne_zero h0)
    rw [kn2ParentN_eq hk hn hl hi] at h
    cases h
  · intro h; rw [h, kn2ParentN_zero]

theorem kn2ParentN_lt {k n l p : Nat} (hk : 2 ≤ k) (hn : n ≤ 2147483647) (hl : l < n)
    (h : kn2ParentN k n l = some p) : p < l := by
  obtain ⟨i, hi, rfl⟩ := (kn2ParentN_some_iff hk hn hl).mp h
  exact (setdigit_zero_low hk hi).2.2.2

/-! ## Variant 2 on logical ranks: children -/

theorem kn2FlipFrom_lt_iff {k l : Nat} :
    ∀ (fuel s j : Nat), j < kn2FlipFrom k l fuel s ↔
      (j < s ∨ (j < s + fuel ∧ ∀ j', s ≤ j' → j' ≤ j → digitN k l j' = 0)) := by
  intro fuel
  induction fuel with
  | zero =>
    intro s j
    simp only [kn2FlipFrom, Nat.add_zero]
    constructor
    · intro h; exact Or.inl h
    · rintro (h | ⟨h, _⟩) <;> exact h
  | succ fuel ih =>
    intro s j
    unfold kn2FlipFrom
    by_cases hd : digitN k l s = 0
    · rw [if_neg (by simp [hd]), ih (s + 1) j]
      constructor
      · rintro (h | ⟨h1, h2⟩)
        · by_cases hjs : j < s
          · exact Or.inl hjs
          · right
            refine ⟨by omega, fun j' h3 h4 => ?_⟩
            have : j' = s := by omega
            rw [this]; exact hd
        · right
          refine ⟨by omega, fun j' h3 h4 => ?_⟩
          by_cases hjs : j' = s
          · rw [hjs]; exact hd
          · exact h2 j' (by omega) h4
      · rintro (h | ⟨h1, h2⟩)
        · exact Or.inl (by omega)
        · by_cases hjs : j < s + 1
          · exact Or.inl hjs
          · right
            exact ⟨by omega, fun j' h3 h4 => h2 j' (by omega) h4⟩
    · rw [if_pos hd]
      constructor
      · intro h; exact Or.inl h
      · rintro (h | ⟨_, h2⟩)
        · exact h
        · by_contra hjs
          exact hd (h2 s (le_refl _) (by omega))

theorem mem_kn2DigitChildren {k n l j i x : Nat} :
    x ∈ kn2DigitChildren k n l j i ↔ ∃ v, 1 ≤ v ∧ v ≤ i ∧ x = setdigitN k l j v ∧ x < n := by
  unfold kn2DigitChildren
  simp only [List.mem_filter, List.mem_map, List.mem_reverse, List.mem_range'_1,
    decide_eq_true_eq]
  constructor
  · rintro ⟨⟨v, ⟨h1, h2⟩, rfl⟩, h3⟩
    exact ⟨v, h1, by omega, rfl, h3⟩
  · rintro ⟨v, h1, h2, rfl, h3⟩
    exact ⟨⟨v, ⟨h1, by omega⟩, rfl⟩, h3⟩

theorem mem_kn2ChildrenN {k n l x : Nat} :
    x ∈ kn2ChildrenN k n l ↔
      ∃ j v, j < depthN k n ∧ (∀ j' ≤ j, digitN k l j' = 0) ∧ 1 ≤ v ∧ v < k ∧
        x = setdigitN k l j v ∧ x < n := by
  unfold kn2ChildrenN kn2ChildrenUpto kn2FlipN
  simp only [List.mem_flatMap, List.mem_reverse, List.mem_range, mem_kn2DigitChildren]
  constructor
  · rintro ⟨j, hj, v, h1, h2, rfl, h3⟩
    have hj1 : j < depthN k n := by omega
    have hj2 : j < kn2FlipFrom k l (depthN k n) 0 := by omega
    rw [kn2FlipFrom_lt_iff] at hj2
    rcases hj2 with h | ⟨_, h⟩
    · omega
    · exact ⟨j, v, hj1, fun j' hj' => h j' (by omega) hj', h1, by omega, rfl, h3⟩
  · rintro ⟨j, v, hj, hz, h1, h2, rfl, h3⟩
    refine ⟨j, ?_, v, h1, by omega, rfl, h3⟩
    have : j < kn2FlipFrom k l (depthN k n) 0 := by
      rw [kn2FlipFrom_lt_iff]
      right
      exact ⟨by omega, fun j' _ h4 => hz j' h4⟩
    omega

theorem kn2ChildrenN_lt {k n l x : Nat} (h : x ∈ kn2ChildrenN k n l) : x < n := by
  obtain ⟨_, _, _, _, _, _, _, h3⟩ := mem_kn2ChildrenN.mp h
  exact h3

/-- On logical ranks, the children of `p` are the ranks whose parent is `p`. -/
theorem kn2_child_iff_parent {k n p c : Nat} (hk : 2 ≤ k) (hn : n ≤ 2147483647)
    (hc : c < n) : c ∈ kn2ChildrenN k n p ↔ kn2ParentN k n c = some p := by
  rw [mem_kn2ChildrenN, kn2ParentN_some_iff hk hn hc]
  constructor
  · rintro ⟨j, v, _, hz, h1, h2, rfl, _⟩
    obtain ⟨_, hlow, _, hback⟩ := setdigit_low hk hz h1 h2
    exact ⟨j, hlow, hback.symm⟩
  · rintro ⟨i, hi, rfl⟩
    obtain ⟨hz, _, hback, _⟩ := setdigit_zero_low hk hi
    exact ⟨i, digitN k c i, lowDigit_lt_depth hk hn hc hi, hz, Nat.pos_of_ne_zero hi.1,
      digitN_lt (by omega) c i, hback.symm, hc⟩

theorem kn2DigitChildren_nodup {k : Nat} (hk : 2 ≤ k) (n l j i : Nat) :
    (kn2DigitChildren k n l j i).Nodup := by
  unfold kn2DigitChildren
  apply List.Nodup.filter
  apply List.Nodup.map
  · intro a b hab
    simp only [setdigitN] at hab
    have hpos : 0 < k ^ j := pow_pos (by omega) _
    have : a * k ^ j = b * k ^ j := by omega
    exact Nat.eq_of_mul_eq_mul_right hpos this
  · exact List.nodup_reverse.mpr (List.nodup_range' 1 _)

theorem kn2ChildrenN_nodup {k : Nat} (hk : 2 ≤ k) (n l : Nat) : (kn2ChildrenN k n l).Nodup := by
  unfold kn2ChildrenN kn2ChildrenUpto
  rw [List.nodup_flatMap]
  refine ⟨fun j _ => kn2DigitChildren_nodup hk n l j _, ?_⟩
  rw [List.pairwise_reverse]
  have hrange := List.pairwise_lt_range (min (depthN k n) (kn2FlipN k n l))
  have hmem : ∀ j, j ∈ List.range (min (depthN k n) (kn2FlipN k n l)) →
      ∀ j' ≤ j, digitN k l j' = 0 := by
    intro j hj j' hj'
    rw [List.mem_range] at hj
    have h2 : j < kn2FlipFrom k l (depthN k n) 0 := by unfold kn2FlipN at hj; omega
    rw [kn2FlipFrom_lt_iff] at h2
    rcases h2 with h | ⟨_, h⟩
    · omega
    · exact h j' (by omega) hj'
  refine List.Pairwise.imp_of_mem ?_ hrange
  intro a b ha hb hab
  intro x hxb hxa
  obtain ⟨v, h1, h2, rfl, _⟩ := mem_kn2DigitChildren.mp hxb
  obtain ⟨v', h1', h2', hx', _⟩ := mem_kn2DigitChildren.mp hxa
  have l1 := (setdigit_low hk (hmem b hb) h1 (by omega)).2.1
  have l2 := (setdigit_low hk (hmem a ha) h1' (by omega)).2.1
  rw [← hx'] at l2
  have := lowDigit_unique l1 l2
  omega

/-! ## Variant 2 on logical ranks: height -/

theorem kn2_lclimb {k n D : Nat} (hk : 2 ≤ k) (hn : n ≤ 2147483647) :
    ∀ (f j l : Nat), D ≤ j + f → l < n → l < k ^ D → k ^ j ∣ l →
      ∃ m, m ≤ f ∧ lclimb (kn2ParentN k n) m l = some 0 := by
  intro f
  induction f with
  | zero =>
    intro j l h1 h2 h3 h4
    have h5 : k ^ D ∣ l := dvd_trans (Nat.pow_dvd_pow k (by omega)) h4
    have : l = 0 := Nat.eq_zero_of_dvd_of_lt h5 h3
    exact ⟨0, le_refl _, by simp [lclimb, this]⟩
  | succ f ih =>
    intro j l h1 h2 h3 h4
    by_cases h0 : l = 0
    · exact ⟨0, Nat.zero_le _, by simp [lclimb, h0]⟩
    · obtain ⟨i, hi⟩ := lowDigit_exists hk (Nat.pos_of_ne_zero h0)
      have hij : j ≤ i := by
        by_contra hcon
        exact hi.1 ((zero_below_iff_dvd k l j).mpr h4 i (by omega))
      obtain ⟨hz, _, _, hlt⟩ := setdigit_zero_low hk hi
      have hdvd : k ^ (j + 1) ∣ setdigitN k l i 0 :=
        (zero_below_iff_dvd k _ (j + 1)).mp (fun j' hj' => hz j' (by omega))
      obtain ⟨m, hm, hcl⟩ := ih (j + 1) (setdigitN k l i 0) (by omega) (by omega) (by omega) hdvd
      refine ⟨m + 1, by omega, ?_⟩
      simp only [lclimb, kn2ParentN_eq hk hn h2 hi]
      exact hcl

/-! ## Variant 1: the step count -/

theorem maxstepFrom_spec {k : Nat} (hk : 2 ≤ k) :
    ∀ (fuel tmp ms : Nat), tmp < 2 ^ fuel →
      ms ≤ maxstepFrom k fuel tmp ms ∧ maxstepFrom k fuel tmp ms ≤ ms + fuel ∧
      tmp < k ^ (maxstepFrom k fuel tmp ms - ms) ∧
      (ms < maxstepFrom k fuel tmp ms → k ^ (maxstepFrom k fuel tmp ms - ms - 1) ≤ tmp) := by
  intro fuel
  induction fuel with
  | zero =>
    intro tmp ms h
    simp only [pow_zero, Nat.lt_one_iff] at h
    simp [maxstepFrom, h]
  | succ fuel ih =>
    intro tmp ms h
    unfold maxstepFrom
    by_cases h0 : tmp = 0
    · simp [h0]
    · rw [if_pos h0]
      have hdiv : tmp / k < 2 ^ fuel := by
        apply Nat.div_lt_of_lt_mul
        rw [pow_succ] at h
        calc tmp < 2 ^ fuel * 2 := h
          _ = 2 * 2 ^ fuel := Nat.mul_comm _ _
          _ ≤ k * 2 ^ fuel := Nat.mul_le_mul_right _ hk
      obtain ⟨a, b, c, d⟩ := ih (tmp / k) (ms + 1) hdiv
      generalize maxstepFrom k fuel (tmp / k) (ms + 1) = D at a b c d
      have e : D - ms = (D - (ms + 1)) + 1 := by omega
      have hdm := Nat.div_add_mod tmp k
      have hml := Nat.mod_lt tmp (show k > 0 by omega)
      refine ⟨by omega, by omega, ?_, fun _ => ?_⟩
      · rw [e, pow_succ]
        have : k * (tmp / k + 1) ≤ k * k ^ (D - (ms + 1)) := Nat.mul_le_mul_left _ c
        rw [Nat.mul_comm (k ^ (D - (ms + 1))) k]
        rw [Nat.mul_add] at this
        omega
      · by_cases h1 : ms + 1 < D
        · have d' := d h1
          have e2 : D - ms - 1 = (D - (ms + 1) - 1) + 1 := by omega
          rw [e2, pow_succ]
          have : k ^ (D - (ms + 1) - 1) * k ≤ (tmp / k) * k := Nat.mul_le_mul_right _ d'
          have h3 : tmp / k * k ≤ tmp := Nat.div_mul_le_self _ _
          omega
        · have e2 : D - ms - 1 = 0 := by omega
          rw [e2, pow_zero]
          omega

theorem maxstepN_spec {k n : Nat} (hk : 2 ≤ k) (hn : 1 ≤ n) (hb : n ≤ 2147483647) :
    n ≤ k ^ maxstepN k n ∧ (1 ≤ maxstepN k n → k ^ (maxstepN k n - 1) < n) ∧
      maxstepN k n ≤ 63 := by
  have h63 : n - 1 < 2 ^ 63 := by
    have h2 : (2 : Nat) ^ 63 = 9223372036854775808 := by norm_num
    omega
  obtain ⟨_, b, c, d⟩ := maxstepFrom_spec hk 63 (n - 1) 0 h63
  unfold maxstepN
  simp only [Nat.sub_zero] at c d
  exact ⟨by omega, fun h => by have := d (by omega); omega, by omega⟩

theorem maxstepN_le {k n : Nat} (hk : 2 ≤ k) (hn : 1 ≤ n) (hb : n ≤ 2147483647) :
    maxstepN k n ≤ n := by
  obtain ⟨_, h2, _⟩ := maxstepN_spec hk hn hb
  by_cases h0 : maxstepN k n = 0
  · omega
  · have h3 := h2 (by omega)
    have h4 : maxstepN k n - 1 < k ^ (maxstepN k n - 1) := Nat.lt_pow_self (by omega) _
    omega

theorem pow_le_of_maxstep {k n m : Nat} (hk : 2 ≤ k) (hn : 1 ≤ n) (hb : n ≤ 2147483647)
    (hm : m + 1 ≤ maxstepN k n) : k ^ m < n := by
  obtain ⟨_, h2, _⟩ := maxstepN_spec hk hn hb
  have h3 := h2 (by omega)
  have h4 : k ^ m ≤ k ^ (maxstepN k n - 1) := Nat.pow_le_pow_right (by omega) (by omega)
  omega

theorem pow_maxstep_le {k n m : Nat} (hk : 2 ≤ k) (hn : 1 ≤ n) (hb : n ≤ 2147483647)
    (hm : m ≤ maxstepN k n) : k ^ m ≤ n * k := by
  cases m with
  | zero =>
    simp only [pow_zero]
    exact Nat.mul_pos (by omega) (by omega)
  | succ m =>
    have := pow_le_of_maxstep hk hn hb hm
    rw [pow_succ]
    exact Nat.mul_le_mul_right k (le_of_lt this)

theorem knomial_1_maxstep_loop_eq {k : Nat} (hk : 2 ≤ k) :
    ∀ (fuel tmp ms : Nat), tmp < 2 ^ fuel → tmp ≤ 2147483647 → ms + fuel ≤ 2147483647 →
      knomial_1_maxstep_loop k (fuel + 1) tmp ms
        = .ok ((maxstepFrom k fuel tmp ms : Nat) : Int) := by
  intro fuel
  induction fuel with
  | zero =>
    intro tmp ms h _ _
    simp only [pow_zero, Nat.lt_one_iff] at h
    subst h
    simp [knomial_1_maxstep_loop, maxstepFrom]
  | succ fuel ih =>
    intro tmp ms h h2 h3
    unfold knomial_1_maxstep_loop
    by_cases h0 : tmp = 0
    · subst h0
      simp [maxstepFrom]
    · have h0' : (tmp : Int) ≠ 0 := by exact_mod_cast h0
      rw [if_pos h0', idiv_cast h2, iadd_one_cast (by omega)]
      have hdiv : tmp / k < 2 ^ fuel := by
        apply Nat.div_lt_of_lt_mul
        rw [pow_succ] at h
        calc tmp < 2 ^ fuel * 2 := h
          _ = 2 * 2 ^ fuel := Nat.mul_comm _ _
          _ ≤ k * 2 ^ fuel := Nat.mul_le_mul_right _ hk
      have hle := Nat.div_le_self tmp k
      rw [ih (tmp / k) (ms + 1) hdiv (by omega) (by omega)]
      simp only [maxstepFrom, if_pos h0]

theorem knomial_1_maxstep_eq {k n : Nat} (hk : 2 ≤ k) (hn : 1 ≤ n) (hb : n ≤ 2147483647) :
    knomial_1_maxstep_loop k 64 (isub n 1) 0 = .ok ((maxstepN k n : Nat) : Int) := by
  have h63 : n - 1 < 2 ^ 63 := by
    have h2 : (2 : Nat) ^ 63 = 9223372036854775808 := by norm_num
    omega
  rw [isub_one_cast hn hb]
  have := knomial_1_maxstep_loop_eq hk 63 (n - 1) 0 h63 (by omega) (by omega)
  simpa [maxstepN] using this

theorem ipow_cast {k e : Nat} (h : k ^ e ≤ 2147483647) :
    MPL_ipow k e = .ok (((k ^ e : Nat)) : Int) := by
  unfold MPL_ipow
  have : ¬ ((e : Int) < 0) := by omega
  rw [if_neg this, Int.toNat_natCast, wrap_pow_cast h]

/-! ## Variant 1: the inner loop of the descent -/

theorem kn1Range_found {B t : Nat} (par : Option Nat) (c : Nat) :
    ∀ (f j r x : Nat), j < f → x = r + j * B → x ≤ t → t < x + B →
      kn1Range B t f (par, c, r) = (some c, x, x + 1) := by
  intro f
  induction f with
  | zero => intro j r x h; omega
  | succ f ih =>
    intro j r x hj hx h1 h2
    unfold kn1Range
    cases j with
    | zero =>
      simp only [Nat.zero_mul, Nat.add_zero] at hx
      subst hx
      rw [if_pos ⟨h1, h2⟩]
    | succ j =>
      rw [Nat.succ_mul] at hx
      have : ¬ (r ≤ t ∧ t < r + B) := by omega
      rw [if_neg this]
      exact ih j (r + B) x (by omega) (by omega) h1 h2

theorem kn1Range_skip {B t : Nat} (par : Option Nat) (c : Nat) :
    ∀ (f r : Nat), r + f * B ≤ t → kn1Range B t f (par, c, r) = (par, c, r + f * B) := by
  intro f
  induction f with
  | zero => intro r _; simp [kn1Range]
  | succ f ih =>
    intro r h
    rw [Nat.succ_mul] at h
    unfold kn1Range
    have : ¬ (r ≤ t ∧ t < r + B) := by omega
    rw [if_neg this, ih (r + B) (by omega), Nat.succ_mul]
    congr 2
    omega

theorem kn1Range_cases {B t : Nat} :
    ∀ (f r : Nat), r ≤ t →
      (∃ j x, j < f ∧ x = r + j * B ∧ x ≤ t ∧ t < x + B) ∨ r + f * B ≤ t := by
  intro f
  induction f with
  | zero => intro r h; right; simpa using h
  | succ f ih =>
    intro r h
    by_cases h1 : t < r + B
    · left; exact ⟨0, r, by omega, by simp, h, h1⟩
    · rcases ih (r + B) (by omega) with ⟨j, x, h2, h3, h4, h5⟩ | h2
      · left
        exact ⟨j + 1, x, by omega, by rw [Nat.succ_mul]; omega, h4, h5⟩
      · right
        rw [Nat.succ_mul]; omega

/-- One step of the descent keeps the variables consistent with the target. -/
theorem kn1Valid_step {k m t : Nat} (hk : 2 ≤ k) {st : DescentN}
    (hv : kn1Valid k (m + 1) t st) (hne : t ≠ st.2.1) :
    kn1Valid k m t (kn1Range (k ^ m) t (k - 1) st) := by
  obtain ⟨par, c, r⟩ := st
  obtain ⟨h1, h2⟩ := hv
  simp only at h1 h2 hne
  rcases h2 with h2 | ⟨h2, h3⟩
  · exact absurd h2 hne
  · have hkB : k ^ (m + 1) = (k - 1) * k ^ m + k ^ m := by
      have e : k - 1 + 1 = k := by omega
      rw [pow_succ, Nat.mul_comm, ← Nat.succ_mul, Nat.succ_eq_add_one, e]
    rcases kn1Range_cases (B := k ^ m) (k - 1) r h2 with ⟨j, x, hj, hx, hx1, hx2⟩ | hskip
    · rw [kn1Range_found par c (k - 1) j r x hj hx hx1 hx2]
      refine ⟨by simp, ?_⟩
      simp only
      by_cases htx : t = x
      · exact Or.inl htx
      · right; omega
    · rw [kn1Range_skip par c (k - 1) r hskip]
      refine ⟨by simp only; omega, ?_⟩
      simp only
      right; omega

theorem kn1Valid_zero {k t : Nat} {st : DescentN} (hv : kn1Valid k 0 t st) : t = st.2.1 := by
  obtain ⟨_, h2⟩ := hv
  rcases h2 with h2 | ⟨h2, h3⟩
  · exact h2
  · simp only [pow_zero] at h3; omega

/-! ## Variant 1: the builder's loops compute the logical description -/

theorem knomial_1_range_loop_eq {t n k e : Nat} (ht : t < n) (hB : k ^ e < n)
    (hn : 2 * n ≤ 2147483647) (hkb : k ≤ 2147483646) :
    ∀ (fuel j : Nat) (par : Option Nat) (c r : Nat), 1 ≤ j → j ≤ k → k + 1 ≤ fuel + j → r ≤ t →
      knomial_1_range_loop t k e fuel j (toDescent (par, c, r))
        = .ok (toDescent (kn1Range (k ^ e) t (k - j) (par, c, r))) := by
  intro fuel
  induction fuel with
  | zero => intro j par c r h1 h2 h3; omega
  | succ fuel ih =>
    intro j par c r h1 h2 h3 h4
    unfold knomial_1_range_loop
    by_cases hj : j < k
    · have hj' : (j : Int) < (k : Int) := by exact_mod_cast hj
      rw [if_pos hj', ipow_cast (by omega)]
      simp only [toDescent]
      rw [iadd_cast (by omega)]
      have e1 : k - j = (k - (j + 1)) + 1 := by omega
      rw [e1]
      simp only [kn1Range]
      by_cases hc : r ≤ t ∧ t < r + k ^ e
      · have hc' : ((t : Int) ≥ (r : Int) ∧ (t : Int) < ((r + k ^ e : Nat) : Int)) :=
          ⟨by exact_mod_cast hc.1, by exact_mod_cast hc.2⟩
        rw [if_pos hc', if_pos hc, iadd_one_cast (by omega)]
        rfl
      · have hc' : ¬ ((t : Int) ≥ (r : Int) ∧ (t : Int) < ((r + k ^ e : Nat) : Int)) := by
          rintro ⟨a, b⟩
          exact hc ⟨by exact_mod_cast a, by exact_mod_cast b⟩
        rw [if_neg hc', if_neg hc, iadd_one_cast (by omega)]
        have := ih (j + 1) par c (r + k ^ e) (by omega) (by omega) (by omega) (by omega)
        simp only [toDescent] at this
        exact this
    · have hj' : ¬ (j : Int) < (k : Int) := by
        intro hh; exact hj (by exact_mod_cast hh)
      have e1 : k - j = 0 := by omega
      rw [if_neg hj', e1]
      simp only [kn1Range]

theorem knomial_1_descent_loop_eq {t n k D : Nat} (hk : 2 ≤ k) (ht : t < n)
    (hD : D = maxstepN k n) (hb : n * (k + 1) ≤ 2147483647) :
    ∀ (fuel m : Nat) (st : DescentN), m ≤ D → m + 1 ≤ fuel → kn1Valid k m t st →
      knomial_1_descent_loop t n k D fuel ((D - m : Nat) : Int) (toDescent st)
        = .ok (((D - (kn1Descent k t m st).1 : Nat) : Int),
              toDescent (kn1Descent k t m st).2) := by
  have hnk : n * k + n ≤ 2147483647 := by rw [← Nat.mul_succ]; exact hb
  have hn2 : n * 2 ≤ n * k := Nat.mul_le_mul_left _ hk
  have hkk : k ≤ n * k := Nat.le_mul_of_pos_left _ (by omega)
  have hDn : D ≤ n := by rw [hD]; exact maxstepN_le hk (by omega) (by omega)
  intro fuel
  induction fuel with
  | zero => intro m st h1 h2; omega
  | succ fuel ih =>
    intro m st h1 h2 hv
    obtain ⟨par, c, r⟩ := st
    unfold knomial_1_descent_loop
    have hassert : ¬ ¬ (((D - m : Nat) : Int) ≤ (n : Int)) := by
      have : D - m ≤ n := by omega
      simp only [not_not]
      exact_mod_cast this
    rw [if_neg hassert]
    by_cases htc : t = c
    · have htc' : (t : Int) = (toDescent (par, c, r)).current_rank := by
        simp only [toDescent]; exact_mod_cast htc
      rw [if_pos htc']
      cases m with
      | zero => simp only [kn1Descent]
      | succ m => simp only [kn1Descent, if_pos htc]
    · have htc' : ¬ (t : Int) = (toDescent (par, c, r)).current_rank := by
        simp only [toDescent]
        intro hh; exact htc (by exact_mod_cast hh)
      rw [if_neg htc']
      cases m with
      | zero => exact absurd (kn1Valid_zero hv) htc
      | succ m =>
        have hpow : k ^ m < n := pow_le_of_maxstep hk (by omega) (by omega) (by omega)
        have hr : r ≤ t := by
          rcases hv.2 with h | ⟨h, _⟩
          · exact absurd h htc
          · exact h
        have e1 : isub (isub (D : Int) ((D - (m + 1) : Nat) : Int)) 1 = (m : Int) := by
          rw [isub_cast (by omega) (by omega), isub_one_cast (by omega) (by omega)]
          congr 1; omega
        have e2 : (1 : Int) = ((1 : Nat) : Int) := rfl
        rw [e1, Int.toNat_natCast]
        conv_lhs => rw [e2]
        rw [knomial_1_range_loop_eq ht hpow (by omega) (by omega) k 1 par c r (le_refl _)
          (by omega) (by omega) hr]
        dsimp only
        rw [← e2, iadd_one_cast (by omega)]
        have e3 : D - (m + 1) + 1 = D - m := by omega
        rw [e3, ih m _ (by omega) (by omega) (kn1Valid_step hk hv htc)]
        simp only [kn1Descent, if_neg htc]

theorem kn1Block_succ (B f crank : Nat) :
    kn1Block B (f + 1) crank = crank :: kn1Block B f (crank + B) := by
  unfold kn1Block
  rw [List.range_succ_eq_map, List.map_cons, List.map_map]
  simp only [Nat.zero_mul, Nat.add_zero, List.cons.injEq, true_and]
  apply List.map_congr_left
  intro i _
  simp only [Function.comp, Nat.succ_mul]
  omega

theorem kn1Block_length (B f crank : Nat) : (kn1Block B f crank).length = f := by
  simp [kn1Block]

theorem knomial_1_child_inner_eq {n k root e : Nat} (hroot : root < n)
    (hn : 2 * n ≤ 2147483647) (hpow : k ^ e ≤ 2147483647) (hkb : k ≤ 2147483646) :
    ∀ (fuel j crank : Nat) (ct : MPIR_Treealgo_tree_t), 1 ≤ j → j ≤ k → k + 1 ≤ fuel + j →
      crank + (k - j) * k ^ e ≤ 2147483647 →
      0 ≤ ct.num_children → ct.num_children + ((k - j : Nat) : Int) ≤ 2147483647 →
      knomial_1_child_inner n k root e fuel j crank ct
        = .ok (MPI_SUCCESS, ((crank + (k - j) * k ^ e : Nat) : Int),
            pushed ct (((kn1Block (k ^ e) (k - j) crank).filter
              (fun x => decide (x < n))).map (rotN n root))) := by
  intro fuel
  induction fuel with
  | zero => intro j crank ct h1 h2 h3; omega
  | succ fuel ih =>
    intro j crank ct h1 h2 h3 h4 h5 h6
    unfold knomial_1_child_inner
    by_cases hj : j < k
    · have hj' : (j : Int) < (k : Int) := by exact_mod_cast hj
      have e1 : k - j = (k - (j + 1)) + 1 := by omega
      rw [e1, Nat.succ_mul] at h4
      rw [e1] at h6
      push_cast at h6
      rw [if_pos hj', ipow_cast hpow, e1, kn1Block_succ, Nat.succ_mul]
      by_cases hc : crank < n
      · have hc' : (crank : Int) < (n : Int) := by exact_mod_cast hc
        rw [if_pos hc', rot_cast (by omega), tree_add_child_eq ct _ h5 (by omega)]
        simp only [ne_eq, not_true_eq_false, if_false]
        rw [iadd_one_cast (by omega), iadd_cast (by omega)]
        rw [ih (j + 1) (crank + k ^ e) _ (by omega) (by omega) (by omega) (by omega)
          (by rw [pushed_num]; simp; omega) (by rw [pushed_num]; simp; omega), pushed_pushed]
        rw [List.filter_cons_of_pos (by simpa using hc)]
        simp only [List.map_cons, List.singleton_append]
        congr 4
        omega
      · have hc' : ¬ (crank : Int) < (n : Int) := by
          intro hh; exact hc (by exact_mod_cast hh)
        rw [if_neg hc']
        simp only [ne_eq, not_true_eq_false, if_false]
        rw [iadd_one_cast (by omega), iadd_cast (by omega)]
        rw [ih (j + 1) (crank + k ^ e) _ (by omega) (by omega) (by omega) (by omega)
          h5 (by omega)]
        rw [List.filter_cons_of_neg (by simpa using hc)]
        congr 4
        omega
    · have hj' : ¬ (j : Int) < (k : Int) := by
        intro hh; exact hj (by exact_mod_cast hh)
      have e1 : k - j = 0 := by omega
      rw [if_neg hj', e1]
      simp [kn1Block, pushed_nil]

theorem knomial_1_child_outer_eq {n k root D : Nat} (hk : 2 ≤ k) (hroot : root < n)
    (hD : D = maxstepN k n) (hb : n * (k + 1) ≤ 2147483647) :
    ∀ (fuel m crank : Nat) (ct : MPIR_Treealgo_tree_t), m ≤ D → m + 1 ≤ fuel →
      crank + k ^ m ≤ 2147483647 →
      0 ≤ ct.num_children → ct.num_children + ((m * (k - 1) : Nat) : Int) ≤ 2147483647 →
      knomial_1_child_outer n k root D fuel ((D - m : Nat) : Int) crank ct
        = .ok (MPI_SUCCESS, pushed ct
            ((((kn1Slots k m crank).map Prod.fst).filter
              (fun x => decide (x < n))).map (rotN n root))) := by
  have hnk : n * k + n ≤ 2147483647 := by rw [← Nat.mul_succ]; exact hb
  have hn2 : n * 2 ≤ n * k := Nat.mul_le_mul_left _ hk
  have hkk : k ≤ n * k := Nat.le_mul_of_pos_left _ (by omega)
  have hDn : D ≤ n := by rw [hD]; exact maxstepN_le hk (by omega) (by omega)
  intro fuel
  induction fuel with
  | zero => intro m crank ct h1 h2; omega
  | succ fuel ih =>
    intro m crank ct h1 h2 h3 h4 h5
    unfold knomial_1_child_outer
    cases m with
    | zero =>
      have : ¬ (((D - 0 : Nat) : Int) < (D : Int)) := by simp
      rw [if_neg this]
      simp [kn1Slots, pushed_nil]
    | succ m =>
      have hlt : (((D - (m + 1) : Nat) : Int) < (D : Int)) := by
        have : D - (m + 1) < D := by omega
        exact_mod_cast this
      have hpow : k ^ m < n := pow_le_of_maxstep hk (by omega) (by omega) (by omega)
      have hkB : k ^ (m + 1) = (k - 1) * k ^ m + k ^ m := by
        have e : k - 1 + 1 = k := by omega
        rw [pow_succ, Nat.mul_comm, ← Nat.succ_mul, Nat.succ_eq_add_one, e]
      have e1 : isub (isub (D : Int) ((D - (m + 1) : Nat) : Int)) 1 = (m : Int) := by
        rw [isub_cast (by omega) (by omega), isub_one_cast (by omega) (by omega)]
        congr 1; omega
      have e2 : (1 : Int) = ((1 : Nat) : Int) := rfl
      have hsm : (m + 1) * (k - 1) = m * (k - 1) + (k - 1) := Nat.succ_mul _ _
      rw [hsm] at h5
      push_cast at h5
      rw [if_pos hlt, e1, Int.toNat_natCast]
      conv_lhs => rw [e2]
      rw [knomial_1_child_inner_eq hroot (by omega) (by omega) (by omega) k 1 crank ct
        (le_refl _) (by omega) (by omega) (by omega) h4 (by omega)]
      dsimp only
      simp only [ne_eq, not_true_eq_false, if_false]
      rw [← e2, iadd_one_cast (by omega)]
      have e3 : D - (m + 1) + 1 = D - m := by omega
      have hlen : (List.filter (fun x => decide (x < n)) (kn1Block (k ^ m) (k - 1) crank)).length
          ≤ k - 1 := by
        have := List.length_filter_le (fun x => decide (x < n)) (kn1Block (k ^ m) (k - 1) crank)
        rw [kn1Block_length] at this
        exact this
      rw [e3, ih m _ _ (by omega) (by omega) (by omega)
        (by rw [pushed_num]; simp; omega) (by rw [pushed_num]; simp; omega), pushed_pushed]
      have hfst : List.map (Prod.fst ∘ fun x => (x, m)) (kn1Block (k ^ m) (k - 1) crank)
          = kn1Block (k ^ m) (k - 1) crank := by
        simp [Function.comp_def]
      simp only [kn1Slots, List.map_append, List.map_map, List.filter_append, hfst]

theorem kn1Descent_level_le {k t : Nat} :
    ∀ (m : Nat) (st : DescentN), (kn1Descent k t m st).1 ≤ m := by
  intro m
  induction m with
  | zero => intro st; simp [kn1Descent]
  | succ m ih =>
    intro st
    obtain ⟨par, c, r⟩ := st
    unfold kn1Descent
    split
    · exact le_refl _
    · exact le_trans (ih _) (Nat.le_succ m)

theorem kn1Descent_parent_le {k t : Nat} (hk : 2 ≤ k) :
    ∀ (m : Nat) (st : DescentN), kn1Valid k m t st → (∀ p, st.1 = some p → p ≤ t) →
      ∀ p, (kn1Descent k t m st).2.1 = some p → p ≤ t := by
  intro m
  induction m with
  | zero => intro st _ h p hp; exact h p (by simpa [kn1Descent] using hp)
  | succ m ih =>
    intro st hv h p hp
    obtain ⟨par, c, r⟩ := st
    unfold kn1Descent at hp
    by_cases htc : t = c
    · rw [if_pos htc] at hp
      exact h p hp
    · rw [if_neg htc] at hp
      have hv' := kn1Valid_step hk hv htc
      refine ih _ hv' ?_ p hp
      have hr : r ≤ t ∧ c < r := by
        rcases hv.2 with hh | ⟨hh, _⟩
        · exact absurd hh htc
        · exact ⟨hh, hv.1⟩
      rcases kn1Range_cases (B := k ^ m) (t := t) (k - 1) r hr.1 with
        ⟨j, x, hj, hx, hx1, hx2⟩ | hskip
      · rw [kn1Range_found par c (k - 1) j r x hj hx hx1 hx2]
        intro q hq
        simp only [Option.some.injEq] at hq
        omega
      · rw [kn1Range_skip par c (k - 1) r hskip]
        exact h

theorem kn1Valid_root {k n t : Nat} (hk : 2 ≤ k) (hn : n ≤ 2147483647) (ht : t < n) :
    kn1Valid k (maxstepN k n) t (none, 0, 1) := by
  obtain ⟨h1, _, _⟩ := maxstepN_spec hk (by omega) hn
  refine ⟨by simp, ?_⟩
  simp only
  by_cases h0 : t = 0
  · exact Or.inl h0
  · right; omega

/-- The variant-1 builder computes the logical description of the tree. -/
theorem knomial_1_init_eq (rank nranks k root : Nat) (hn : 1 ≤ nranks) (hk : 2 ≤ k)
    (hr : rank < nranks) (hroot : root < nranks) (hb : nranks * (k + 1) ≤ 2147483647)
    (ct : MPIR_Treealgo_tree_t) :
    MPII_Treeutil_tree_knomial_1_init rank nranks k root ct
      = .ok (MPI_SUCCESS, treeOf rank nranks
          (rotParent nranks root (kn1ParentN k nranks (lrankN rank nranks root)))
          ((kn1ChildrenN k nranks (lrankN rank nranks root)).map (rotN nranks root))) := by
  have hnk : nranks * k + nranks ≤ 2147483647 := by rw [← Nat.mul_succ]; exact hb
  have hkn : nranks ≤ nranks * k := Nat.le_mul_of_pos_right _ (by omega)
  have hn2 : nranks * 2 ≤ nranks * k := Nat.mul_le_mul_left _ hk
  have hl := @lrankN_lt rank nranks root hn
  have hDn : maxstepN k nranks ≤ nranks := maxstepN_le hk hn (by omega)
  have hvalid := kn1Valid_root hk (show nranks ≤ 2147483647 by omega) hl
  unfold MPII_Treeutil_tree_knomial_1_init
  have h1 : ((nranks : Int) ≥ 0) := by positivity
  have h2 : ¬ ((nranks : Int) = 0) := by omega
  have h3 : ((k : Int) ≥ 2) := by omega
  simp only [h1, not_true_eq_false, if_false, h2, h3]
  rw [lrank_cast hr hroot (by omega), knomial_1_maxstep_eq hk hn (by omega)]
  dsimp only
  have e0 : ({ parent := -1, current_rank := 0, running_rank := iadd 0 1 } : Descent)
      = toDescent (none, 0, 1) := by
    simp only [toDescent, parI, Nat.cast_zero, Nat.cast_one]
    congr 1
  have hdesc := knomial_1_descent_loop_eq hk hl rfl hb (nranks + 2) (maxstepN k nranks)
    (none, 0, 1) (le_refl _) (by omega) hvalid
  simp only [Nat.sub_self, Nat.cast_zero] at hdesc
  rw [e0, Int.toNat_natCast, hdesc]
  dsimp only
  have hlev := kn1Descent_level_le (k := k) (t := lrankN rank nranks root)
    (maxstepN k nranks) (none, 0, 1)
  have hpar := kn1Descent_parent_le (t := lrankN rank nranks root) hk
    (maxstepN k nranks) (none, 0, 1) hvalid (by simp)
  have hfin : kn1Descent k (lrankN rank nranks root) (maxstepN k nranks) (none, 0, 1)
      = kn1Final k nranks (lrankN rank nranks root) := rfl
  rw [hfin] at hlev hpar ⊢
  have hpw := pow_maxstep_le hk hn (show nranks ≤ 2147483647 by omega) hlev
  have hfuel : (isub ((maxstepN k nranks : Nat) : Int)
      ((maxstepN k nranks - (kn1Final k nranks (lrankN rank nranks root)).1 : Nat) : Int)).toNat
      = (kn1Final k nranks (lrankN rank nranks root)).1 := by
    rw [isub_cast (by omega) (by omega), Int.toNat_natCast]
    omega
  have hcap : (0 : Int)
      + (((kn1Final k nranks (lrankN rank nranks root)).1 * (k - 1) : Nat) : Int)
      ≤ 2147483647 := by
    have h1 : (kn1Final k nranks (lrankN rank nranks root)).1 * (k - 1) ≤ nranks * k :=
      Nat.mul_le_mul (by omega) (by omega)
    have h2 : (((kn1Final k nranks (lrankN rank nranks root)).1 * (k - 1) : Nat) : Int)
        ≤ ((nranks * k : Nat) : Int) := by exact_mod_cast h1
    have h3 : ((nranks * k : Nat) : Int) ≤ 2147483647 := by
      have : nranks * k ≤ 2147483647 := by omega
      exact_mod_cast this
    omega
  rw [hfuel, iadd_one_cast (by omega)]
  rw [knomial_1_child_outer_eq hk hroot rfl hb _ _ _ _ hlev (le_refl _) (by omega)
    (le_refl _) hcap]
  simp only [treeOf, pushed, kn1ChildrenN, kn1LevelN, kn1ParentN, List.nil_append,
    List.length_map, zero_add, toDescent]
  congr 3
  cases hp : (kn1Final k nranks (lrankN rank nranks root)).2.1 with
  | none => simp [parI, rotParent]
  | some p =>
    have hp' := hpar p hp
    have hne : ¬ ((p : Int) = -1) := by omega
    simp only [parI, rotParent, hne, if_false]
    exact rot_cast (by omega)

/-! ## Variant 1 on logical ranks: candidate children -/

theorem mem_kn1Block {B f r x : Nat} : x ∈ kn1Block B f r ↔ ∃ j, j < f ∧ x = r + j * B := by
  unfold kn1Block
  simp only [List.mem_map, List.mem_range]
  constructor
  · rintro ⟨j, hj, rfl⟩; exact ⟨j, hj, rfl⟩
  · rintro ⟨j, hj, rfl⟩; exact ⟨j, hj, rfl⟩

theorem mem_kn1Slots_succ {k m r : Nat} {p : Nat × Nat} :
    p ∈ kn1Slots k (m + 1) r ↔
      (∃ j, j < k - 1 ∧ p = (r + j * k ^ m, m)) ∨ p ∈ kn1Slots k m (r + (k - 1) * k ^ m) := by
  simp only [kn1Slots, List.mem_append, List.mem_map, mem_kn1Block]
  constructor
  · rintro (⟨x, ⟨j, hj, rfl⟩, rfl⟩ | h)
    · exact Or.inl ⟨j, hj, rfl⟩
    · exact Or.inr h
  · rintro (⟨j, hj, rfl⟩ | h)
    · exact Or.inl ⟨_, ⟨j, hj, rfl⟩, rfl⟩
    · exact Or.inr h

theorem pow_succ_split {k : Nat} (hk : 2 ≤ k) (m : Nat) :
    k ^ (m + 1) = (k - 1) * k ^ m + k ^ m := by
  have e : k - 1 + 1 = k := by omega
  rw [pow_succ, Nat.mul_comm, ← Nat.succ_mul, Nat.succ_eq_add_one, e]

theorem kn1Slots_range {k : Nat} (hk : 2 ≤ k) :
    ∀ (m r x m' : Nat), (x, m') ∈ kn1Slots k m r →
      r ≤ x ∧ x + k ^ m' + 1 ≤ r + k ^ m ∧ m' < m := by
  intro m
  induction m with
  | zero => intro r x m' h; simp [kn1Slots] at h
  | succ m ih =>
    intro r x m' h
    have hB : 0 < k ^ m := pow_pos (by omega) _
    have hs := pow_succ_split hk m
    rcases mem_kn1Slots_succ.mp h with ⟨j, hj, hp⟩ | h'
    · simp only [Prod.mk.injEq] at hp
      obtain ⟨rfl, rfl⟩ := hp
      have : j * k ^ m' + k ^ m' ≤ (k - 1) * k ^ m' := by
        rw [← Nat.succ_mul]; exact Nat.mul_le_mul_right _ (by omega)
      exact ⟨by omega, by omega, by omega⟩
    · obtain ⟨a, b, c⟩ := ih _ x m' h'
      exact ⟨by omega, by omega, by omega⟩

theorem kn1Descent_succ_ne {k u c : Nat} (h : ¬ u = c) (m : Nat) (par : Option Nat) (r : Nat) :
    kn1Descent k u (m + 1) (par, c, r)
      = kn1Descent k u m (kn1Range (k ^ m) u (k - 1) (par, c, r)) := by
  simp [kn1Descent, h]

theorem kn1Slots_lookup {k : Nat} (hk : 2 ≤ k) :
    ∀ (m r c : Nat) (par : Option Nat) (u x m' : Nat), c < r → (x, m') ∈ kn1Slots k m r →
      x ≤ u → u < x + k ^ m' →
      kn1Descent k u m (par, c, r) = kn1Descent k u m' (some c, x, x + 1) := by
  intro m
  induction m with
  | zero => intro r c par u x m' _ h; simp [kn1Slots] at h
  | succ m ih =>
    intro r c par u x m' hcr h hx1 hx2
    have hrange := kn1Slots_range hk _ _ _ _ h
    have huc : ¬ u = c := by omega
    rw [kn1Descent_succ_ne huc]
    rcases mem_kn1Slots_succ.mp h with ⟨j, hj, hp⟩ | h'
    · simp only [Prod.mk.injEq] at hp
      obtain ⟨rfl, rfl⟩ := hp
      rw [kn1Range_found par c (k - 1) j r _ hj rfl hx1 hx2]
    · have hr' := kn1Slots_range hk _ _ _ _ h'
      rw [kn1Range_skip par c (k - 1) r (by omega)]
      exact ih _ c par u x m' (by omega) h' hx1 hx2

theorem kn1Slots_exists {k : Nat} (hk : 2 ≤ k) :
    ∀ (m r t : Nat), r ≤ t → t + 1 < r + k ^ m →
      ∃ x m', (x, m') ∈ kn1Slots k m r ∧ x ≤ t ∧ t < x + k ^ m' := by
  intro m
  induction m with
  | zero => intro r t h1 h2; simp only [pow_zero] at h2; omega
  | succ m ih =>
    intro r t h1 h2
    have hs := pow_succ_split hk m
    rcases kn1Range_cases (B := k ^ m) (t := t) (k - 1) r h1 with ⟨j, x, hj, hx, hx1, hx2⟩ | hskip
    · exact ⟨x, m, mem_kn1Slots_succ.mpr (Or.inl ⟨j, hj, by rw [hx]⟩), hx1, hx2⟩
    · obtain ⟨x, m', hmem, a, b⟩ := ih (r + (k - 1) * k ^ m) t hskip (by omega)
      exact ⟨x, m', mem_kn1Slots_succ.mpr (Or.inr hmem), a, b⟩

theorem kn1Descent_self (k c m : Nat) (par : Option Nat) (r : Nat) :
    kn1Descent k c m (par, c, r) = (m, (par, c, r)) := by
  cases m <;> simp [kn1Descent]

/-! ## Variant 1 on logical ranks: the subtree below a rank -/

/-- The ranks below `t` reach as far as its level allows, inside the range of
the node the descent started from. -/
theorem kn1_nesting {k : Nat} (hk : 2 ≤ k) :
    ∀ (m c : Nat) (par : Option Nat) (t : Nat), c ≤ t → t < c + k ^ m →
      t + k ^ (kn1Descent k t m (par, c, c + 1)).1 ≤ c + k ^ m := by
  intro m
  induction m using Nat.strong_induction_on with
  | _ m ih =>
    intro c par t h1 h2
    by_cases htc : t = c
    · subst htc
      rw [kn1Descent_self]
    · obtain ⟨x, m', hmem, a, b⟩ := kn1Slots_exists hk m (c + 1) t (by omega) (by omega)
      obtain ⟨r1, r2, r3⟩ := kn1Slots_range hk _ _ _ _ hmem
      rw [kn1Slots_lookup hk m (c + 1) c par t x m' (by omega) hmem a b]
      have := ih m' r3 x (some c) t a b
      omega

/-- A rank other than the start of the descent has a parent; it appears among
the candidate children of that parent, one level further down. -/
theorem kn1_parent {k : Nat} (hk : 2 ≤ k) :
    ∀ (m c : Nat) (par : Option Nat) (t : Nat), c < t → t < c + k ^ m →
      ∃ p, (kn1Descent k t m (par, c, c + 1)).2.1 = some p ∧ c ≤ p ∧ p < t ∧
        (t, (kn1Descent k t m (par, c, c + 1)).1)
          ∈ kn1Slots k (kn1Descent k p m (par, c, c + 1)).1 (p + 1) := by
  intro m
  induction m using Nat.strong_induction_on with
  | _ m ih =>
    intro c par t h1 h2
    obtain ⟨x, m', hmem, a, b⟩ := kn1Slots_exists hk m (c + 1) t (by omega) (by omega)
    obtain ⟨r1, r2, r3⟩ := kn1Slots_range hk _ _ _ _ hmem
    rw [kn1Slots_lookup hk m (c + 1) c par t x m' (by omega) hmem a b]
    by_cases htx : t = x
    · subst htx
      refine ⟨c, ?_, le_refl _, h1, ?_⟩
      · rw [kn1Descent_self]
      · rw [kn1Descent_self, kn1Descent_self]
        exact hmem
    · obtain ⟨p, hp1, hp2, hp3, hp4⟩ := ih m' r3 x (some c) t (by omega) b
      refine ⟨p, hp1, by omega, hp3, ?_⟩
      rw [kn1Slots_lookup hk m (c + 1) c par p x m' (by omega) hmem hp2 (by omega)]
      exact hp4

/-- A candidate child of a rank has that rank as its parent. -/
theorem kn1_child {k : Nat} (hk : 2 ≤ k) :
    ∀ (m c : Nat) (par : Option Nat) (q t lv : Nat), c ≤ q → q < c + k ^ m →
      (t, lv) ∈ kn1Slots k (kn1Descent k q m (par, c, c + 1)).1 (q + 1) →
      (kn1Descent k t m (par, c, c + 1)).2.1 = some q := by
  intro m
  induction m using Nat.strong_induction_on with
  | _ m ih =>
    intro c par q t lv h1 h2 hmem
    by_cases hqc : q = c
    · subst hqc
      rw [kn1Descent_self] at hmem
      have hpos : 0 < k ^ lv := pow_pos (by omega) _
      rw [kn1Slots_lookup hk m (q + 1) q par t t lv (by omega) hmem (le_refl _) (by omega),
        kn1Descent_self]
    · obtain ⟨x, m', hx, a, b⟩ := kn1Slots_exists hk m (c + 1) q (by omega) (by omega)
      obtain ⟨r1, r2, r3⟩ := kn1Slots_range hk _ _ _ _ hx
      rw [kn1Slots_lookup hk m (c + 1) c par q x m' (by omega) hx a b] at hmem
      have hnest := kn1_nesting hk m' x (some c) q a b
      obtain ⟨s1, s2, s3⟩ := kn1Slots_range hk _ _ _ _ hmem
      have hpos : 0 < k ^ lv := pow_pos (by omega) _
      rw [kn1Slots_lookup hk m (c + 1) c par t x m' (by omega) hx (by omega) (by omega)]
      exact ih m' r3 x (some c) q t lv a b hmem

theorem kn1Slots_fst_sorted {k : Nat} (hk : 2 ≤ k) :
    ∀ (m r : Nat), List.Pairwise (fun a b => a < b) ((kn1Slots k m r).map Prod.fst) := by
  intro m
  induction m with
  | zero => intro r; simp [kn1Slots]
  | succ m ih =>
    intro r
    have hB : 0 < k ^ m := pow_pos (by omega) _
    simp only [kn1Slots, List.map_append, List.map_map]
    rw [List.pairwise_append]
    refine ⟨?_, ih _, ?_⟩
    · unfold kn1Block
      rw [List.map_map, List.pairwise_map]
      refine List.Pairwise.imp ?_ (List.pairwise_lt_range (k - 1))
      intro a b hab
      simp only [Function.comp]
      have : a * k ^ m < b * k ^ m := Nat.mul_lt_mul_of_pos_right hab hB
      omega
    · intro a ha b hb
      simp only [List.mem_map, Function.comp, mem_kn1Block] at ha
      obtain ⟨_, ⟨j, hj, rfl⟩, rfl⟩ := ha
      simp only [List.mem_map] at hb
      obtain ⟨⟨x, lv⟩, hmem, rfl⟩ := hb
      have := (kn1Slots_range hk _ _ _ _ hmem).1
      have h2 : j * k ^ m + k ^ m ≤ (k - 1) * k ^ m := by
        rw [← Nat.succ_mul]; exact Nat.mul_le_mul_right _ (by omega)
      simp only
      omega

/-! ## Variant 1 on logical ranks: the whole tree -/

theorem kn1_range_of_lt {k n t : Nat} (hk : 2 ≤ k) (hn : n ≤ 2147483647) (ht : t < n) :
    t < 0 + k ^ maxstepN k n := by
  obtain ⟨h1, _, _⟩ := maxstepN_spec hk (by omega) hn
  omega

theorem kn1ParentN_zero (k n : Nat) : kn1ParentN k n 0 = none := by
  unfold kn1ParentN kn1Final
  rw [kn1Descent_self]

theorem kn1LevelN_zero (k n : Nat) : kn1LevelN k n 0 = maxstepN k n := by
  unfold kn1LevelN kn1Final
  rw [kn1Descent_self]

theorem kn1LevelN_le (k n t : Nat) : kn1LevelN k n t ≤ maxstepN k n :=
  kn1Descent_level_le _ _

theorem kn1ParentN_some {k n t : Nat} (hk : 2 ≤ k) (hn : n ≤ 2147483647) (ht : t < n)
    (h0 : 0 < t) :
    ∃ p, kn1ParentN k n t = some p ∧ p < t ∧ kn1LevelN k n t < kn1LevelN k n p ∧
      (t, kn1LevelN k n t) ∈ kn1Slots k (kn1LevelN k n p) (p + 1) := by
  obtain ⟨p, h1, _, h3, h4⟩ :=
    kn1_parent hk (maxstepN k n) 0 none t h0 (kn1_range_of_lt hk hn ht)
  refine ⟨p, h1, h3, ?_, h4⟩
  exact (kn1Slots_range hk _ _ _ _ h4).2.2

theorem kn1ParentN_none_iff {k n t : Nat} (hk : 2 ≤ k) (hn : n ≤ 2147483647) (ht : t < n) :
    kn1ParentN k n t = none ↔ t = 0 := by
  constructor
  · intro h
    by_contra h0
    obtain ⟨p, hp, _⟩ := kn1ParentN_some hk hn ht (Nat.pos_of_ne_zero h0)
    rw [hp] at h; cases h
  · intro h; rw [h, kn1ParentN_zero]

theorem kn1ParentN_lt {k n t p : Nat} (hk : 2 ≤ k) (hn : n ≤ 2147483647) (ht : t < n)
    (h : kn1ParentN k n t = some p) : p < t := by
  have h0 : 0 < t := by
    rcases Nat.eq_zero_or_pos t with h0 | h0
    · rw [h0, kn1ParentN_zero] at h; cases h
    · exact h0
  obtain ⟨p', hp, hlt, _⟩ := kn1ParentN_some hk hn ht h0
  rw [hp] at h
  cases h
  exact hlt

theorem kn1ChildrenN_lt {k n t x : Nat} (h : x ∈ kn1ChildrenN k n t) : x < n := by
  unfold kn1ChildrenN at h
  simpa using (List.mem_filter.mp h).2

theorem kn1ChildrenN_nodup {k : Nat} (hk : 2 ≤ k) (n t : Nat) : (kn1ChildrenN k n t).Nodup := by
  unfold kn1ChildrenN
  apply List.Nodup.filter
  exact (kn1Slots_fst_sorted hk _ _).imp (fun h => Nat.ne_of_lt h)

/-- On logical ranks, the children of `p` are the ranks whose parent is `p`. -/
theorem kn1_child_iff_parent {k n p c : Nat} (hk : 2 ≤ k) (hn : n ≤ 2147483647)
    (hp : p < n) (hc : c < n) : c ∈ kn1ChildrenN k n p ↔ kn1ParentN k n c = some p := by
  constructor
  · intro h
    unfold kn1ChildrenN at h
    obtain ⟨h1, _⟩ := List.mem_filter.mp h
    obtain ⟨⟨x, lv⟩, hmem, hx⟩ := List.mem_map.mp h1
    simp only at hx
    subst hx
    exact kn1_child hk (maxstepN k n) 0 none p x lv (Nat.zero_le _)
      (kn1_range_of_lt hk hn hp) hmem
  · intro h
    have h0 : 0 < c := by
      rcases Nat.eq_zero_or_pos c with h0 | h0
      · rw [h0, kn1ParentN_zero] at h; cases h
      · exact h0
    obtain ⟨p', hp', _, _, hmem⟩ := kn1ParentN_some hk hn hc h0
    rw [hp'] at h
    cases h
    unfold kn1ChildrenN
    rw [List.mem_filter]
    refine ⟨List.mem_map.mpr ⟨_, hmem, rfl⟩, by simpa using hc⟩

theorem kn1_lclimb {k n : Nat} (hk : 2 ≤ k) (hn : n ≤ 2147483647) :
    ∀ (f t : Nat), t < n → maxstepN k n ≤ kn1LevelN k n t + f →
      ∃ m, m ≤ f ∧ lclimb (kn1ParentN k n) m t = some 0 := by
  intro f
  induction f with
  | zero =>
    intro t ht h
    have ht0 : t = 0 := by
      by_contra h0
      obtain ⟨p, _, _, hlt, _⟩ := kn1ParentN_some hk hn ht (Nat.pos_of_ne_zero h0)
      have := kn1LevelN_le k n p
      omega
    exact ⟨0, le_refl _, by simp [lclimb, ht0]⟩
  | succ f ih =>
    intro t ht h
    by_cases h0 : t = 0
    · exact ⟨0, Nat.zero_le _, by simp [lclimb, h0]⟩
    · obtain ⟨p, hp, hpt, hlt, _⟩ := kn1ParentN_some hk hn ht (Nat.pos_of_ne_zero h0)
      obtain ⟨m, hm, hcl⟩ := ih p (by omega) (by omega)
      refine ⟨m + 1, by omega, ?_⟩
      simp only [lclimb, hp]
      exact hcl

theorem maxstepN_le_clog {k n : Nat} (hk : 2 ≤ k) (hn : 1 ≤ n) (hb : n ≤ 2147483647) :
    maxstepN k n ≤ Nat.clog k n := by
  obtain ⟨_, h2, _⟩ := maxstepN_spec hk hn hb
  by_contra hcon
  have h3 := h2 (by omega)
  have h4 : n ≤ k ^ Nat.clog k n := Nat.le_pow_clog (by omega) n
  have h5 : k ^ Nat.clog k n ≤ k ^ (maxstepN k n - 1) :=
    Nat.pow_le_pow_right (by omega) (by omega)
  omega

/-! ## From logical ranks to the builders' results -/

/-- Children and parents of a builder are inverse to each other as soon as
they are on logical ranks. -/
theorem child_count_of_logical {nranks root : Nat} (hroot : root < nranks)
    (lpar : Nat → Option Nat) (lch : Nat → List Nat)
    (hlt : ∀ l x, x ∈ lch l → x < nranks)
    (hnd : ∀ l, (lch l).Nodup)
    (hinv : ∀ p c, p < nranks → c < nranks → (c ∈ lch p ↔ lpar c = some p))
    (hplt : ∀ l p, l < nranks → lpar l = some p → p < nranks)
    {p c : Nat} (hp : p < nranks) (hc : c < nranks) :
    ((lch (lrankN p nranks root)).map (rotN nranks root)).count (c : Int)
      = if rotParent nranks root (lpar (lrankN c nranks root)) = (p : Int) then 1 else 0 := by
  have hlp : lrankN p nranks root < nranks := lrankN_lt (by omega)
  have hlc : lrankN c nranks root < nranks := lrankN_lt (by omega)
  rw [count_rot_children _ hroot (hlt _) (hnd _) hc]
  have h1 := hinv _ _ hlp hlc
  have h2 := rotParent_eq_iff hroot (lpar (lrankN c nranks root))
    (fun x hx => hplt _ x hlc hx) hp
  by_cases hm : lrankN c nranks root ∈ lch (lrankN p nranks root)
  · rw [if_pos hm, if_pos (h2.mpr (h1.mp hm))]
  · rw [if_neg hm, if_neg (fun hh => hm (h1.mpr (h2.mp hh)))]

theorem rot_children_range {nranks root : Nat} (hn : 1 ≤ nranks) (l : List Nat) :
    ∀ x ∈ l.map (rotN nranks root), 0 ≤ x ∧ x < (nranks : Int) := by
  intro x hx
  obtain ⟨y, _, rfl⟩ := List.mem_map.mp hx
  exact ⟨rotN_nonneg _ _ _, rotN_lt _ _ hn⟩

theorem rotParent_range {nranks root : Nat} (hn : 1 ≤ nranks) (o : Option Nat)
    (h : o ≠ none) : 0 ≤ rotParent nranks root o ∧ rotParent nranks root o < (nranks : Int) := by
  cases o with
  | none => exact absurd rfl h
  | some p => exact ⟨rotN_nonneg _ _ _, rotN_lt _ _ hn⟩

theorem rotParent_shift {nranks root s : Nat} (hroot : root < nranks) (hs : s < nranks)
    (o : Option Nat) (ho : ∀ x, o = some x → x < nranks) :
    rotParent nranks ((root + s) % nranks) o
      = if rotParent nranks root o = -1 then -1
        else (rotParent nranks root o + (s : Int)) % (nranks : Int) := by
  cases o with
  | none => simp [rotParent]
  | some p =>
    have h1 := rotN_nonneg nranks root p
    have hne : ¬ (rotN nranks root p = -1) := by omega
    simp only [rotParent, hne, if_false]
    exact rotN_shift (ho p rfl) hroot hs

theorem rot_children_shift {nranks root s : Nat} (hroot : root < nranks) (hs : s < nranks)
    (l : List Nat) (hl : ∀ x ∈ l, x < nranks) :
    l.map (rotN nranks ((root + s) % nranks))
      = (l.map (rotN nranks root)).map (fun c => (c + (s : Int)) % (nranks : Int)) := by
  rw [List.map_map]
  apply List.map_congr_left
  intro x hx
  exact rotN_shift (hl x hx) hroot hs

/-! ## Reading the builders' results -/

theorem parent_iff_root_of_logical {rank nranks root : Nat} (hn : 1 ≤ nranks)
    (hrank : rank < nranks) (hroot : root < nranks) (o : Option Nat)
    (h : o = none ↔ lrankN rank nranks root = 0) :
    (rotParent nranks root o = -1 ↔ rank = root) ∧
      (rank ≠ root → 0 ≤ rotParent nranks root o ∧ rotParent nranks root o < (nranks : Int)) := by
  constructor
  · rw [rotParent_neg_iff, h, lrankN_zero_iff hrank hroot]
  · intro hne
    apply rotParent_range hn
    intro ho
    exact hne ((lrankN_zero_iff hrank hroot).mp (h.mp ho))

theorem kary_parentOf (rank nranks k root : Nat) (hn : 1 ≤ nranks) (hk : 1 ≤ k)
    (hrank : rank < nranks) (hroot : root < nranks) (hb : nranks * (k + 1) ≤ 2147483647)
    (ct : MPIR_Treealgo_tree_t) :
    parentOf (MPII_Treeutil_tree_kary_init rank nranks k root ct)
      = some (rotParent nranks root (karyParentN k (lrankN rank nranks root))) := by
  rw [kary_init_eq rank nranks k root hn hk hrank hroot hb ct]; rfl

theorem kary_childrenOf (rank nranks k root : Nat) (hn : 1 ≤ nranks) (hk : 1 ≤ k)
    (hrank : rank < nranks) (hroot : root < nranks) (hb : nranks * (k + 1) ≤ 2147483647)
    (ct : MPIR_Treealgo_tree_t) :
    childrenOf (MPII_Treeutil_tree_kary_init rank nranks k root ct)
      = some ((karyChildrenN nranks k (lrankN rank nranks root)).map (rotN nranks root)) := by
  rw [kary_init_eq rank nranks k root hn hk hrank hroot hb ct]; rfl

theorem knomial_1_parentOf (rank nranks k root : Nat) (hn : 1 ≤ nranks) (hk : 2 ≤ k)
    (hrank : rank < nranks) (hroot : root < nranks) (hb : nranks * (k + 1) ≤ 2147483647)
    (ct : MPIR_Treealgo_tree_t) :
    parentOf (MPII_Treeutil_tree_knomial_1_init rank nranks k root ct)
      = some (rotParent nranks root (kn1ParentN k nranks (lrankN rank nranks root))) := by
  rw [knomial_1_init_eq rank nranks k root hn hk hrank hroot hb ct]; rfl

theorem knomial_1_childrenOf (rank nranks k root : Nat) (hn : 1 ≤ nranks) (hk : 2 ≤ k)
    (hrank : rank < nranks) (hroot : root < nranks) (hb : nranks * (k + 1) ≤ 2147483647)
    (ct : MPIR_Treealgo_tree_t) :
    childrenOf (MPII_Treeutil_tree_knomial_1_init rank nranks k root ct)
      = some ((kn1ChildrenN k nranks (lrankN rank nranks root)).map (rotN nranks root)) := by
  rw [knomial_1_init_eq rank nranks k root hn hk hrank hroot hb ct]; rfl

theorem knomial_2_parentOf (rank nranks k root : Nat) (hn : 1 ≤ nranks) (hk : 2 ≤ k)
    (hrank : rank < nranks) (hroot : root < nranks) (hb : nranks * (k + 1) ≤ 2147483647)
    (ct : MPIR_Treealgo_tree_t) :
    parentOf (MPII_Treeutil_tree_knomial_2_init rank nranks k root ct)
      = some (rotParent nranks root (kn2ParentN k nranks (lrankN rank nranks root))) := by
  rw [knomial_2_init_eq rank nranks k root hn hk hrank hroot hb ct]; rfl

theorem knomial_2_childrenOf (rank nranks k root : Nat) (hn : 1 ≤ nranks) (hk : 2 ≤ k)
    (hrank : rank < nranks) (hroot : root < nranks) (hb : nranks * (k + 1) ≤ 2147483647)
    (ct : MPIR_Treealgo_tree_t) :
    childrenOf (MPII_Treeutil_tree_knomial_2_init rank nranks k root ct)
      = some ((kn2ChildrenN k nranks (lrankN rank nranks root)).map (rotN nranks root)) := by
  rw [knomial_2_init_eq rank nranks k root hn hk hrank hroot hb ct]; rfl

theorem bound_le {nranks k : Nat} (hk : 1 ≤ k) (hb : nranks * (k + 1) ≤ 2147483647) :
    nranks ≤ 2147483647 := by
  have : nranks * 1 ≤ nranks * (k + 1) := Nat.mul_le_mul_left _ (by omega)
  omega

/-- A builder that is described on logical ranks is rotation equivariant. -/
theorem rotationEquivariant_of_logical (build : Builder) (lpar : Nat → Option Nat)
    (lch : Nat → List Nat) {rank nranks k root s : Nat} (ct ct' : MPIR_Treealgo_tree_t)
    (hrank : rank < nranks) (hroot : root < nranks) (hs : s < nranks)
    (hp : ∀ (rank root : Nat) ct, rank < nranks → root < nranks →
      parentOf (build rank nranks k root ct)
        = some (rotParent nranks root (lpar (lrankN rank nranks root))))
    (hc : ∀ (rank root : Nat) ct, rank < nranks → root < nranks →
      childrenOf (build rank nranks k root ct)
        = some ((lch (lrankN rank nranks root)).map (rotN nranks root)))
    (hplt : ∀ l p, l < nranks → lpar l = some p → p < nranks)
    (hclt : ∀ l x, x ∈ lch l → x < nranks) :
    RotationEquivariant build rank nranks k root s ct ct' := by
  have h1 : (rank + s) % nranks < nranks := Nat.mod_lt _ (by omega)
  have h2 : (root + s) % nranks < nranks := Nat.mod_lt _ (by omega)
  have hl : lrankN rank nranks root < nranks := lrankN_lt (by omega)
  refine ⟨_, _, hp rank root ct hrank hroot, hc rank root ct hrank hroot, ?_, ?_⟩
  · rw [hp _ _ ct' h1 h2, lrankN_shift hrank hroot hs,
      rotParent_shift hroot hs _ (fun x hx => hplt _ x hl hx)]
  · rw [hc _ _ ct' h1 h2, lrankN_shift hrank hroot hs,
      rot_children_shift hroot hs _ (fun x hx => hclt _ x hx)]

/-- A builder that is described on logical ranks climbs as its logical parent
function does. -/
theorem reachesRoot_of_logical (build : Builder) (lpar : Nat → Option Nat)
    {rank nranks k root bound : Nat} (ct : MPIR_Treealgo_tree_t)
    (hrank : rank < nranks) (hroot : root < nranks)
    (hp : ∀ (rank : Nat), rank < nranks →
      parentOf (build rank nranks k root ct)
        = some (rotParent nranks root (lpar (lrankN rank nranks root))))
    (hplt : ∀ l p, l < nranks → lpar l = some p → p < nranks)
    (hcl : ∃ m, m ≤ bound ∧ lclimb lpar m (lrankN rank nranks root) = some 0) :
    ReachesRoot build rank nranks k root bound ct := by
  obtain ⟨m, hm, hcl⟩ := hcl
  refine ⟨m, hm, ?_⟩
  have := climb_of_lclimb build lpar nranks root k ct hroot hp hplt m
    (lrankN rank nranks root) (lrankN_lt (by omega)) hcl
  rw [rotN_lrankN hrank hroot] at this
  exact this

/-! ## The k-ary builder: formula, parents, children, height -/

/-- C1, within the range of `int`: for `nranks ≥ 1`, `k ≥ 1`, `rank, root < nranks`
and `nranks * (k + 1) ≤ INT_MAX`, `MPII_Treeutil_tree_kary_init` returns success
with, for `lrank = (rank + nranks - root) mod nranks`, parent `-1` when
`lrank = 0` and `((lrank - 1) / k + root) mod nranks` otherwise, and the children
`(lrank * k + c + root) mod nranks` for `c = 1 .. k` with `lrank * k + c < nranks`,
in increasing order of `c`. -/
theorem kary_formula (rank nranks k root : Nat) (hn : 1 ≤ nranks) (hk : 1 ≤ k)
    (hrank : rank < nranks) (hroot : root < nranks) (hb : nranks * (k + 1) ≤ 2147483647)
    (ct : MPIR_Treealgo_tree_t) :
    ∃ children : List Int,
      children = ((List.range' 1 k).filter
          (fun c => decide (lrankN rank nranks root * k + c < nranks))).map
          (fun c => (((lrankN rank nranks root * k + c + root) % nranks : Nat) : Int)) ∧
      MPII_Treeutil_tree_kary_init rank nranks k root ct
        = .ok (MPI_SUCCESS,
            { rank := rank, nranks := nranks,
              parent := if lrankN rank nranks root = 0 then -1
                else ((((lrankN rank nranks root - 1) / k + root) % nranks : Nat) : Int),
              num_children := children.length, children := children }) := by
  refine ⟨_, rfl, ?_⟩
  rw [kary_init_eq rank nranks k root hn hk hrank hroot hb ct]
  simp only [treeOf, karyChildrenN, karyChildrenFrom, karyParentN, List.map_map,
    List.length_map, Nat.add_sub_cancel]
  congr 3
  split <;> rfl

/-- C1 witness: rank 5 of 8, `k = 2`, root 3. -/
theorem kary_formula_witness :
    ∃ children : List Int,
      children = ((List.range' 1 2).filter
          (fun c => decide (lrankN 5 8 3 * 2 + c < 8))).map
          (fun c => (((lrankN 5 8 3 * 2 + c + 3) % 8 : Nat) : Int)) ∧
      MPII_Treeutil_tree_kary_init (5 : Nat) (8 : Nat) (2 : Nat) (3 : Nat) ⟨0, 0, 0, 0, []⟩
        = .ok (MPI_SUCCESS,
            { rank := (5 : Nat), nranks := (8 : Nat),
              parent := if lrankN 5 8 3 = 0 then -1
                else ((((lrankN 5 8 3 - 1) / 2 + 3) % 8 : Nat) : Int),
              num_children := children.length, children := children }) :=
  kary_formula 5 8 2 3 (by decide) (by decide) (by decide) (by decide) (by decide) ⟨0, 0, 0, 0, []⟩

/-- C1 fails outside the range of `int`: with 2^30 + 1 ranks, `k = 2`, root 0,
rank 2^30, the sum `rank + (nranks - root)` exceeds `INT_MAX`; the call returns
parent `-536870911` and two negative children, where the formula gives parent
`536870911` and no child. -/
theorem kary_formula_overflow :
    MPII_Treeutil_tree_kary_init 1073741824 1073741825 2 0 ⟨0, 0, 0, 0, []⟩
        = .ok (MPI_SUCCESS, ⟨1073741824, 1073741825, -536870911, 2,
            [-1073741818, -1073741817]⟩) ∧
      lrankN 1073741824 1073741825 0 ≠ 0 ∧
      (((lrankN 1073741824 1073741825 0 - 1) / 2 + 0) % 1073741825 : Nat) = 536870911 ∧
      (List.range' 1 2).filter
          (fun c => decide (lrankN 1073741824 1073741825 0 * 2 + c < 1073741825)) = [] := by
  decide

/-- C2, within the range of `int`: for each of the three builders, `nranks ≥ 1`,
`k ≥ 2`, `rank, root < nranks` and `nranks * (k + 1) ≤ INT_MAX`, the computed
parent is `-1` if and only if `rank = root`, and otherwise it is a rank in
`[0, nranks)`. -/
theorem parent_iff_root (rank nranks k root : Nat) (hn : 1 ≤ nranks) (hk : 2 ≤ k)
    (hrank : rank < nranks) (hroot : root < nranks) (hb : nranks * (k + 1) ≤ 2147483647)
    (ct : MPIR_Treealgo_tree_t) :
    ParentIffRoot MPII_Treeutil_tree_kary_init rank nranks k root ct ∧
    ParentIffRoot MPII_Treeutil_tree_knomial_1_init rank nranks k root ct ∧
    ParentIffRoot MPII_Treeutil_tree_knomial_2_init rank nranks k root ct := by
  have hnb := bound_le (by omega : 1 ≤ k) hb
  have hl : lrankN rank nranks root < nranks := lrankN_lt hn
  refine ⟨⟨_, kary_parentOf rank nranks k root hn (by omega) hrank hroot hb ct, ?_⟩,
    ⟨_, knomial_1_parentOf rank nranks k root hn hk hrank hroot hb ct, ?_⟩,
    ⟨_, knomial_2_parentOf rank nranks k root hn hk hrank hroot hb ct, ?_⟩⟩
  · exact parent_iff_root_of_logical hn hrank hroot _ karyParentN_none_iff
  · exact parent_iff_root_of_logical hn hrank hroot _ (kn1ParentN_none_iff hk hnb hl)
  · exact parent_iff_root_of_logical hn hrank hroot _ (kn2ParentN_none_iff hk hnb hl)

/-- C2 witness: rank 6 of 10, `k = 3`, root 4. -/
theorem parent_iff_root_witness :
    ParentIffRoot MPII_Treeutil_tree_kary_init 6 10 3 4 ⟨0, 0, 0, 0, []⟩ ∧
    ParentIffRoot MPII_Treeutil_tree_knomial_1_init 6 10 3 4 ⟨0, 0, 0, 0, []⟩ ∧
    ParentIffRoot MPII_Treeutil_tree_knomial_2_init 6 10 3 4 ⟨0, 0, 0, 0, []⟩ :=
  parent_iff_root 6 10 3 4 (by decide) (by decide) (by decide) (by decide) (by decide)
    ⟨0, 0, 0, 0, []⟩

/-- C2 fails outside the range of `int`: with 2^30 + 1 ranks, `k = 2`, root 0,
the k-ary builder gives the non-root rank 2^30 the parent `-536870911`, which
is neither `-1` nor a rank. -/
theorem parent_iff_root_overflow :
    parentOf (MPII_Treeutil_tree_kary_init 1073741824 1073741825 2 0 ⟨0, 0, 0, 0, []⟩)
        = some (-536870911) ∧
      ¬ ParentIffRoot MPII_Treeutil_tree_kary_init 1073741824 1073741825 2 0 ⟨0, 0, 0, 0, []⟩ := by
  have h : parentOf (MPII_Treeutil_tree_kary_init 1073741824 1073741825 2 0 ⟨0, 0, 0, 0, []⟩)
      = some (-536870911) := by decide
  refine ⟨h, ?_⟩
  rintro ⟨p, hp, _, hrange⟩
  have hp' : parentOf (MPII_Treeutil_tree_kary_init ((1073741824 : Nat) : Int)
      ((1073741825 : Nat) : Int) ((2 : Nat) : Int) ((0 : Nat) : Int) ⟨0, 0, 0, 0, []⟩)
      = some (-536870911) := h
  rw [hp'] at hp
  have hpe : p = -536870911 := (Option.some.inj hp).symm
  have := hrange (by decide)
  omega

/-- C3, within the range of `int`: for `nranks ≥ 1`, `k ≥ 2`, `root < nranks` and
`nranks * (k + 1) ≤ INT_MAX`, and ranks `p, c < nranks`: the root occurs in no
children list of the k-ary builder; a non-root `c` has a parent `q` in
`[0, nranks)` and occurs in the children list built for `p` exactly once when
`p = q` and not at all otherwise. -/
theorem kary_child_unique (nranks k root p c : Nat) (hn : 1 ≤ nranks) (hk : 2 ≤ k)
    (hroot : root < nranks) (hp : p < nranks) (hc : c < nranks)
    (hb : nranks * (k + 1) ≤ 2147483647) (ct ct' : MPIR_Treealgo_tree_t) :
    ∃ (l : List Int) (q : Int),
      childrenOf (MPII_Treeutil_tree_kary_init p nranks k root ct) = some l ∧
      parentOf (MPII_Treeutil_tree_kary_init c nranks k root ct') = some q ∧
      (c = root → l.count (c : Int) = 0) ∧
      (c ≠ root → 0 ≤ q ∧ q < (nranks : Int) ∧
        l.count (c : Int) = if q = (p : Int) then 1 else 0) := by
  have hcount := child_count_of_logical hroot (karyParentN k) (karyChildrenN nranks k)
    (fun _ _ h => karyChildrenN_lt h) (fun l => karyChildrenN_nodup nranks k l)
    (fun p c _ hc => mem_karyChildrenN_iff_parent (by omega) hc)
    (fun l p hl h => by have := karyParentN_lt h; omega) hp hc
  have hfacts := parent_iff_root_of_logical hn hc hroot
    (karyParentN k (lrankN c nranks root)) karyParentN_none_iff
  refine ⟨_, _, kary_childrenOf p nranks k root hn (by omega) hp hroot hb ct,
    kary_parentOf c nranks k root hn (by omega) hc hroot hb ct', ?_, ?_⟩
  · intro hcr
    rw [hcount]
    have h1 := hfacts.1.mpr hcr
    rw [h1]
    have : ¬ ((-1 : Int) = (p : Int)) := by omega
    rw [if_neg this]
  · intro hcr
    exact ⟨(hfacts.2 hcr).1, (hfacts.2 hcr).2, hcount⟩

/-- C3 witness: 10 ranks, `k = 3`, root 4, `p = 5`, `c = 8`. -/
theorem kary_child_unique_witness :
    ∃ (l : List Int) (q : Int),
      childrenOf (MPII_Treeutil_tree_kary_init (5 : Nat) (10 : Nat) (3 : Nat) (4 : Nat)
        ⟨0, 0, 0, 0, []⟩) = some l ∧
      parentOf (MPII_Treeutil_tree_kary_init (8 : Nat) (10 : Nat) (3 : Nat) (4 : Nat)
        ⟨0, 0, 0, 0, []⟩) = some q ∧
      ((8 : Nat) = 4 → l.count ((8 : Nat) : Int) = 0) ∧
      ((8 : Nat) ≠ 4 → 0 ≤ q ∧ q < ((10 : Nat) : Int) ∧
        l.count ((8 : Nat) : Int) = if q = ((5 : Nat) : Int) then 1 else 0) :=
  kary_child_unique 10 3 4 5 8 (by decide) (by decide) (by decide) (by decide) (by decide)
    (by decide) ⟨0, 0, 0, 0, []⟩ ⟨0, 0, 0, 0, []⟩

/-- C3 fails outside the range of `int`: with 2^30 + 1 ranks, `k = 2`, root 0,
the rank 2^30 is a child of rank 536870911, but the parent computed for rank
2^30 is `-536870911`. -/
theorem kary_child_unique_overflow :
    childrenOf (MPII_Treeutil_tree_kary_init 536870911 1073741825 2 0 ⟨0, 0, 0, 0, []⟩)
        = some [1073741823, 1073741824] ∧
      parentOf (MPII_Treeutil_tree_kary_init 1073741824 1073741825 2 0 ⟨0, 0, 0, 0, []⟩)
        = some (-536870911) := by
  decide

/-- C4, within the range of `int`: for `nranks ≥ 1`, `k ≥ 2`, `rank, root < nranks`
and `nranks * (k + 1) ≤ INT_MAX`, following the parents computed by the k-ary
builder from `rank` reaches `root` after at most `⌈log_k nranks⌉` steps. -/
theorem kary_height (rank nranks k root : Nat) (hn : 1 ≤ nranks) (hk : 2 ≤ k)
    (hrank : rank < nranks) (hroot : root < nranks) (hb : nranks * (k + 1) ≤ 2147483647)
    (ct : MPIR_Treealgo_tree_t) :
    ReachesRoot MPII_Treeutil_tree_kary_init rank nranks k root (Nat.clog k nranks) ct := by
  apply reachesRoot_of_logical _ (karyParentN k) ct hrank hroot
  · intro r hr
    exact kary_parentOf r nranks k root hn (by omega) hr hroot hb ct
  · intro l p hl h
    have := karyParentN_lt h
    omega
  · apply kary_lclimb
    have h1 : lrankN rank nranks root < nranks := lrankN_lt hn
    have h2 : nranks ≤ k ^ Nat.clog k nranks := Nat.le_pow_clog (by omega) nranks
    omega

/-- C4 witness: rank 2 of 10, `k = 3`, root 4. -/
theorem kary_height_witness :
    ReachesRoot MPII_Treeutil_tree_kary_init 2 10 3 4 (Nat.clog 3 10) ⟨0, 0, 0, 0, []⟩ :=
  kary_height 2 10 3 4 (by decide) (by decide) (by decide) (by decide) (by decide)
    ⟨0, 0, 0, 0, []⟩

theorem clog_two_int_max : Nat.clog 2 2147483647 = 31 := by
  have h1 : Nat.clog 2 2147483647 ≤ 31 :=
    (Nat.le_pow_iff_clog_le (by decide)).mp (by decide)
  have h2 : ¬ Nat.clog 2 2147483647 ≤ 30 := fun h =>
    absurd ((Nat.le_pow_iff_clog_le (by decide)).mpr h) (by decide)
  omega

/-- C4 fails outside the range of `int`: with `INT_MAX` ranks, `k = 2`, root 0,
the parents computed from rank `INT_MAX - 1` (the first one is `-2`) do not
reach the root within `⌈log_2 INT_MAX⌉ = 31` steps. -/
theorem kary_height_overflow :
    parentOf (MPII_Treeutil_tree_kary_init 2147483646 2147483647 2 0 ⟨0, 0, 0, 0, []⟩)
        = some (-2) ∧
      ¬ ReachesRoot MPII_Treeutil_tree_kary_init 2147483646 2147483647 2 0
        (Nat.clog 2 2147483647) ⟨0, 0, 0, 0, []⟩ := by
  have h : ∀ m, m ≤ 31 →
      climb MPII_Treeutil_tree_kary_init 2147483647 2 0 ⟨0, 0, 0, 0, []⟩ m 2147483646
        ≠ some 0 := by decide
  refine ⟨by decide, ?_⟩
  rintro ⟨m, hm, hcl⟩
  rw [clog_two_int_max] at hm
  exact h m hm hcl

/-! ## The three builders: rotation -/

/-- C5, within the range of `int`: for each of the three builders, `nranks ≥ 1`,
`k ≥ 2`, `rank, root, s < nranks` and `nranks * (k + 1) ≤ INT_MAX`, building for
`((rank + s) mod nranks, (root + s) mod nranks)` gives parent `-1` when the build
for `(rank, root)` gives `-1` and `(parent + s) mod nranks` otherwise, and the
children of the build for `(rank, root)` each shifted by `s` modulo `nranks`, in
the same order. -/
theorem rotation_equivariance (rank nranks k root s : Nat) (hn : 1 ≤ nranks) (hk : 2 ≤ k)
    (hrank : rank < nranks) (hroot : root < nranks) (hs : s < nranks)
    (hb : nranks * (k + 1) ≤ 2147483647) (ct ct' : MPIR_Treealgo_tree_t) :
    RotationEquivariant MPII_Treeutil_tree_kary_init rank nranks k root s ct ct' ∧
    RotationEquivariant MPII_Treeutil_tree_knomial_1_init rank nranks k root s ct ct' ∧
    RotationEquivariant MPII_Treeutil_tree_knomial_2_init rank nranks k root s ct ct' := by
  have hnb := bound_le (by omega : 1 ≤ k) hb
  refine ⟨?_, ?_, ?_⟩
  · exact rotationEquivariant_of_logical _ (karyParentN k) (karyChildrenN nranks k) ct ct'
      hrank hroot hs
      (fun r ro c hr hro => kary_parentOf r nranks k ro hn (by omega) hr hro hb c)
      (fun r ro c hr hro => kary_childrenOf r nranks k ro hn (by omega) hr hro hb c)
      (fun l p hl h => by have := karyParentN_lt h; omega)
      (fun _ _ h => karyChildrenN_lt h)
  · exact rotationEquivariant_of_logical _ (kn1ParentN k nranks) (kn1ChildrenN k nranks) ct ct'
      hrank hroot hs
      (fun r ro c hr hro => knomial_1_parentOf r nranks k ro hn hk hr hro hb c)
      (fun r ro c hr hro => knomial_1_childrenOf r nranks k ro hn hk hr hro hb c)
      (fun l p hl h => by have := kn1ParentN_lt hk hnb hl h; omega)
      (fun _ _ h => kn1ChildrenN_lt h)
  · exact rotationEquivariant_of_logical _ (kn2ParentN k nranks) (kn2ChildrenN k nranks) ct ct'
      hrank hroot hs
      (fun r ro c hr hro => knomial_2_parentOf r nranks k ro hn hk hr hro hb c)
      (fun r ro c hr hro => knomial_2_childrenOf r nranks k ro hn hk hr hro hb c)
      (fun l p hl h => by have := kn2ParentN_lt hk hnb hl h; omega)
      (fun _ _ h => kn2ChildrenN_lt h)

/-- C5 witness: rank 6 of 10, `k = 3`, root 4, shift 7. -/
theorem rotation_equivariance_witness :
    RotationEquivariant MPII_Treeutil_tree_kary_init 6 10 3 4 7
      ⟨0, 0, 0, 0, []⟩ ⟨0, 0, 0, 0, []⟩ ∧
    RotationEquivariant MPII_Treeutil_tree_knomial_1_init 6 10 3 4 7
      ⟨0, 0, 0, 0, []⟩ ⟨0, 0, 0, 0, []⟩ ∧
    RotationEquivariant MPII_Treeutil_tree_knomial_2_init 6 10 3 4 7
      ⟨0, 0, 0, 0, []⟩ ⟨0, 0, 0, 0, []⟩ :=
  rotation_equivariance 6 10 3 4 7 (by decide) (by decide) (by decide) (by decide) (by decide)
    (by decide) ⟨0, 0, 0, 0, []⟩ ⟨0, 0, 0, 0, []⟩

/-- C5 fails outside the range of `int`: with 2^30 + 1 ranks and `k = 2`, the
k-ary build for rank 2^30 and root 0 gives parent `-536870911`; shifted by 1
(rank 0, root 1) it gives parent 536870912, which is not
`(-536870911 + 1) mod nranks = 536870915`. -/
theorem rotation_equivariance_overflow :
    parentOf (MPII_Treeutil_tree_kary_init 1073741824 1073741825 2 0 ⟨0, 0, 0, 0, []⟩)
        = some (-536870911) ∧
      parentOf (MPII_Treeutil_tree_kary_init (((1073741824 + 1) % 1073741825 : Nat) : Int)
          1073741825 2 (((0 + 1) % 1073741825 : Nat) : Int) ⟨0, 0, 0, 0, []⟩)
        = some 536870912 ∧
      ((-536870911 : Int) + 1) % 1073741825 = 536870915 := by
  decide

/-! ## k-nomial variant 2: digits -/

/-- C6, within the range of `int`: for `k ≥ 2`, `rank, root < nranks`,
`rank ≠ root` and `nranks * (k + 1) ≤ INT_MAX`, the logical rank
`lrank = (rank + nranks - root) mod nranks` has a least-significant nonzero
base-`k` digit, and with `i` its position and `d` its value the parent computed
by variant 2 is `(lrank - d * k^i + root) mod nranks`. -/
theorem knomial_2_parent_digit (rank nranks k root : Nat) (hk : 2 ≤ k)
    (hrank : rank < nranks) (hroot : root < nranks) (hne : rank ≠ root)
    (hb : nranks * (k + 1) ≤ 2147483647) (ct : MPIR_Treealgo_tree_t) :
    (∃ i, LowDigit k (lrankN rank nranks root) i) ∧
    ∀ i, LowDigit k (lrankN rank nranks root) i →
      parentOf (MPII_Treeutil_tree_knomial_2_init rank nranks k root ct)
        = some ((((lrankN rank nranks root
            - digitN k (lrankN rank nranks root) i * k ^ i + root) % nranks : Nat)) : Int) := by
  have hn : 1 ≤ nranks := by omega
  have hnb := bound_le (by omega : 1 ≤ k) hb
  have hl : lrankN rank nranks root < nranks := lrankN_lt hn
  have hl0 : lrankN rank nranks root ≠ 0 := fun h => hne ((lrankN_zero_iff hrank hroot).mp h)
  refine ⟨lowDigit_exists hk (Nat.pos_of_ne_zero hl0), fun i hi => ?_⟩
  rw [knomial_2_parentOf rank nranks k root hn hk hrank hroot hb ct,
    kn2ParentN_eq hk hnb hl hi, (setdigit_zero_low hk hi).2.1]
  rfl

/-- C6 witness: rank 1 of 10, `k = 3`, root 4 (logical rank 7). -/
theorem knomial_2_parent_digit_witness :
    (∃ i, LowDigit 3 (lrankN 1 10 4) i) ∧
    ∀ i, LowDigit 3 (lrankN 1 10 4) i →
      parentOf (MPII_Treeutil_tree_knomial_2_init (1 : Nat) (10 : Nat) (3 : Nat) (4 : Nat)
        ⟨0, 0, 0, 0, []⟩)
        = some ((((lrankN 1 10 4 - digitN 3 (lrankN 1 10 4) i * 3 ^ i + 4) % 10 : Nat)) : Int) :=
  knomial_2_parent_digit 1 10 3 4 (by decide) (by decide) (by decide) (by decide) (by decide)
    ⟨0, 0, 0, 0, []⟩

/-- C6 fails outside the range of `int`: with 3^19 + 1 ranks, `k = 3`, root 0,
the logical rank of the last rank 3^19 is 3^19, whose only nonzero digit is at
position 19, so that the claimed parent is 0; in the builder the sum
`rank + (nranks - root)` passes `INT_MAX`, the logical rank it computes is
`-808182893`, which is `<= 0`, and the call returns parent `-1`. -/
theorem knomial_2_parent_digit_overflow :
    LowDigit 3 (lrankN 1162261467 1162261468 0) 19 ∧
      (((lrankN 1162261467 1162261468 0
        - digitN 3 (lrankN 1162261467 1162261468 0) 19 * 3 ^ 19 + 0) % 1162261468 : Nat) : Int)
        = 0 ∧
      imod (iadd 1162261467 (isub 1162261468 0)) 1162261468 = -808182893 ∧
      MPII_Treeutil_tree_knomial_2_init 1162261467 1162261468 3 0 ⟨0, 0, 0, 0, []⟩
        = .ok (MPI_SUCCESS, ⟨1162261467, 1162261468, -1, 0, []⟩) ∧
      parentOf (MPII_Treeutil_tree_knomial_2_init 1162261467 1162261468 3 0 ⟨0, 0, 0, 0, []⟩)
        = some (-1) := by
  decide

/-- C7, within the range of `int`: for `nranks ≥ 1`, `k ≥ 2`, `root < nranks`,
`nranks * (k + 1) ≤ INT_MAX` and ranks `p, c < nranks`: `c` occurs in the children
list variant 2 builds for `p` if and only if the parent it builds for `c` is
`p`, it occurs there exactly once when it occurs, and a non-root `c` has a
parent `p'` in `[0, nranks)` in whose children list it occurs. -/
theorem knomial_2_child_iff_parent (nranks k root p c : Nat) (hn : 1 ≤ nranks) (hk : 2 ≤ k)
    (hroot : root < nranks) (hp : p < nranks) (hc : c < nranks)
    (hb : nranks * (k + 1) ≤ 2147483647) (ct ct' : MPIR_Treealgo_tree_t) :
    ∃ (l : List Int) (q : Int),
      childrenOf (MPII_Treeutil_tree_knomial_2_init p nranks k root ct) = some l ∧
      parentOf (MPII_Treeutil_tree_knomial_2_init c nranks k root ct') = some q ∧
      ((c : Int) ∈ l ↔ q = (p : Int)) ∧ ((c : Int) ∈ l → l.count (c : Int) = 1) ∧
      (c ≠ root → ∃ (p' : Nat) (l' : List Int), p' < nranks ∧ q = (p' : Int) ∧
        childrenOf (MPII_Treeutil_tree_knomial_2_init p' nranks k root ct) = some l' ∧
        (c : Int) ∈ l') := by
  have hnb := bound_le (by omega : 1 ≤ k) hb
  have hcount : ∀ p, p < nranks → _ := fun p hp =>
    child_count_of_logical hroot (kn2ParentN k nranks) (kn2ChildrenN k nranks)
      (fun _ _ h => kn2ChildrenN_lt h) (fun l => kn2ChildrenN_nodup hk nranks l)
      (fun p c _ hc => kn2_child_iff_parent hk hnb hc)
      (fun l p hl h => by have := kn2ParentN_lt hk hnb hl h; omega) hp hc
  have hlc : lrankN c nranks root < nranks := lrankN_lt hn
  have hfacts := parent_iff_root_of_logical hn hc hroot
    (kn2ParentN k nranks (lrankN c nranks root)) (kn2ParentN_none_iff hk hnb hlc)
  refine ⟨_, _, knomial_2_childrenOf p nranks k root hn hk hp hroot hb ct,
    knomial_2_parentOf c nranks k root hn hk hc hroot hb ct', ?_, ?_, ?_⟩
  · rw [← List.count_pos_iff, hcount p hp]
    split <;> simp_all
  · intro hmem
    have hpos := List.count_pos_iff.mpr hmem
    by_cases hq : rotParent nranks root (kn2ParentN k nranks (lrankN c nranks root)) = (p : Int)
    · rw [hcount p hp, if_pos hq]
    · rw [hcount p hp, if_neg hq] at hpos
      omega
  · intro hcr
    obtain ⟨h0, h1⟩ := hfacts.2 hcr
    have hq : rotParent nranks root (kn2ParentN k nranks (lrankN c nranks root))
        = ((rotParent nranks root (kn2ParentN k nranks (lrankN c nranks root))).toNat : Int) :=
      (Int.toNat_of_nonneg h0).symm
    have hlt : (rotParent nranks root (kn2ParentN k nranks (lrankN c nranks root))).toNat
        < nranks := by omega
    refine ⟨_, _, hlt, hq, knomial_2_childrenOf _ nranks k root hn hk hlt hroot hb ct, ?_⟩
    rw [← List.count_pos_iff, hcount _ hlt, if_pos hq]
    omega

/-- C7 witness: 10 ranks, `k = 3`, root 4, `p = 7`, `c = 9`. -/
theorem knomial_2_child_iff_parent_witness :
    ∃ (l : List Int) (q : Int),
      childrenOf (MPII_Treeutil_tree_knomial_2_init (7 : Nat) (10 : Nat) (3 : Nat) (4 : Nat)
        ⟨0, 0, 0, 0, []⟩) = some l ∧
      parentOf (MPII_Treeutil_tree_knomial_2_init (9 : Nat) (10 : Nat) (3 : Nat) (4 : Nat)
        ⟨0, 0, 0, 0, []⟩) = some q ∧
      (((9 : Nat) : Int) ∈ l ↔ q = ((7 : Nat) : Int)) ∧
      (((9 : Nat) : Int) ∈ l → l.count ((9 : Nat) : Int) = 1) ∧
      ((9 : Nat) ≠ 4 → ∃ (p' : Nat) (l' : List Int), p' < 10 ∧ q = (p' : Int) ∧
        childrenOf (MPII_Treeutil_tree_knomial_2_init p' (10 : Nat) (3 : Nat) (4 : Nat)
          ⟨0, 0, 0, 0, []⟩) = some l' ∧
        ((9 : Nat) : Int) ∈ l') :=
  knomial_2_child_iff_parent 10 3 4 7 9 (by decide) (by decide) (by decide) (by decide)
    (by decide) (by decide) ⟨0, 0, 0, 0, []⟩ ⟨0, 0, 0, 0, []⟩

/-- C7 fails outside the range of `int`: with 3^19 + 1 ranks, `k = 3`, root 0,
the last rank 3^19 is in the children list built for rank 0 (digit 19 set to
1), but the parent built for rank 3^19 is `-1`, not 0. -/
theorem knomial_2_child_iff_parent_overflow :
    (∃ l, childrenOf (MPII_Treeutil_tree_knomial_2_init 0 1162261468 3 0 ⟨0, 0, 0, 0, []⟩)
        = some l ∧ (1162261467 : Int) ∈ l) ∧
      parentOf (MPII_Treeutil_tree_knomial_2_init 1162261467 1162261468 3 0 ⟨0, 0, 0, 0, []⟩)
        = some (-1) := by
  refine ⟨⟨[-341741729, -1002668798, -501334399, -603617230, -858020530, -1010140999, -942821630,
    1094942099, -701694366, -233898122, -347360338, -754810903, -772601566, -914348642,
    -1038305055, -692203370, -346101685, -500128754, -554130074, -454104322, -808182895,
    -808182894, 1162261467, 774840978, 387420489, 258280326, 129140163, 86093442, 43046721,
    28697814, 14348907, 9565938, 4782969, 3188646, 1594323, 1062882, 531441, 354294, 177147,
    118098, 59049, 39366, 19683, 13122, 6561, 4374, 2187, 1458, 729, 486, 243, 162, 81, 54, 27,
    18, 9, 6, 3, 2, 1], by decide,
    by decide⟩, by decide⟩

/-- C8 as the code has it, within the range of `int`: for `nranks ≥ 1`, `k ≥ 2`,
`rank, root < nranks` and `nranks * (k + 1) ≤ INT_MAX`, `tree_ilog(k, nranks - 1)`
returns a depth and the children of variant 2 are the rotations of the logical
ranks obtained from `lrank` by taking a digit position `j` below the depth such
that digit `j` and every less-significant digit of `lrank` are zero, replacing
digit `j` by a value in `1 .. k-1`, and keeping the result when it is
`< nranks`. -/
theorem knomial_2_children_digits (rank nranks k root : Nat) (hn : 1 ≤ nranks) (hk : 2 ≤ k)
    (hrank : rank < nranks) (hroot : root < nranks) (hb : nranks * (k + 1) ≤ 2147483647)
    (ct : MPIR_Treealgo_tree_t) :
    ∃ (depth : Nat) (lc : List Nat),
      tree_ilog k (isub nranks 1) = .ok (depth : Int) ∧
      childrenOf (MPII_Treeutil_tree_knomial_2_init rank nranks k root ct)
        = some (lc.map (fun x => (((x + root) % nranks : Nat) : Int))) ∧
      ∀ x, x ∈ lc ↔ trailingZeroChild k nranks depth (lrankN rank nranks root) x := by
  have hnk : nranks * k ≤ 2147483647 := by
    have : nranks * k ≤ nranks * (k + 1) := Nat.mul_le_mul_left _ (by omega)
    omega
  refine ⟨depthN k nranks, kn2ChildrenN k nranks (lrankN rank nranks root),
    tree_ilog_eq hk hn hnk, knomial_2_childrenOf rank nranks k root hn hk hrank hroot hb ct, ?_⟩
  intro x
  rw [mem_kn2ChildrenN]
  constructor
  · rintro ⟨j, v, h1, h2, h3, h4, h5, h6⟩
    exact ⟨j, v, h1, h2, h3, by omega, h5, h6⟩
  · rintro ⟨j, v, h1, h2, h3, h4, h5, h6⟩
    exact ⟨j, v, h1, h2, h3, by omega, h5, h6⟩

/-- C8 witness: rank 4 of 10, `k = 3`, root 4 (the root). -/
theorem knomial_2_children_digits_witness :
    ∃ (depth : Nat) (lc : List Nat),
      tree_ilog (3 : Nat) (isub (10 : Nat) 1) = .ok (depth : Int) ∧
      childrenOf (MPII_Treeutil_tree_knomial_2_init (4 : Nat) (10 : Nat) (3 : Nat) (4 : Nat)
        ⟨0, 0, 0, 0, []⟩)
        = some (lc.map (fun x => (((x + 4) % 10 : Nat) : Int))) ∧
      ∀ x, x ∈ lc ↔ trailingZeroChild 3 10 depth (lrankN 4 10 4) x :=
  knomial_2_children_digits 4 10 3 4 (by decide) (by decide) (by decide) (by decide) (by decide)
    ⟨0, 0, 0, 0, []⟩

/-- C8 as stated fails: with 8 ranks, `k = 2`, root 0, the depth is 4 and the
logical rank 1 has zero digits at positions 2 and 3, so the rule with the
more-significant positions makes 5 (digit 2 set to 1) a child of rank 1; the
builder gives rank 1 no children.  Outside the range of `int` the children are
no digit replacements at all: with 3^19 + 1 ranks, `k = 3`, root 0, the depth is
34 and the first child of rank 0 is `-341741729`. -/
theorem knomial_2_children_leading_zero_fails :
    tree_ilog 2 (isub 8 1) = .ok 4 ∧
      specLeadingZeroChild 2 8 4 (lrankN 1 8 0) 5 ∧
      childrenOf (MPII_Treeutil_tree_knomial_2_init 1 8 2 0 ⟨0, 0, 0, 0, []⟩) = some [] ∧
      tree_ilog 3 (isub 1162261468 1) = .ok 34 ∧
      (∃ l, childrenOf (MPII_Treeutil_tree_knomial_2_init 0 1162261468 3 0 ⟨0, 0, 0, 0, []⟩)
        = some (-341741729 :: l)) := by
  refine ⟨by decide, ⟨2, 1, by decide, by decide, ?_, by decide, by decide, by decide,
    by decide⟩, by decide, by decide, ⟨[-1002668798, -501334399, -603617230, -858020530,
    -1010140999, -942821630, 1094942099, -701694366, -233898122, -347360338, -754810903,
    -772601566, -914348642, -1038305055, -692203370, -346101685, -500128754, -554130074,
    -454104322, -808182895, -808182894, 1162261467, 774840978, 387420489, 258280326, 129140163,
    86093442, 43046721, 28697814, 14348907, 9565938, 4782969, 3188646, 1594323, 1062882, 531441,
    354294, 177147, 118098, 59049, 39366, 19683, 13122, 6561, 4374, 2187, 1458, 729, 486, 243,
    162, 81, 54, 27, 18, 9, 6, 3, 2, 1],
    by decide⟩⟩
  intro j' h1 h2
  have : j' = 3 := by omega
  subst this
  decide

/-! ## k-nomial variant 1: children and parents -/

/-- C9, within the range of `int`: for `nranks ≥ 1`, `k ≥ 2`, `root < nranks`,
`nranks * (k + 1) ≤ INT_MAX` and ranks `p, c < nranks`: the children list variant 1
builds for `p` is the list of its candidate children that are `< nranks`,
rotated; `c` occurs in it if and only if the parent built for `c` is `p`,
exactly once when it occurs, and every entry is a rank in `[0, nranks)`. -/
theorem knomial_1_child_iff_parent (nranks k root p c : Nat) (hn : 1 ≤ nranks) (hk : 2 ≤ k)
    (hroot : root < nranks) (hp : p < nranks) (hc : c < nranks)
    (hb : nranks * (k + 1) ≤ 2147483647) (ct ct' : MPIR_Treealgo_tree_t) :
    ∃ (l : List Int) (q : Int),
      childrenOf (MPII_Treeutil_tree_knomial_1_init p nranks k root ct) = some l ∧
      parentOf (MPII_Treeutil_tree_knomial_1_init c nranks k root ct') = some q ∧
      l = ((((kn1Slots k (kn1LevelN k nranks (lrankN p nranks root))
              (lrankN p nranks root + 1)).map Prod.fst).filter
            (fun x => decide (x < nranks))).map
          (fun x => (((x + root) % nranks : Nat) : Int))) ∧
      ((c : Int) ∈ l ↔ q = (p : Int)) ∧ ((c : Int) ∈ l → l.count (c : Int) = 1) ∧
      ∀ x ∈ l, 0 ≤ x ∧ x < (nranks : Int) := by
  have hnb := bound_le (by omega : 1 ≤ k) hb
  have hcount := child_count_of_logical hroot (kn1ParentN k nranks) (kn1ChildrenN k nranks)
    (fun _ _ h => kn1ChildrenN_lt h) (fun l => kn1ChildrenN_nodup hk nranks l)
    (fun p c hp hc => kn1_child_iff_parent hk hnb hp hc)
    (fun l p hl h => by have := kn1ParentN_lt hk hnb hl h; omega) hp hc
  refine ⟨_, _, knomial_1_childrenOf p nranks k root hn hk hp hroot hb ct,
    knomial_1_parentOf c nranks k root hn hk hc hroot hb ct', rfl, ?_, ?_, ?_⟩
  · rw [← List.count_pos_iff, hcount]
    split <;> simp_all
  · intro hmem
    have hpos := List.count_pos_iff.mpr hmem
    by_cases hq : rotParent nranks root (kn1ParentN k nranks (lrankN c nranks root)) = (p : Int)
    · rw [hcount, if_pos hq]
    · rw [hcount, if_neg hq] at hpos
      omega
  · exact rot_children_range hn _

/-- C9 witness: 10 ranks, `k = 3`, root 4, `p = 5`, `c = 9`. -/
theorem knomial_1_child_iff_parent_witness :
    ∃ (l : List Int) (q : Int),
      childrenOf (MPII_Treeutil_tree_knomial_1_init (5 : Nat) (10 : Nat) (3 : Nat) (4 : Nat)
        ⟨0, 0, 0, 0, []⟩) = some l ∧
      parentOf (MPII_Treeutil_tree_knomial_1_init (9 : Nat) (10 : Nat) (3 : Nat) (4 : Nat)
        ⟨0, 0, 0, 0, []⟩) = some q ∧
      l = ((((kn1Slots 3 (kn1LevelN 3 10 (lrankN 5 10 4))
              (lrankN 5 10 4 + 1)).map Prod.fst).filter
            (fun x => decide (x < 10))).map
          (fun x => (((x + 4) % 10 : Nat) : Int))) ∧
      (((9 : Nat) : Int) ∈ l ↔ q = ((5 : Nat) : Int)) ∧
      (((9 : Nat) : Int) ∈ l → l.count ((9 : Nat) : Int) = 1) ∧
      ∀ x ∈ l, 0 ≤ x ∧ x < ((10 : Nat) : Int) :=
  knomial_1_child_iff_parent 10 3 4 5 9 (by decide) (by decide) (by decide) (by decide)
    (by decide) (by decide) ⟨0, 0, 0, 0, []⟩ ⟨0, 0, 0, 0, []⟩

/-- C9 fails outside the range of `int`: with 3^19 + 1 ranks, `k = 3`, root 0,
the child index of rank 0 passes `INT_MAX` (1 + 2 * 3^19) and wraps to a negative
number, which is `< nranks`: the children list of rank 0 has 39 entries, 38 of
them negative, such as `-808182893`. -/
theorem knomial_1_child_range_overflow :
    ∃ l, childrenOf (MPII_Treeutil_tree_knomial_1_init 0 1162261468 3 0 ⟨0, 0, 0, 0, []⟩)
        = some l ∧ l.length = 39 ∧ (-808182893 : Int) ∈ l ∧
      ¬ ∀ x ∈ l, 0 ≤ x ∧ x < (1162261468 : Int) := by
  refine ⟨[1, -808182893, -420762404, -33341915, -1066463220, -937323057, -894276336,
    -851229615, -836880708, -822531801, -817748832, -812965863, -811371540, -809777217,
    -809245776, -808714335, -808537188, -808360041, -808300992, -808241943, -808222260,
    -808202577, -808196016, -808189455, -808187268, -808185081, -808184352, -808183623,
    -808183380, -808183137, -808183056, -808182975, -808182948, -808182921, -808182912,
    -808182903, -808182900, -808182897, -808182896], by decide, by decide, by decide, ?_⟩
  intro h
  have := h (-808182893) (by decide)
  omega

/-! ## k-nomial trees: height -/

/-- C10, within the range of `int`: for both k-nomial builders, `nranks ≥ 1`,
`k ≥ 2`, `rank, root < nranks` and `nranks * (k + 1) ≤ INT_MAX`, following the
computed parents from `rank` reaches `root` after at most `⌈log_k nranks⌉`
steps, and the root itself has no parent: the chain of parents of every rank
ends at the root. -/
theorem knomial_height (rank nranks k root : Nat) (hn : 1 ≤ nranks) (hk : 2 ≤ k)
    (hrank : rank < nranks) (hroot : root < nranks) (hb : nranks * (k + 1) ≤ 2147483647)
    (ct : MPIR_Treealgo_tree_t) :
    (ReachesRoot MPII_Treeutil_tree_knomial_1_init rank nranks k root (Nat.clog k nranks) ct ∧
      parentOf (MPII_Treeutil_tree_knomial_1_init root nranks k root ct) = some (-1)) ∧
    (ReachesRoot MPII_Treeutil_tree_knomial_2_init rank nranks k root (Nat.clog k nranks) ct ∧
      parentOf (MPII_Treeutil_tree_knomial_2_init root nranks k root ct) = some (-1)) := by
  have hnb := bound_le (by omega : 1 ≤ k) hb
  have hl : lrankN rank nranks root < nranks := lrankN_lt hn
  have hclog : nranks ≤ k ^ Nat.clog k nranks := Nat.le_pow_clog (by omega) nranks
  have hl0 : lrankN root nranks root = 0 := (lrankN_zero_iff hroot hroot).mpr rfl
  refine ⟨⟨?_, ?_⟩, ⟨?_, ?_⟩⟩
  · apply reachesRoot_of_logical _ (kn1ParentN k nranks) ct hrank hroot
    · intro r hr
      exact knomial_1_parentOf r nranks k root hn hk hr hroot hb ct
    · intro l p hl h
      have := kn1ParentN_lt hk hnb hl h
      omega
    · obtain ⟨m, hm, hcl⟩ := kn1_lclimb hk hnb (maxstepN k nranks) _ hl (by omega)
      exact ⟨m, le_trans hm (maxstepN_le_clog hk hn hnb), hcl⟩
  · rw [knomial_1_parentOf root nranks k root hn hk hroot hroot hb ct, hl0, kn1ParentN_zero]
    rfl
  · apply reachesRoot_of_logical _ (kn2ParentN k nranks) ct hrank hroot
    · intro r hr
      exact knomial_2_parentOf r nranks k root hn hk hr hroot hb ct
    · intro l p hl h
      have := kn2ParentN_lt hk hnb hl h
      omega
    · exact kn2_lclimb (D := Nat.clog k nranks) hk hnb (Nat.clog k nranks) 0 _ (by omega) hl
        (by omega) (by simp)
  · rw [knomial_2_parentOf root nranks k root hn hk hroot hroot hb ct, hl0, kn2ParentN_zero]
    rfl

/-- C10 witness: rank 2 of 10, `k = 3`, root 4. -/
theorem knomial_height_witness :
    (ReachesRoot MPII_Treeutil_tree_knomial_1_init 2 10 3 4 (Nat.clog 3 10) ⟨0, 0, 0, 0, []⟩ ∧
      parentOf (MPII_Treeutil_tree_knomial_1_init (4 : Nat) (10 : Nat) (3 : Nat) (4 : Nat)
        ⟨0, 0, 0, 0, []⟩) = some (-1)) ∧
    (ReachesRoot MPII_Treeutil_tree_knomial_2_init 2 10 3 4 (Nat.clog 3 10) ⟨0, 0, 0, 0, []⟩ ∧
      parentOf (MPII_Treeutil_tree_knomial_2_init (4 : Nat) (10 : Nat) (3 : Nat) (4 : Nat)
        ⟨0, 0, 0, 0, []⟩) = some (-1)) :=
  knomial_height 2 10 3 4 (by decide) (by decide) (by decide) (by decide) (by decide)
    ⟨0, 0, 0, 0, []⟩

theorem clog_three_pow19_succ : Nat.clog 3 1162261468 = 20 := by
  have h1 : Nat.clog 3 1162261468 ≤ 20 :=
    (Nat.le_pow_iff_clog_le (by decide)).mp (by decide)
  have h2 : ¬ Nat.clog 3 1162261468 ≤ 19 := fun h =>
    absurd ((Nat.le_pow_iff_clog_le (by decide)).mpr h) (by decide)
  omega

/-- C10 fails outside the range of `int`: with 3^19 + 1 ranks, `k = 3`, root 0,
variant 2 gives the non-root last rank 3^19 the parent `-1`, so the parents
computed from it never reach the root. -/
theorem knomial_height_overflow :
    parentOf (MPII_Treeutil_tree_knomial_2_init 1162261467 1162261468 3 0 ⟨0, 0, 0, 0, []⟩)
        = some (-1) ∧
      ¬ ReachesRoot MPII_Treeutil_tree_knomial_2_init 1162261467 1162261468 3 0
        (Nat.clog 3 1162261468) ⟨0, 0, 0, 0, []⟩ := by
  have h : ∀ m, m ≤ 20 →
      climb MPII_Treeutil_tree_knomial_2_init 1162261468 3 0 ⟨0, 0, 0, 0, []⟩ m 1162261467
        ≠ some 0 := by decide
  refine ⟨by decide, ?_⟩
  rintro ⟨m, hm, hcl⟩
  rw [clog_three_pow19_succ] at hm
  exact h m hm hcl

/-! ## Fan-out on logical ranks -/

theorem karyChildrenN_length (n k l : Nat) : (karyChildrenN n k l).length ≤ k := by
  unfold karyChildrenN karyChildrenFrom
  rw [List.length_map]
  refine le_trans (List.length_filter_le _ _) ?_
  rw [List.length_range']
  omega

theorem kn1Slots_length (k : Nat) : ∀ (m crank : Nat), (kn1Slots k m crank).length = m * (k - 1) := by
  intro m
  induction m with
  | zero => intro crank; simp [kn1Slots]
  | succ m ih =>
    intro crank
    rw [kn1Slots, List.length_append, List.length_map, kn1Block_length, ih, Nat.succ_mul]
    omega

theorem kn1ChildrenN_length {k n : Nat} (hk : 2 ≤ k) (hn : 1 ≤ n) (hb : n ≤ 2147483647)
    (t : Nat) : (kn1ChildrenN k n t).length ≤ (k - 1) * Nat.clog k n := by
  unfold kn1ChildrenN
  refine le_trans (List.length_filter_le _ _) ?_
  rw [List.length_map, kn1Slots_length, Nat.mul_comm]
  exact Nat.mul_le_mul_left _ (le_trans (kn1LevelN_le k n t) (maxstepN_le_clog hk hn hb))

theorem setdigitN_ge (k l j v : Nat) : v * k ^ j ≤ setdigitN k l j v := by
  unfold setdigitN
  omega

theorem kn2DigitChildren_high {k n l j i : Nat} (h : n ≤ k ^ j) :
    kn2DigitChildren k n l j i = [] := by
  rw [List.eq_nil_iff_forall_not_mem]
  intro x hx
  obtain ⟨v, h1, _, h3, h4⟩ := mem_kn2DigitChildren.mp hx
  have h5 := setdigitN_ge k l j v
  have h6 : 1 * k ^ j ≤ v * k ^ j := Nat.mul_le_mul_right _ h1
  omega

theorem kn2ChildrenUpto_length {k n l t : Nat} (hk : 2 ≤ k) {C : Nat} (hC : n ≤ k ^ C) :
    ∀ m : Nat, (kn2ChildrenUpto k n l t m).length ≤ (k - 1) * min m C := by
  intro m
  induction m with
  | zero => simp [kn2ChildrenUpto_zero]
  | succ m ih =>
    by_cases hmt : m < t
    · rw [kn2ChildrenUpto_succ_lt hmt, List.length_append]
      by_cases hmC : m < C
      · have h1 := kn2DigitChildren_length k n l m (k - 1)
        have e1 : min (m + 1) C = m + 1 := by omega
        have e2 : min m C = m := by omega
        rw [e1, Nat.mul_succ]
        rw [e2] at ih
        omega
      · have h1 : n ≤ k ^ m :=
          le_trans hC (Nat.pow_le_pow_right (by omega) (by omega))
        rw [kn2DigitChildren_high h1]
        have e1 : min (m + 1) C = C := by omega
        have e2 : min m C = C := by omega
        rw [e1]
        rw [e2] at ih
        simpa using ih
    · rw [kn2ChildrenUpto_succ_ge (by omega)]
      refine le_trans ih (Nat.mul_le_mul_left _ ?_)
      omega

theorem kn2ChildrenN_length {k n : Nat} (hk : 2 ≤ k) (l : Nat) :
    (kn2ChildrenN k n l).length ≤ (k - 1) * Nat.clog k n := by
  unfold kn2ChildrenN
  refine le_trans (kn2ChildrenUpto_length hk (Nat.le_pow_clog (by omega) n) _) ?_
  exact Nat.mul_le_mul_left _ (Nat.min_le_right _ _)

/-! ## The depth `tree_ilog` returns -/

theorem ilogN_least (k n : Nat) :
    ∀ (fuel i p j : Nat), i ≤ j → j < ilogN k n fuel i p → p * k ^ (j - i) < n := by
  intro fuel
  induction fuel with
  | zero =>
    intro i p j h1 h2
    simp only [ilogN] at h2
    omega
  | succ fuel ih =>
    intro i p j h1 h2
    unfold ilogN at h2
    by_cases hp : p < n
    · rw [if_pos hp] at h2
      by_cases hj : j = i
      · subst hj
        simpa using hp
      · have := ih (i + 1) (p * k) j (by omega) h2
        have e : j - i = (j - (i + 1)) + 1 := by omega
        rw [e, pow_succ]
        calc p * (k ^ (j - (i + 1)) * k) = p * k * k ^ (j - (i + 1)) := by ring
          _ < n := this
    · rw [if_neg hp] at h2
      omega

theorem depthN_least (k n : Nat) {i : Nat} (h1 : 1 ≤ i) (h2 : i < depthN k n) :
    (k - 1) * k ^ (i - 1) < n :=
  ilogN_least k n 63 1 (k - 1) i h1 h2

theorem depthN_log {k n : Nat} (hk : 2 ≤ k) (hn : 2 ≤ n) (hb : n ≤ 2147483647) :
    Nat.log k (n - 1) + 1 ≤ depthN k n ∧ depthN k n ≤ Nat.log k (n - 1) + 2 ∧
      (depthN k n = Nat.log k (n - 1) + 1 ↔ n ≤ (k - 1) * k ^ Nat.log k (n - 1)) := by
  obtain ⟨hd1, _, hd3, _⟩ := depthN_spec (k := k) (n := n) hk (by omega) hb
  have hlo : k ^ Nat.log k (n - 1) ≤ n - 1 := Nat.pow_log_le_self k (by omega)
  have hhi : n - 1 < k ^ (Nat.log k (n - 1) + 1) := Nat.lt_pow_succ_log_self (by omega) _
  have hA : Nat.log k (n - 1) + 1 ≤ depthN k n := by
    by_contra hcon
    have h1 : k ^ (depthN k n - 1 + 1) ≤ k ^ Nat.log k (n - 1) :=
      Nat.pow_le_pow_right (by omega) (by omega)
    have h2 : (k - 1) * k ^ (depthN k n - 1) ≤ k * k ^ (depthN k n - 1) :=
      Nat.mul_le_mul_right _ (by omega)
    rw [pow_succ] at h1
    have h3 : k * k ^ (depthN k n - 1) = k ^ (depthN k n - 1) * k := Nat.mul_comm _ _
    omega
  have hB : depthN k n ≤ Nat.log k (n - 1) + 2 := by
    by_contra hcon
    have := depthN_least k n (i := Nat.log k (n - 1) + 2) (by omega) (by omega)
    have e : Nat.log k (n - 1) + 2 - 1 = Nat.log k (n - 1) + 1 := by omega
    rw [e] at this
    have h2 : 1 * k ^ (Nat.log k (n - 1) + 1) ≤ (k - 1) * k ^ (Nat.log k (n - 1) + 1) :=
      Nat.mul_le_mul_right _ (by omega)
    omega
  refine ⟨hA, hB, ?_, ?_⟩
  · intro h
    rw [h] at hd3
    simpa using hd3
  · intro h
    by_contra hcon
    have := depthN_least k n (i := Nat.log k (n - 1) + 1) (by omega) (by omega)
    simp only [Nat.add_sub_cancel] at this
    omega

/-! ## A single rank -/

theorem lrank_one : imod (iadd 0 (isub 1 0)) 1 = 0 := by decide

theorem kary_init_one {k : Nat} (hk : 1 ≤ k) (ct : MPIR_Treealgo_tree_t) :
    MPII_Treeutil_tree_kary_init 0 1 k 0 ct = .ok (MPI_SUCCESS, ⟨0, 1, -1, 0, []⟩) := by
  unfold MPII_Treeutil_tree_kary_init
  have hk0 : ¬ ((k : Int) = 0) := by omega
  have h1 : (1 : Int) ≤ (k : Int) := by omega
  have h2 : iadd (imul 0 (k : Int)) 1 = 1 := by
    unfold imul
    rw [Int.zero_mul]
    decide
  simp only [lrank_one, Int.toNat_natCast]
  unfold kary_child_loop
  rw [if_pos h1, h2]
  simp

theorem knomial_1_init_one {k : Nat} (hk : 2 ≤ k) (ct : MPIR_Treealgo_tree_t) :
    MPII_Treeutil_tree_knomial_1_init 0 1 k 0 ct = .ok (MPI_SUCCESS, ⟨0, 1, -1, 0, []⟩) := by
  unfold MPII_Treeutil_tree_knomial_1_init
  have h1 : ((k : Int) ≥ 2) := by omega
  have h2 : isub 1 1 = 0 := by decide
  have h3 : iadd 0 1 = 1 := by decide
  have h4 : isub 0 0 = 0 := by decide
  simp only [lrank_one, h2, h3]
  simp [h1, knomial_1_maxstep_loop, knomial_1_descent_loop, knomial_1_child_outer, h4]

theorem setdigit_zero_zero {k i : Nat} (hi : i ≤ 2147483647) :
    MPL_setdigit k 0 0 i = (i : Int) := by
  have h := @setdigit_cast k 0 0 i (by simp) (by simpa using hi) (by simpa using hi)
  simp only [Nat.cast_zero] at h
  rw [h]
  simp [setdigitN, digitN]

theorem knomial_2_digit_loop_one {k : Nat} (ct : MPIR_Treealgo_tree_t) :
    ∀ (fuel i : Nat), i + 1 ≤ fuel → i ≤ 2147483647 →
      knomial_2_digit_loop 0 1 k 0 0 fuel i ct = .ok ct := by
  intro fuel
  induction fuel with
  | zero => intro i h; omega
  | succ fuel ih =>
    intro i h1 h2
    unfold knomial_2_digit_loop
    by_cases hi : 1 ≤ i
    · have hge : ((i : Int) ≥ 1) := by omega
      have hnlt : ¬ ((i : Int) < 1) := by omega
      rw [if_pos hge]
      simp only [setdigit_zero_zero h2, if_neg hnlt]
      rw [isub_one_cast hi (by omega)]
      exact ih (i - 1) (by omega) (by omega)
    · have hge : ¬ ((i : Int) ≥ 1) := by omega
      rw [if_neg hge]

theorem tree_ilog_zero {k : Nat} (hk : 2 ≤ k) (hmax : k ≤ 2147483647) :
    tree_ilog k 0 = .ok 1 := by
  unfold tree_ilog tree_ilog_loop
  rw [isub_one_cast (by omega) hmax, isub_one_cast (by omega) (by omega)]
  have : ¬ (((k - 1 - 1 : Nat) : Int) < 0) := by omega
  rw [if_neg this]

theorem knomial_2_init_one {k : Nat} (hk : 2 ≤ k) (hmax : k ≤ 2147483647)
    (ct : MPIR_Treealgo_tree_t) :
    MPII_Treeutil_tree_knomial_2_init 0 1 k 0 ct = .ok (MPI_SUCCESS, ⟨0, 1, -1, 0, []⟩) := by
  unfold MPII_Treeutil_tree_knomial_2_init
  have h1 : ((k : Int) ≥ 2) := by omega
  have h2 : isub 1 1 = 0 := by decide
  have h3 : iadd 0 1 = 1 := by decide
  have h4 : isub 0 1 = -1 := by decide
  have h5 : MPL_getdigit (k : Int) 0 0 = 0 := by
    have := @getdigit_cast k 0 0 (by omega) (by simp)
    simp only [Nat.cast_zero] at this
    rw [this]
    simp [digitN]
  have h6 : knomial_2_digit_loop 0 1 k 0 0 k (isub (k : Int) 1) ⟨0, 1, -1, 0, []⟩
      = .ok ⟨0, 1, -1, 0, []⟩ := by
    rw [isub_one_cast (by omega) hmax]
    exact knomial_2_digit_loop_one _ k (k - 1) (by omega) (by omega)
  simp only [lrank_one, h2, tree_ilog_zero hk hmax]
  simp [h1, knomial_2_flip_loop, knomial_2_child_loop, h2, h3, h4, h5, h6]

theorem clog_two_pow30_succ : Nat.clog 2 1073741825 = 31 := by
  have h1 : Nat.clog 2 1073741825 ≤ 31 :=
    (Nat.le_pow_iff_clog_le (by decide)).mp (by decide)
  have h2 : ¬ Nat.clog 2 1073741825 ≤ 30 := fun h =>
    absurd ((Nat.le_pow_iff_clog_le (by decide)).mpr h) (by decide)
  omega

/-- C11 as the code has it, within the range of `int`: for `nranks ≥ 1`,
`k ≥ 2`, `rank, root < nranks` and `nranks * (k + 1) ≤ INT_MAX`, each builder
returns `MPI_SUCCESS` with `num_children` equal to the number of children it
wrote; that number is at most `k` for the k-ary builder and at most
`(k - 1) * ⌈log_k nranks⌉` for the two k-nomial builders. -/
theorem fanout_bound (rank nranks k root : Nat) (hn : 1 ≤ nranks) (hk : 2 ≤ k)
    (hrank : rank < nranks) (hroot : root < nranks) (hb : nranks * (k + 1) ≤ 2147483647)
    (ct : MPIR_Treealgo_tree_t) :
    (∃ t, MPII_Treeutil_tree_kary_init rank nranks k root ct = .ok (MPI_SUCCESS, t) ∧
      t.num_children = (t.children.length : Int) ∧ t.num_children ≤ (k : Int)) ∧
    (∃ t, MPII_Treeutil_tree_knomial_1_init rank nranks k root ct = .ok (MPI_SUCCESS, t) ∧
      t.num_children = (t.children.length : Int) ∧
      t.num_children ≤ (((k - 1) * Nat.clog k nranks : Nat) : Int)) ∧
    (∃ t, MPII_Treeutil_tree_knomial_2_init rank nranks k root ct = .ok (MPI_SUCCESS, t) ∧
      t.num_children = (t.children.length : Int) ∧
      t.num_children ≤ (((k - 1) * Nat.clog k nranks : Nat) : Int)) := by
  have hN := bound_le (show 1 ≤ k by omega) hb
  refine ⟨⟨_, kary_init_eq rank nranks k root hn (by omega) hrank hroot hb ct, ?_, ?_⟩,
    ⟨_, knomial_1_init_eq rank nranks k root hn hk hrank hroot hb ct, ?_, ?_⟩,
    ⟨_, knomial_2_init_eq rank nranks k root hn hk hrank hroot hb ct, ?_, ?_⟩⟩
  · simp [treeOf]
  · simp only [treeOf, List.length_map]
    exact_mod_cast karyChildrenN_length nranks k _
  · simp [treeOf]
  · simp only [treeOf, List.length_map]
    exact_mod_cast kn1ChildrenN_length hk hn hN _
  · simp [treeOf]
  · simp only [treeOf, List.length_map]
    exact_mod_cast kn2ChildrenN_length hk _

/-- C11 (amended) at a concrete input: rank 0 of 8 ranks, `k = 2`, root 0. -/
theorem fanout_bound_witness :
    (∃ t, MPII_Treeutil_tree_kary_init (0 : Nat) (8 : Nat) (2 : Nat) (0 : Nat) ⟨0, 0, 0, 0, []⟩
        = .ok (MPI_SUCCESS, t) ∧
      t.num_children = (t.children.length : Int) ∧ t.num_children ≤ ((2 : Nat) : Int)) ∧
    (∃ t, MPII_Treeutil_tree_knomial_1_init (0 : Nat) (8 : Nat) (2 : Nat) (0 : Nat)
        ⟨0, 0, 0, 0, []⟩ = .ok (MPI_SUCCESS, t) ∧
      t.num_children = (t.children.length : Int) ∧
      t.num_children ≤ (((2 - 1) * Nat.clog 2 8 : Nat) : Int)) ∧
    (∃ t, MPII_Treeutil_tree_knomial_2_init (0 : Nat) (8 : Nat) (2 : Nat) (0 : Nat)
        ⟨0, 0, 0, 0, []⟩ = .ok (MPI_SUCCESS, t) ∧
      t.num_children = (t.children.length : Int) ∧
      t.num_children ≤ (((2 - 1) * Nat.clog 2 8 : Nat) : Int)) :=
  fanout_bound 0 8 2 0 (by decide) (by decide) (by decide) (by decide) (by decide)
    ⟨0, 0, 0, 0, []⟩

/-- C11 fails as stated: at rank 0 of 8 ranks with `k = 2` and root 0, both
k-nomial builders produce 3 children, more than `k`.  Outside the range of
`int` the logarithmic bound fails as well: at rank 0 of `3^19 + 1` ranks with
`k = 3`, variant 2 writes 61 children, more than `(k - 1) * ⌈log_3 nranks⌉ = 40`. -/
theorem fanout_exceeds_k :
    MPII_Treeutil_tree_knomial_1_init 0 8 2 0 ⟨0, 0, 0, 0, []⟩
        = .ok (MPI_SUCCESS, ⟨0, 8, -1, 3, [1, 5, 7]⟩) ∧
    MPII_Treeutil_tree_knomial_2_init 0 8 2 0 ⟨0, 0, 0, 0, []⟩
        = .ok (MPI_SUCCESS, ⟨0, 8, -1, 3, [4, 2, 1]⟩) ∧
    ¬ ((3 : Int) ≤ 2) ∧
    (childrenOf (MPII_Treeutil_tree_knomial_2_init 0 1162261468 3 0 ⟨0, 0, 0, 0, []⟩)).map
        List.length = some 61 ∧
    (3 - 1) * Nat.clog 3 1162261468 = 40 := by
  refine ⟨by decide, by decide, by decide, by decide, ?_⟩
  rw [clog_three_pow19_succ]

/-- C12 on the code: with `nranks = 0` the k-ary builder and variant 2 return
`MPI_SUCCESS` with `parent = -1` and `num_children = 0` for every rank, `k`,
root and prior content of the record, but variant 1 returns before it resets
`num_children`: called on a record that held `num_children = 5` and the
children `[7]`, it returns `MPI_SUCCESS` and leaves both in place. -/
theorem nranks_zero_record :
    (∀ (rank k root : Int) (ct : MPIR_Treealgo_tree_t),
      MPII_Treeutil_tree_kary_init rank 0 k root ct
        = .ok (MPI_SUCCESS, ⟨rank, 0, -1, 0, []⟩)) ∧
    (∀ (rank k root : Int) (ct : MPIR_Treealgo_tree_t),
      MPII_Treeutil_tree_knomial_2_init rank 0 k root ct
        = .ok (MPI_SUCCESS, ⟨rank, 0, -1, 0, ct.children⟩)) ∧
    (∀ (rank k root : Int) (ct : MPIR_Treealgo_tree_t),
      MPII_Treeutil_tree_knomial_1_init rank 0 k root ct
        = .ok (MPI_SUCCESS, ⟨rank, 0, -1, ct.num_children, ct.children⟩)) ∧
    MPII_Treeutil_tree_knomial_1_init 0 0 2 0 ⟨9, 9, 9, 5, [7]⟩
        = .ok (MPI_SUCCESS, ⟨0, 0, -1, 5, [7]⟩) := by
  refine ⟨?_, ?_, ?_, by decide⟩
  · intro rank k root ct
    simp [MPII_Treeutil_tree_kary_init]
  · intro rank k root ct
    simp [MPII_Treeutil_tree_knomial_2_init]
  · intro rank k root ct
    simp [MPII_Treeutil_tree_knomial_1_init]

/-- C13: with `nranks = 1`, `rank = 0` and `root = 0` every builder returns
`MPI_SUCCESS` without a failed assertion and leaves `parent = -1`, no children
and `num_children = 0`, whatever the record held before: the k-ary builder for
every `k` from 1 to `INT_MAX`, the k-nomial builders for every `k` from 2 to
`INT_MAX`. -/
theorem single_rank (k : Nat) (hk : 1 ≤ k) (hmax : k ≤ 2147483647)
    (ct : MPIR_Treealgo_tree_t) :
    MPII_Treeutil_tree_kary_init 0 1 k 0 ct = .ok (MPI_SUCCESS, ⟨0, 1, -1, 0, []⟩) ∧
    (2 ≤ k →
      MPII_Treeutil_tree_knomial_1_init 0 1 k 0 ct = .ok (MPI_SUCCESS, ⟨0, 1, -1, 0, []⟩) ∧
      MPII_Treeutil_tree_knomial_2_init 0 1 k 0 ct = .ok (MPI_SUCCESS, ⟨0, 1, -1, 0, []⟩)) :=
  ⟨kary_init_one hk ct, fun h2 => ⟨knomial_1_init_one h2 ct, knomial_2_init_one h2 hmax ct⟩⟩

/-- C13 at a concrete input: `k = 3`, on a record that held other values. -/
theorem single_rank_witness :
    MPII_Treeutil_tree_kary_init 0 1 (3 : Nat) 0 ⟨9, 9, 9, 5, [7]⟩
        = .ok (MPI_SUCCESS, ⟨0, 1, -1, 0, []⟩) ∧
    ((2 : Nat) ≤ 3 →
      MPII_Treeutil_tree_knomial_1_init 0 1 (3 : Nat) 0 ⟨9, 9, 9, 5, [7]⟩
        = .ok (MPI_SUCCESS, ⟨0, 1, -1, 0, []⟩) ∧
      MPII_Treeutil_tree_knomial_2_init 0 1 (3 : Nat) 0 ⟨9, 9, 9, 5, [7]⟩
        = .ok (MPI_SUCCESS, ⟨0, 1, -1, 0, []⟩)) :=
  single_rank 3 (by decide) (by decide) ⟨9, 9, 9, 5, [7]⟩

/-- C14 as the code has it: for every rank, every root, every `nranks ≥ 1` and
every `k < 2`, both k-nomial builders fail the assertion `k >= 2`; they return
no topology. -/
theorem knomial_small_k_aborts (rank nranks k root : Int) (hn : 1 ≤ nranks) (hk : k < 2)
    (ct : MPIR_Treealgo_tree_t) :
    MPII_Treeutil_tree_knomial_1_init rank nranks k root ct = .error .assertion ∧
    MPII_Treeutil_tree_knomial_2_init rank nranks k root ct = .error .assertion := by
  have h1 : nranks ≥ 0 := by omega
  have h2 : ¬ (nranks = 0) := by omega
  have h3 : ¬ (nranks ≤ 0) := by omega
  have h4 : ¬ (k ≥ 2) := by omega
  constructor
  · unfold MPII_Treeutil_tree_knomial_1_init
    simp only [h1, h2, h4, not_true_eq_false, not_false_eq_true, if_true, if_false]
  · unfold MPII_Treeutil_tree_knomial_2_init
    simp only [h1, h3, h4, not_true_eq_false, not_false_eq_true, if_true, if_false]

/-- C14 (amended) at a concrete input: rank 0 of 4 ranks, `k = 1`, root 0. -/
theorem knomial_small_k_aborts_witness :
    MPII_Treeutil_tree_knomial_1_init 0 4 1 0 ⟨0, 0, 0, 0, []⟩ = .error .assertion ∧
    MPII_Treeutil_tree_knomial_2_init 0 4 1 0 ⟨0, 0, 0, 0, []⟩ = .error .assertion :=
  knomial_small_k_aborts 0 4 1 0 (by decide) (by decide) ⟨0, 0, 0, 0, []⟩

/-- C14 fails as stated at `nranks = 0`: called with `k = 1`, both k-nomial
builders return `MPI_SUCCESS` with a record, because the return for an empty
group comes before the assertion `k >= 2`. -/
theorem knomial_small_k_zero_ranks_returns :
    MPII_Treeutil_tree_knomial_1_init 0 0 1 0 ⟨0, 0, 0, 0, []⟩
        = .ok (MPI_SUCCESS, ⟨0, 0, -1, 0, []⟩) ∧
    MPII_Treeutil_tree_knomial_2_init 0 0 1 0 ⟨0, 0, 0, 0, []⟩
        = .ok (MPI_SUCCESS, ⟨0, 0, -1, 0, []⟩) := by
  decide

/-- C20 as the code has it, within the range of `int`: for `k ≥ 2` and
`nranks ≥ 2` with `nranks * k ≤ INT_MAX`, `tree_ilog(k, nranks - 1)` returns the
least `d ≥ 1` with `nranks ≤ (k - 1) * k^(d - 1)`.  With
`L = ⌊log_k (nranks - 1)⌋` it is `L + 1` or `L + 2`, and it is `L + 1` exactly
when `nranks ≤ (k - 1) * k^L`. -/
theorem tree_ilog_depth (k nranks : Nat) (hk : 2 ≤ k) (hn : 2 ≤ nranks)
    (hb : nranks * k ≤ 2147483647) :
    ∃ d : Nat, tree_ilog k (isub nranks 1) = .ok (d : Int) ∧ 1 ≤ d ∧
      nranks ≤ (k - 1) * k ^ (d - 1) ∧
      (∀ i, 1 ≤ i → i < d → (k - 1) * k ^ (i - 1) < nranks) ∧
      Nat.log k (nranks - 1) + 1 ≤ d ∧ d ≤ Nat.log k (nranks - 1) + 2 ∧
      (d = Nat.log k (nranks - 1) + 1 ↔ nranks ≤ (k - 1) * k ^ Nat.log k (nranks - 1)) := by
  have hN : nranks ≤ 2147483647 := by
    have : nranks * 1 ≤ nranks * k := Nat.mul_le_mul_left _ (by omega)
    omega
  obtain ⟨hd1, _, hd3, _⟩ := depthN_spec (k := k) (n := nranks) hk (by omega) hN
  obtain ⟨hl1, hl2, hl3⟩ := depthN_log hk hn hN
  exact ⟨depthN k nranks, tree_ilog_eq hk (by omega) hb, hd1, hd3,
    fun i h1 h2 => depthN_least k nranks h1 h2, hl1, hl2, hl3⟩

/-- C20 (amended) at a concrete input: `k = 3`, 10 ranks. -/
theorem tree_ilog_depth_witness :
    ∃ d : Nat, tree_ilog (3 : Nat) (isub (10 : Nat) 1) = .ok (d : Int) ∧ 1 ≤ d ∧
      10 ≤ (3 - 1) * 3 ^ (d - 1) ∧
      (∀ i, 1 ≤ i → i < d → (3 - 1) * 3 ^ (i - 1) < 10) ∧
      Nat.log 3 (10 - 1) + 1 ≤ d ∧ d ≤ Nat.log 3 (10 - 1) + 2 ∧
      (d = Nat.log 3 (10 - 1) + 1 ↔ 10 ≤ (3 - 1) * 3 ^ Nat.log 3 (10 - 1)) :=
  tree_ilog_depth 3 10 (by decide) (by decide) (by decide)

/-- C20 fails as stated: for `k = 2` and 2 ranks `tree_ilog(2, 1)` returns 2,
while `⌊log_2 1⌋ + 1 = 1`.  Outside the range of `int` the value is further
off: for `k = 3` and `3^19 + 1` ranks it returns 34, while
`⌊log_3 3^19⌋ + 1 = 20`. -/
theorem tree_ilog_not_digit_count :
    tree_ilog 2 (isub 2 1) = .ok 2 ∧ Nat.log 2 (2 - 1) + 1 = 1 ∧
    tree_ilog 3 (isub 1162261468 1) = .ok 34 ∧ Nat.log 3 (1162261468 - 1) + 1 = 20 := by
  refine ⟨by decide, by simp, by decide, ?_⟩
  have h : Nat.log 3 1162261467 = 19 := by
    rw [Nat.log_eq_iff (by decide)]
    decide
  have e : 1162261468 - 1 = 1162261467 := by norm_num
  rw [e, h]

/-! ## The step bound of variant 1 -/

theorem maxstepN_eq_clog {k n : Nat} (hk : 2 ≤ k) (hn : 1 ≤ n) (hb : n ≤ 2147483647) :
    maxstepN k n = Nat.clog k n := by
  obtain ⟨h1, _, _⟩ := maxstepN_spec hk hn hb
  have h2 : Nat.clog k n ≤ maxstepN k n := (Nat.le_pow_iff_clog_le (by omega)).mp h1
  have h3 := maxstepN_le_clog hk hn hb
  omega

/-! ## The descent of variant 1 from the root -/

theorem knomial_1_descent_from_root {rank nranks k root : Nat} (hn : 1 ≤ nranks) (hk : 2 ≤ k)
    (hr : rank < nranks) (hroot : root < nranks) (hb : nranks * (k + 1) ≤ 2147483647) :
    knomial_1_descent_loop (imod (iadd (rank : Int) (isub (nranks : Int) (root : Int)))
        (nranks : Int)) nranks k ((maxstepN k nranks : Nat) : Int) ((nranks : Int).toNat + 2) 0
        { parent := -1, current_rank := 0, running_rank := iadd 0 1 }
      = .ok (((maxstepN k nranks - kn1LevelN k nranks (lrankN rank nranks root) : Nat) : Int),
          toDescent (kn1Final k nranks (lrankN rank nranks root)).2) := by
  have hnk : nranks * k + nranks ≤ 2147483647 := by rw [← Nat.mul_succ]; exact hb
  have hkn : nranks ≤ nranks * k := Nat.le_mul_of_pos_right _ (by omega)
  have hl := @lrankN_lt rank nranks root hn
  have hDn : maxstepN k nranks ≤ nranks := maxstepN_le hk hn (by omega)
  have hvalid := kn1Valid_root hk (show nranks ≤ 2147483647 by omega) hl
  rw [lrank_cast hr hroot (by omega)]
  have e0 : ({ parent := -1, current_rank := 0, running_rank := iadd 0 1 } : Descent)
      = toDescent (none, 0, 1) := by
    simp only [toDescent, parI, Nat.cast_zero, Nat.cast_one]
    congr 1
  have hdesc := knomial_1_descent_loop_eq hk hl rfl hb (nranks + 2) (maxstepN k nranks)
    (none, 0, 1) (le_refl _) (by omega) hvalid
  simp only [Nat.sub_self, Nat.cast_zero] at hdesc
  rw [e0, Int.toNat_natCast, hdesc]
  rfl

/-- C21: for every `k ≥ 2` and every `nranks` from 1 to `INT_MAX`, the loop
`for (tmp = nranks - 1; tmp; tmp /= k) maxstep++` of variant 1 returns
`⌈log_k nranks⌉`, the least `D ≥ 0` with `k^D ≥ nranks`. -/
theorem maxstep_is_clog (k nranks : Nat) (hk : 2 ≤ k) (hn : 1 ≤ nranks)
    (hmax : nranks ≤ 2147483647) :
    knomial_1_maxstep_loop k 64 (isub nranks 1) 0 = .ok ((Nat.clog k nranks : Nat) : Int) ∧
    nranks ≤ k ^ Nat.clog k nranks ∧
    ∀ D, nranks ≤ k ^ D → Nat.clog k nranks ≤ D := by
  refine ⟨?_, Nat.le_pow_clog (by omega) nranks, fun D h =>
    (Nat.le_pow_iff_clog_le (by omega)).mp h⟩
  rw [knomial_1_maxstep_eq hk hn hmax, maxstepN_eq_clog hk hn hmax]

/-- C21 at a concrete input: `k = 3`, 10 ranks. -/
theorem maxstep_is_clog_witness :
    knomial_1_maxstep_loop (3 : Nat) 64 (isub (10 : Nat) 1) 0
        = .ok ((Nat.clog 3 10 : Nat) : Int) ∧
    10 ≤ 3 ^ Nat.clog 3 10 ∧
    ∀ D, 10 ≤ 3 ^ D → Nat.clog 3 10 ≤ D :=
  maxstep_is_clog 3 10 (by decide) (by decide) (by decide)

/-- C22 as the code has it, within the range of `int`: for `nranks ≥ 1`,
`k ≥ 2`, `rank, root < nranks` and `nranks * (k + 1) ≤ INT_MAX`, the loop
`for (step = 0;; step++)` of variant 1 returns, with `step ≤ maxstep ≤ nranks`:
the assertion `step <= nranks` holds at every step and no power is taken with a
negative exponent (either would end the loop with a fault), and the builder
returns `MPI_SUCCESS`. -/
theorem descent_terminates (rank nranks k root : Nat) (hn : 1 ≤ nranks) (hk : 2 ≤ k)
    (hrank : rank < nranks) (hroot : root < nranks) (hb : nranks * (k + 1) ≤ 2147483647)
    (ct : MPIR_Treealgo_tree_t) :
    ∃ (maxstep step : Nat) (d : Descent),
      knomial_1_maxstep_loop k 64 (isub nranks 1) 0 = .ok (maxstep : Int) ∧
      knomial_1_descent_loop (imod (iadd (rank : Int) (isub (nranks : Int) (root : Int)))
          (nranks : Int)) nranks k maxstep ((nranks : Int).toNat + 2) 0
          { parent := -1, current_rank := 0, running_rank := iadd 0 1 }
        = .ok ((step : Int), d) ∧
      step ≤ maxstep ∧ maxstep ≤ nranks ∧
      ∃ t, MPII_Treeutil_tree_knomial_1_init rank nranks k root ct = .ok (MPI_SUCCESS, t) := by
  have hN := bound_le (show 1 ≤ k by omega) hb
  exact ⟨maxstepN k nranks, maxstepN k nranks - kn1LevelN k nranks (lrankN rank nranks root), _,
    knomial_1_maxstep_eq hk hn hN, knomial_1_descent_from_root hn hk hrank hroot hb,
    Nat.sub_le _ _, maxstepN_le hk hn hN,
    _, knomial_1_init_eq rank nranks k root hn hk hrank hroot hb ct⟩

/-- C22 (amended) at a concrete input: rank 6 of 8 ranks, `k = 2`, root 0. -/
theorem descent_terminates_witness :
    ∃ (maxstep step : Nat) (d : Descent),
      knomial_1_maxstep_loop (2 : Nat) 64 (isub (8 : Nat) 1) 0 = .ok (maxstep : Int) ∧
      knomial_1_descent_loop (imod (iadd ((6 : Nat) : Int) (isub ((8 : Nat) : Int)
          ((0 : Nat) : Int))) ((8 : Nat) : Int)) (8 : Nat) (2 : Nat) maxstep
          (((8 : Nat) : Int).toNat + 2) 0
          { parent := -1, current_rank := 0, running_rank := iadd 0 1 }
        = .ok ((step : Int), d) ∧
      step ≤ maxstep ∧ maxstep ≤ 8 ∧
      ∃ t, MPII_Treeutil_tree_knomial_1_init (6 : Nat) (8 : Nat) (2 : Nat) (0 : Nat)
        ⟨0, 0, 0, 0, []⟩ = .ok (MPI_SUCCESS, t) :=
  descent_terminates 6 8 2 0 (by decide) (by decide) (by decide) (by decide) (by decide)
    ⟨0, 0, 0, 0, []⟩

/-- C22 fails outside the range of `int`: with `2^30 + 1` ranks, `k = 2`, root 0
and rank `2^30` the sum `rank + (nranks - root)` wraps, the logical rank is
negative and never found; `maxstep` is 31, and at step 31 the block size is
asked for with the exponent `31 - 31 - 1 = -1`. -/
theorem descent_negative_exponent :
    knomial_1_maxstep_loop 2 64 (isub 1073741825 1) 0 = .ok 31 ∧
    imod (iadd 1073741824 (isub 1073741825 0)) 1073741825 = -1073741822 ∧
    knomial_1_descent_loop (-1073741822) 1073741825 2 31 1073741827 0
        { parent := -1, current_rank := 0, running_rank := iadd 0 1 }
      = .error .negative_exponent ∧
    MPII_Treeutil_tree_knomial_1_init 1073741824 1073741825 2 0 ⟨0, 0, 0, 0, []⟩
      = .error .negative_exponent := by
  refine ⟨by decide, by decide, by decide, by decide⟩

theorem knomial_1_small (rank nranks : Nat) (hrank : rank < nranks) (hn : nranks ≤ 8)
    (ct : MPIR_Treealgo_tree_t) :
    MPII_Treeutil_tree_knomial_1_init rank nranks 2 0 ct
      = .ok (MPI_SUCCESS, treeOf rank nranks
          (rotParent nranks 0 (kn1ParentN 2 nranks (lrankN rank nranks 0)))
          ((kn1ChildrenN 2 nranks (lrankN rank nranks 0)).map (rotN nranks 0))) :=
  knomial_1_init_eq rank nranks 2 0 (by omega) (by decide) hrank (by omega) (by omega) ct

theorem knomial_2_small (rank nranks : Nat) (hrank : rank < nranks) (hn : nranks ≤ 8)
    (ct : MPIR_Treealgo_tree_t) :
    MPII_Treeutil_tree_knomial_2_init rank nranks 2 0 ct
      = .ok (MPI_SUCCESS, treeOf rank nranks
          (rotParent nranks 0 (kn2ParentN 2 nranks (lrankN rank nranks 0)))
          ((kn2ChildrenN 2 nranks (lrankN rank nranks 0)).map (rotN nranks 0))) :=
  knomial_2_init_eq rank nranks 2 0 (by omega) (by decide) hrank (by omega) (by omega) ct

/-- C23: with `k = 2` and root 0, variant 1 builds the trees drawn in its source
comment, whatever the record held before.  For 4 ranks the children are
`0 -> [1, 3]`, `1 -> [2]` and none for 2 and 3; for 8 ranks they are
`0 -> [1, 5, 7]`, `1 -> [2, 4]`, `2 -> [3]`, `5 -> [6]` and none for 3, 4, 6, 7.
The records are `⟨rank, nranks, parent, num_children, children⟩`: every listed
child has the listing rank as its parent, and rank 0 has the parent `-1`. -/
theorem knomial_1_drawn_trees :
    ∀ ct : MPIR_Treealgo_tree_t,
      MPII_Treeutil_tree_knomial_1_init 0 4 2 0 ct
        = .ok (MPI_SUCCESS, ⟨0, 4, -1, 2, [1, 3]⟩) ∧
      MPII_Treeutil_tree_knomial_1_init 1 4 2 0 ct
        = .ok (MPI_SUCCESS, ⟨1, 4, 0, 1, [2]⟩) ∧
      MPII_Treeutil_tree_knomial_1_init 2 4 2 0 ct
        = .ok (MPI_SUCCESS, ⟨2, 4, 1, 0, []⟩) ∧
      MPII_Treeutil_tree_knomial_1_init 3 4 2 0 ct
        = .ok (MPI_SUCCESS, ⟨3, 4, 0, 0, []⟩) ∧
      MPII_Treeutil_tree_knomial_1_init 0 8 2 0 ct
        = .ok (MPI_SUCCESS, ⟨0, 8, -1, 3, [1, 5, 7]⟩) ∧
      MPII_Treeutil_tree_knomial_1_init 1 8 2 0 ct
        = .ok (MPI_SUCCESS, ⟨1, 8, 0, 2, [2, 4]⟩) ∧
      MPII_Treeutil_tree_knomial_1_init 2 8 2 0 ct
        = .ok (MPI_SUCCESS, ⟨2, 8, 1, 1, [3]⟩) ∧
      MPII_Treeutil_tree_knomial_1_init 3 8 2 0 ct
        = .ok (MPI_SUCCESS, ⟨3, 8, 2, 0, []⟩) ∧
      MPII_Treeutil_tree_knomial_1_init 4 8 2 0 ct
        = .ok (MPI_SUCCESS, ⟨4, 8, 1, 0, []⟩) ∧
      MPII_Treeutil_tree_knomial_1_init 5 8 2 0 ct
        = .ok (MPI_SUCCESS, ⟨5, 8, 0, 1, [6]⟩) ∧
      MPII_Treeutil_tree_knomial_1_init 6 8 2 0 ct
        = .ok (MPI_SUCCESS, ⟨6, 8, 5, 0, []⟩) ∧
      MPII_Treeutil_tree_knomial_1_init 7 8 2 0 ct
        = .ok (MPI_SUCCESS, ⟨7, 8, 0, 0, []⟩) := by
  intro ct
  refine ⟨?_, ?_, ?_, ?_, ?_, ?_, ?_, ?_, ?_, ?_, ?_, ?_⟩
  · have h := knomial_1_small 0 4 (by decide) (by decide) ct
    simp only [Nat.cast_ofNat, Nat.cast_zero, Nat.cast_one] at h
    rw [h]
    decide
  · have h := knomial_1_small 1 4 (by decide) (by decide) ct
    simp only [Nat.cast_ofNat, Nat.cast_zero, Nat.cast_one] at h
    rw [h]
    decide
  · have h := knomial_1_small 2 4 (by decide) (by decide) ct
    simp only [Nat.cast_ofNat, Nat.cast_zero, Nat.cast_one] at h
    rw [h]
    decide
  · have h := knomial_1_small 3 4 (by decide) (by decide) ct
    simp only [Nat.cast_ofNat, Nat.cast_zero, Nat.cast_one] at h
    rw [h]
    decide
  · have h := knomial_1_small 0 8 (by decide) (by decide) ct
    simp only [Nat.cast_ofNat, Nat.cast_zero, Nat.cast_one] at h
    rw [h]
    decide
  · have h := knomial_1_small 1 8 (by decide) (by decide) ct
    simp only [Nat.cast_ofNat, Nat.cast_zero, Nat.cast_one] at h
    rw [h]
    decide
  · have h := knomial_1_small 2 8 (by decide) (by decide) ct
    simp only [Nat.cast_ofNat, Nat.cast_zero, Nat.cast_one] at h
    rw [h]
    decide
  · have h := knomial_1_small 3 8 (by decide) (by decide) ct
    simp only [Nat.cast_ofNat, Nat.cast_zero, Nat.cast_one] at h
    rw [h]
    decide
  · have h := knomial_1_small 4 8 (by decide) (by decide) ct
    simp only [Nat.cast_ofNat, Nat.cast_zero, Nat.cast_one] at h
    rw [h]
    decide
  · have h := knomial_1_small 5 8 (by decide) (by decide) ct
    simp only [Nat.cast_ofNat, Nat.cast_zero, Nat.cast_one] at h
    rw [h]
    decide
  · have h := knomial_1_small 6 8 (by decide) (by decide) ct
    simp only [Nat.cast_ofNat, Nat.cast_zero, Nat.cast_one] at h
    rw [h]
    decide
  · have h := knomial_1_small 7 8 (by decide) (by decide) ct
    simp only [Nat.cast_ofNat, Nat.cast_zero, Nat.cast_one] at h
    rw [h]
    decide

/-- C24: with `k = 2` and root 0, variant 2 builds the trees drawn in its source
comment, whatever the record held before.  For 4 ranks the children are
`0 -> [2, 1]`, `2 -> [3]` and none for 1 and 3; for 8 ranks they are
`0 -> [4, 2, 1]`, `4 -> [6, 5]`, `2 -> [3]`, `6 -> [7]` and none for 1, 3, 5, 7.
The records are `⟨rank, nranks, parent, num_children, children⟩`: every listed
child has the listing rank as its parent, and rank 0 has the parent `-1`. -/
theorem knomial_2_drawn_trees :
    ∀ ct : MPIR_Treealgo_tree_t,
      MPII_Treeutil_tree_knomial_2_init 0 4 2 0 ct
        = .ok (MPI_SUCCESS, ⟨0, 4, -1, 2, [2, 1]⟩) ∧
      MPII_Treeutil_tree_knomial_2_init 1 4 2 0 ct
        = .ok (MPI_SUCCESS, ⟨1, 4, 0, 0, []⟩) ∧
      MPII_Treeutil_tree_knomial_2_init 2 4 2 0 ct
        = .ok (MPI_SUCCESS, ⟨2, 4, 0, 1, [3]⟩) ∧
      MPII_Treeutil_tree_knomial_2_init 3 4 2 0 ct
        = .ok (MPI_SUCCESS, ⟨3, 4, 2, 0, []⟩) ∧
      MPII_Treeutil_tree_knomial_2_init 0 8 2 0 ct
        = .ok (MPI_SUCCESS, ⟨0, 8, -1, 3, [4, 2, 1]⟩) ∧
      MPII_Treeutil_tree_knomial_2_init 1 8 2 0 ct
        = .ok (MPI_SUCCESS, ⟨1, 8, 0, 0, []⟩) ∧
      MPII_Treeutil_tree_knomial_2_init 2 8 2 0 ct
        = .ok (MPI_SUCCESS, ⟨2, 8, 0, 1, [3]⟩) ∧
      MPII_Treeutil_tree_knomial_2_init 3 8 2 0 ct
        = .ok (MPI_SUCCESS, ⟨3, 8, 2, 0, []⟩) ∧
      MPII_Treeutil_tree_knomial_2_init 4 8 2 0 ct
        = .ok (MPI_SUCCESS, ⟨4, 8, 0, 2, [6, 5]⟩) ∧
      MPII_Treeutil_tree_knomial_2_init 5 8 2 0 ct
        = .ok (MPI_SUCCESS, ⟨5, 8, 4, 0, []⟩) ∧
      MPII_Treeutil_tree_knomial_2_init 6 8 2 0 ct
        = .ok (MPI_SUCCESS, ⟨6, 8, 4, 1, [7]⟩) ∧
      MPII_Treeutil_tree_knomial_2_init 7 8 2 0 ct
        = .ok (MPI_SUCCESS, ⟨7, 8, 6, 0, []⟩) := by
  intro ct
  refine ⟨?_, ?_, ?_, ?_, ?_, ?_, ?_, ?_, ?_, ?_, ?_, ?_⟩
  · have h := knomial_2_small 0 4 (by decide) (by decide) ct
    simp only [Nat.cast_ofNat, Nat.cast_zero, Nat.cast_one] at h
    rw [h]
    decide
  · have h := knomial_2_small 1 4 (by decide) (by decide) ct
    simp only [Nat.cast_ofNat, Nat.cast_zero, Nat.cast_one] at h
    rw [h]
    decide
  · have h := knomial_2_small 2 4 (by decide) (by decide) ct
    simp only [Nat.cast_ofNat, Nat.cast_zero, Nat.cast_one] at h
    rw [h]
    decide
  · have h := knomial_2_small 3 4 (by decide) (by decide) ct
    simp only [Nat.cast_ofNat, Nat.cast_zero, Nat.cast_one] at h
    rw [h]
    decide
  · have h := knomial_2_small 0 8 (by decide) (by decide) ct
    simp only [Nat.cast_ofNat, Nat.cast_zero, Nat.cast_one] at h
    rw [h]
    decide
  · have h := knomial_2_small 1 8 (by decide) (by decide) ct
    simp only [Nat.cast_ofNat, Nat.cast_zero, Nat.cast_one] at h
    rw [h]
    decide
  · have h := knomial_2_small 2 8 (by decide) (by decide) ct
    simp only [Nat.cast_ofNat, Nat.cast_zero, Nat.cast_one] at h
    rw [h]
    decide
  · have h := knomial_2_small 3 8 (by decide) (by decide) ct
    simp only [Nat.cast_ofNat, Nat.cast_zero, Nat.cast_one] at h
    rw [h]
    decide
  · have h := knomial_2_small 4 8 (by decide) (by decide) ct
    simp only [Nat.cast_ofNat, Nat.cast_zero, Nat.cast_one] at h
    rw [h]
    decide
  · have h := knomial_2_small 5 8 (by decide) (by decide) ct
    simp only [Nat.cast_ofNat, Nat.cast_zero, Nat.cast_one] at h
    rw [h]
    decide
  · have h := knomial_2_small 6 8 (by decide) (by decide) ct
    simp only [Nat.cast_ofNat, Nat.cast_zero, Nat.cast_one] at h
    rw [h]
    decide
  · have h := knomial_2_small 7 8 (by decide) (by decide) ct
    simp only [Nat.cast_ofNat, Nat.cast_zero, Nat.cast_one] at h
    rw [h]
    decide

end Treeutil

namespace Coll

open Treeutil

/-! ## The dispatch functions in terms of the selection -/

theorem fn_exit_eq (r : Run) : fn_exit r = r := by
  obtain ⟨trace, outcome⟩ := r
  cases outcome <;> simp [fn_exit]

theorem allreduce_auto_eq (env : Env) (args : Allreduce_args) :
    MPIR_Allreduce_allcomm_auto env args
      = dispatch_allreduce env args (allreduce_auto_selection env args) := by
  unfold MPIR_Allreduce_allcomm_auto allreduce_auto_selection
  dsimp only
  cases h : env.MPIR_Csel_search args.comm_ptr.csel_comm
      (MPIR_Csel_coll_sig_s.MPIR_CSEL_COLL_TYPE__ALLREDUCE args) with
  | none => rfl
  | some cnt =>
    obtain ⟨id⟩ := cnt
    cases id with
    | other v => rfl
    | ALGORITHM a => cases a <;> simp [allreduce_case, dispatch_allreduce, fn_exit_eq, call_allreduce, assert_fail]

theorem reduce_scatter_auto_eq (env : Env) (args : Reduce_scatter_args) :
    MPIR_Reduce_scatter_allcomm_auto env args
      = dispatch_reduce_scatter env args (reduce_scatter_auto_selection env args) := by
  unfold MPIR_Reduce_scatter_allcomm_auto reduce_scatter_auto_selection
  dsimp only
  cases h : env.MPIR_Csel_search args.comm_ptr.csel_comm
      (MPIR_Csel_coll_sig_s.MPIR_CSEL_COLL_TYPE__REDUCE_SCATTER args) with
  | none => rfl
  | some cnt =>
    obtain ⟨id⟩ := cnt
    cases id with
    | other v => rfl
    | ALGORITHM a => cases a <;> simp [reduce_scatter_case, dispatch_reduce_scatter, fn_exit_eq, call_reduce_scatter,
        assert_fail]

theorem allreduce_impl_eq (env : Env) (args : Allreduce_args) :
    MPIR_Allreduce_impl env args
      = dispatch_allreduce env args (allreduce_selection env args) := by
  unfold MPIR_Allreduce_impl allreduce_selection allreduce_auto_configured allreduce_manual
  rw [allreduce_auto_eq]
  obtain ⟨c1, c2, c3, c4, c5, c6, c7, f1, f2, f3, f4, f5, f6⟩ := env
  cases hk : args.comm_ptr.comm_kind with
  | MPIR_COMM_KIND__INTRACOMM =>
    cases c1 <;> simp [fn_exit_eq, allreduce_intra_namesake, dispatch_allreduce, call_allreduce, assert_fail]
  | MPIR_COMM_KIND__INTERCOMM =>
    cases c2 <;> simp [fn_exit_eq, allreduce_inter_namesake, dispatch_allreduce, call_allreduce, assert_fail]

theorem reduce_scatter_impl_eq (env : Env) (args : Reduce_scatter_args) :
    MPIR_Reduce_scatter_impl env args
      = dispatch_reduce_scatter env args (reduce_scatter_selection env args) := by
  unfold MPIR_Reduce_scatter_impl reduce_scatter_selection reduce_scatter_auto_configured
    reduce_scatter_manual
  rw [reduce_scatter_auto_eq]
  obtain ⟨c1, c2, c3, c4, c5, c6, c7, f1, f2, f3, f4, f5, f6⟩ := env
  cases hk : args.comm_ptr.comm_kind with
  | MPIR_COMM_KIND__INTRACOMM =>
    cases c3 <;> simp [fn_exit_eq, reduce_scatter_intra_namesake, dispatch_reduce_scatter,
      call_reduce_scatter, assert_fail]
  | MPIR_COMM_KIND__INTERCOMM =>
    cases c4 <;> simp [fn_exit_eq, reduce_scatter_inter_namesake, dispatch_reduce_scatter,
      call_reduce_scatter, assert_fail]

theorem invoked_dispatch_allreduce (env : Env) (args : Allreduce_args) (s : Option Algorithm) :
    invoked (dispatch_allreduce env args s) = s.toList := by
  cases s <;> rfl

theorem invoked_dispatch_reduce_scatter (env : Env) (args : Reduce_scatter_args)
    (s : Option Algorithm) :
    invoked (dispatch_reduce_scatter env args s) = s.toList := by
  cases s <;> rfl

theorem toList_eq_singleton {α : Type} (s : Option α) (a : α) : s.toList = [a] ↔ s = some a := by
  cases s <;> simp [Option.toList]

theorem invoked_allreduce_impl (env : Env) (args : Allreduce_args) (a : Algorithm) :
    invoked (MPIR_Allreduce_impl env args) = [a] ↔ allreduce_selection env args = some a := by
  rw [allreduce_impl_eq, invoked_dispatch_allreduce, toList_eq_singleton]

theorem invoked_reduce_scatter_impl (env : Env) (args : Reduce_scatter_args) (a : Algorithm) :
    invoked (MPIR_Reduce_scatter_impl env args) = [a]
      ↔ reduce_scatter_selection env args = some a := by
  rw [reduce_scatter_impl_eq, invoked_dispatch_reduce_scatter, toList_eq_singleton]

theorem invoked_reduce_scatter_auto (env : Env) (args : Reduce_scatter_args) (a : Algorithm) :
    invoked (MPIR_Reduce_scatter_allcomm_auto env args) = [a]
      ↔ reduce_scatter_auto_selection env args = some a := by
  rw [reduce_scatter_auto_eq, invoked_dispatch_reduce_scatter, toList_eq_singleton]

theorem reduce_scatter_case_pairwise (id : MPII_Csel_container_type_e) :
    reduce_scatter_case id = some .MPIR_Reduce_scatter_intra_pairwise
      ↔ id = .ALGORITHM .MPIR_Reduce_scatter_intra_pairwise := by
  cases id with
  | other v => simp [reduce_scatter_case]
  | ALGORITHM a => cases a <;> simp [reduce_scatter_case]

theorem reduce_scatter_case_noncommutative (id : MPII_Csel_container_type_e) :
    reduce_scatter_case id = some .MPIR_Reduce_scatter_intra_noncommutative
      ↔ id = .ALGORITHM .MPIR_Reduce_scatter_intra_noncommutative := by
  cases id with
  | other v => simp [reduce_scatter_case]
  | ALGORITHM a => cases a <;> simp [reduce_scatter_case]

theorem reduce_scatter_auto_selection_iff (env : Env) (args : Reduce_scatter_args)
    (a : Algorithm)
    (hcase : ∀ id, reduce_scatter_case id = some a ↔ id = .ALGORITHM a) :
    reduce_scatter_auto_selection env args = some a
      ↔ env.MPIR_Csel_search args.comm_ptr.csel_comm
          (.MPIR_CSEL_COLL_TYPE__REDUCE_SCATTER args) = some ⟨.ALGORITHM a⟩ := by
  unfold reduce_scatter_auto_selection
  cases env.MPIR_Csel_search args.comm_ptr.csel_comm
      (MPIR_Csel_coll_sig_s.MPIR_CSEL_COLL_TYPE__REDUCE_SCATTER args) with
  | none => simp
  | some cnt =>
    obtain ⟨id⟩ := cnt
    simp [hcase]

/-! ## Staging -/

theorem freed_dispatch_allreduce (env : Env) (args : Allreduce_args) (s : Option Algorithm) :
    freed (dispatch_allreduce env args s) = [] := by
  cases s <;> rfl

theorem freed_dispatch_reduce_scatter (env : Env) (args : Reduce_scatter_args)
    (s : Option Algorithm) :
    freed (dispatch_reduce_scatter env args s) = [] := by
  cases s <;> rfl

theorem freed_allreduce_dispatched (env : Env) (args : Allreduce_args) :
    freed (Allreduce_dispatched env args) = [] := by
  unfold Allreduce_dispatched
  split
  · rfl
  · rw [allreduce_impl_eq, freed_dispatch_allreduce]

theorem freed_reduce_scatter_dispatched (env : Env) (args : Reduce_scatter_args) :
    freed (Reduce_scatter_dispatched env args) = [] := by
  unfold Reduce_scatter_dispatched
  split
  · rfl
  · rw [reduce_scatter_impl_eq, freed_dispatch_reduce_scatter]

theorem staging_epilogue_ok (r : Run) (hr : freed r = []) (s : Int) (hs : r.outcome = .ok s)
    (sendbuf recvbuf count datatype host_sendbuf host_recvbuf in_recvbuf c d : Int) :
    (staging_epilogue (.MPIR_Coll_host_buffer_alloc sendbuf recvbuf count datatype) r
        host_sendbuf host_recvbuf in_recvbuf c d).outcome = .ok s ∧
    freed (staging_epilogue (.MPIR_Coll_host_buffer_alloc sendbuf recvbuf count datatype) r
        host_sendbuf host_recvbuf in_recvbuf c d) = [(host_sendbuf, host_recvbuf)] ∧
    (staging_epilogue (.MPIR_Coll_host_buffer_alloc sendbuf recvbuf count datatype) r
        host_sendbuf host_recvbuf in_recvbuf c d).trace.getLast?
      = some (.MPIR_Coll_host_buffer_free host_sendbuf host_recvbuf) := by
  obtain ⟨trace, outcome⟩ := r
  simp only at hs
  subst hs
  unfold freed at hr
  simp only at hr
  unfold staging_epilogue freed
  refine ⟨rfl, ?_, ?_⟩
  · by_cases h : host_recvbuf ≠ 0
    · simp [h, List.filterMap_append, hr]
    · simp [h, List.filterMap_append, hr]
  · dsimp only
    exact List.getLast?_concat _

theorem manual_not_auto_allreduce {env : Env} {kind : MPIR_Comm_kind} {alg : Algorithm}
    (h : allreduce_manual env kind = some alg) (args : Allreduce_args)
    (hk : args.comm_ptr.comm_kind = kind) : allreduce_selection env args = some alg := by
  unfold allreduce_selection
  rw [hk]
  obtain ⟨c1, c2, c3, c4, c5, c6, c7, f1, f2, f3, f4, f5, f6⟩ := env
  cases kind with
  | MPIR_COMM_KIND__INTRACOMM =>
    cases c1 <;>
      simp_all [allreduce_manual, allreduce_auto_configured, allreduce_intra_namesake]
  | MPIR_COMM_KIND__INTERCOMM =>
    cases c2 <;>
      simp_all [allreduce_manual, allreduce_auto_configured, allreduce_inter_namesake]

theorem manual_not_auto_reduce_scatter {env : Env} {kind : MPIR_Comm_kind} {alg : Algorithm}
    (h : reduce_scatter_manual env kind = some alg) (args : Reduce_scatter_args)
    (hk : args.comm_ptr.comm_kind = kind) : reduce_scatter_selection env args = some alg := by
  unfold reduce_scatter_selection
  rw [hk]
  obtain ⟨c1, c2, c3, c4, c5, c6, c7, f1, f2, f3, f4, f5, f6⟩ := env
  cases kind with
  | MPIR_COMM_KIND__INTRACOMM =>
    cases c3 <;>
      simp_all [reduce_scatter_manual, reduce_scatter_auto_configured,
        reduce_scatter_intra_namesake]
  | MPIR_COMM_KIND__INTERCOMM =>
    cases c4 <;>
      simp_all [reduce_scatter_manual, reduce_scatter_auto_configured,
        reduce_scatter_inter_namesake]

theorem reduce_scatter_selection_iff (env : Env) (args : Reduce_scatter_args) (a : Algorithm)
    (hcase : ∀ id, reduce_scatter_case id = some a ↔ id = .ALGORITHM a) :
    reduce_scatter_selection env args = some a ↔
      (¬ reduce_scatter_auto_configured env args.comm_ptr.comm_kind ∧
        reduce_scatter_manual env args.comm_ptr.comm_kind = some a) ∨
      (reduce_scatter_auto_configured env args.comm_ptr.comm_kind ∧
        env.MPIR_Csel_search args.comm_ptr.csel_comm
          (.MPIR_CSEL_COLL_TYPE__REDUCE_SCATTER args) = some ⟨.ALGORITHM a⟩) := by
  unfold reduce_scatter_selection
  by_cases hauto : reduce_scatter_auto_configured env args.comm_ptr.comm_kind
  · rw [if_pos hauto, reduce_scatter_auto_selection_iff env args a hcase]
    simp [hauto]
  · rw [if_neg hauto]
    simp [hauto]

theorem reduce_scatter_manual_pairwise (env : Env) (kind : MPIR_Comm_kind) :
    (¬ reduce_scatter_auto_configured env kind ∧
      reduce_scatter_manual env kind = some .MPIR_Reduce_scatter_intra_pairwise) ↔
    (kind = .MPIR_COMM_KIND__INTRACOMM ∧
      env.MPIR_CVAR_REDUCE_SCATTER_INTRA_ALGORITHM = .pairwise) := by
  obtain ⟨c1, c2, c3, c4, c5, c6, c7, f1, f2, f3, f4, f5, f6⟩ := env
  cases kind with
  | MPIR_COMM_KIND__INTRACOMM =>
    cases c3 <;>
      simp [reduce_scatter_manual, reduce_scatter_auto_configured,
        reduce_scatter_intra_namesake]
  | MPIR_COMM_KIND__INTERCOMM =>
    cases c4 <;>
      simp [reduce_scatter_manual, reduce_scatter_auto_configured,
        reduce_scatter_inter_namesake]

theorem reduce_scatter_manual_noncommutative (env : Env) (kind : MPIR_Comm_kind) :
    (¬ reduce_scatter_auto_configured env kind ∧
      reduce_scatter_manual env kind = some .MPIR_Reduce_scatter_intra_noncommutative) ↔
    (kind = .MPIR_COMM_KIND__INTRACOMM ∧
      env.MPIR_CVAR_REDUCE_SCATTER_INTRA_ALGORITHM = .noncommutative) := by
  obtain ⟨c1, c2, c3, c4, c5, c6, c7, f1, f2, f3, f4, f5, f6⟩ := env
  cases kind with
  | MPIR_COMM_KIND__INTRACOMM =>
    cases c3 <;>
      simp [reduce_scatter_manual, reduce_scatter_auto_configured,
        reduce_scatter_intra_namesake]
  | MPIR_COMM_KIND__INTERCOMM =>
    cases c4 <;>
      simp [reduce_scatter_manual, reduce_scatter_auto_configured,
        reduce_scatter_inter_namesake]

/-- C15 as the code has it: the reduce-scatter dispatchers do not look at the
operator.  For a call whose operator is flagged non-commutative,
`MPIR_Reduce_scatter_allcomm_auto` calls `MPIR_Reduce_scatter_intra_pairwise`
exactly when `MPIR_Csel_search` returns the container of that algorithm, and
`MPIR_Reduce_scatter_impl` calls it exactly when the communicator is an
intracommunicator and the configured value is `pairwise`, or the value
configured for the kind of the communicator is `auto` and the lookup returns
that container.  The same holds for the order-preserving
`MPIR_Reduce_scatter_intra_noncommutative` with the value `noncommutative`. -/
theorem noncommutative_routing (env : Env) (args : Reduce_scatter_args)
    (_hop : args.op.is_commutative = false) :
    (invoked (MPIR_Reduce_scatter_allcomm_auto env args) = [.MPIR_Reduce_scatter_intra_pairwise]
      ↔ env.MPIR_Csel_search args.comm_ptr.csel_comm (.MPIR_CSEL_COLL_TYPE__REDUCE_SCATTER args)
          = some ⟨.ALGORITHM .MPIR_Reduce_scatter_intra_pairwise⟩) ∧
    (invoked (MPIR_Reduce_scatter_impl env args) = [.MPIR_Reduce_scatter_intra_pairwise]
      ↔ (args.comm_ptr.comm_kind = .MPIR_COMM_KIND__INTRACOMM ∧
          env.MPIR_CVAR_REDUCE_SCATTER_INTRA_ALGORITHM = .pairwise) ∨
        (reduce_scatter_auto_configured env args.comm_ptr.comm_kind ∧
          env.MPIR_Csel_search args.comm_ptr.csel_comm
            (.MPIR_CSEL_COLL_TYPE__REDUCE_SCATTER args)
              = some ⟨.ALGORITHM .MPIR_Reduce_scatter_intra_pairwise⟩)) ∧
    (invoked (MPIR_Reduce_scatter_allcomm_auto env args)
        = [.MPIR_Reduce_scatter_intra_noncommutative]
      ↔ env.MPIR_Csel_search args.comm_ptr.csel_comm (.MPIR_CSEL_COLL_TYPE__REDUCE_SCATTER args)
          = some ⟨.ALGORITHM .MPIR_Reduce_scatter_intra_noncommutative⟩) ∧
    (invoked (MPIR_Reduce_scatter_impl env args) = [.MPIR_Reduce_scatter_intra_noncommutative]
      ↔ (args.comm_ptr.comm_kind = .MPIR_COMM_KIND__INTRACOMM ∧
          env.MPIR_CVAR_REDUCE_SCATTER_INTRA_ALGORITHM = .noncommutative) ∨
        (reduce_scatter_auto_configured env args.comm_ptr.comm_kind ∧
          env.MPIR_Csel_search args.comm_ptr.csel_comm
            (.MPIR_CSEL_COLL_TYPE__REDUCE_SCATTER args)
              = some ⟨.ALGORITHM .MPIR_Reduce_scatter_intra_noncommutative⟩)) := by
  refine ⟨?_, ?_, ?_, ?_⟩
  · rw [invoked_reduce_scatter_auto,
      reduce_scatter_auto_selection_iff env args _ reduce_scatter_case_pairwise]
  · rw [invoked_reduce_scatter_impl,
      reduce_scatter_selection_iff env args _ reduce_scatter_case_pairwise,
      reduce_scatter_manual_pairwise]
  · rw [invoked_reduce_scatter_auto,
      reduce_scatter_auto_selection_iff env args _ reduce_scatter_case_noncommutative]
  · rw [invoked_reduce_scatter_impl,
      reduce_scatter_selection_iff env args _ reduce_scatter_case_noncommutative,
      reduce_scatter_manual_noncommutative]

/-- C15 (amended) at a concrete input: a call with a non-commutative operator
on an intracommunicator, in the environment `env0` (configured value
`pairwise`, a lookup that returns nothing for reduce-scatter). -/
theorem noncommutative_routing_witness :
    (invoked (MPIR_Reduce_scatter_allcomm_auto env0 (reduce_scatter0 intra4))
        = [.MPIR_Reduce_scatter_intra_pairwise]
      ↔ env0.MPIR_Csel_search (reduce_scatter0 intra4).comm_ptr.csel_comm
          (.MPIR_CSEL_COLL_TYPE__REDUCE_SCATTER (reduce_scatter0 intra4))
          = some ⟨.ALGORITHM .MPIR_Reduce_scatter_intra_pairwise⟩) ∧
    (invoked (MPIR_Reduce_scatter_impl env0 (reduce_scatter0 intra4))
        = [.MPIR_Reduce_scatter_intra_pairwise]
      ↔ ((reduce_scatter0 intra4).comm_ptr.comm_kind = .MPIR_COMM_KIND__INTRACOMM ∧
          env0.MPIR_CVAR_REDUCE_SCATTER_INTRA_ALGORITHM = .pairwise) ∨
        (reduce_scatter_auto_configured env0 (reduce_scatter0 intra4).comm_ptr.comm_kind ∧
          env0.MPIR_Csel_search (reduce_scatter0 intra4).comm_ptr.csel_comm
            (.MPIR_CSEL_COLL_TYPE__REDUCE_SCATTER (reduce_scatter0 intra4))
              = some ⟨.ALGORITHM .MPIR_Reduce_scatter_intra_pairwise⟩)) :=
  ⟨(noncommutative_routing env0 (reduce_scatter0 intra4) rfl).1,
    (noncommutative_routing env0 (reduce_scatter0 intra4) rfl).2.1⟩

/-- C15 fails as stated: a reduce-scatter call whose operator is flagged
non-commutative, on an intracommunicator with the configured value `pairwise`,
makes `MPIR_Reduce_scatter_impl` call `MPIR_Reduce_scatter_intra_pairwise`; so
do `MPIR_Reduce_scatter_allcomm_auto` and `MPIR_Reduce_scatter_impl` in
automatic mode when the lookup returns the container of that algorithm. -/
theorem noncommutative_pairwise_invoked :
    (reduce_scatter0 intra4).op.is_commutative = false ∧
    MPIR_Reduce_scatter_impl env0 (reduce_scatter0 intra4)
      = { trace := [.reduce_scatter .MPIR_Reduce_scatter_intra_pairwise
            (reduce_scatter0 intra4)],
          outcome := .ok 3 } ∧
    MPIR_Reduce_scatter_allcomm_auto env1 (reduce_scatter0 intra4)
      = { trace := [.reduce_scatter .MPIR_Reduce_scatter_intra_pairwise
            (reduce_scatter0 intra4)],
          outcome := .ok 3 } ∧
    MPIR_Reduce_scatter_impl env1 (reduce_scatter0 intra4)
      = { trace := [.reduce_scatter .MPIR_Reduce_scatter_intra_pairwise
            (reduce_scatter0 intra4)],
          outcome := .ok 3 } := by
  decide

/-- C16: in `MPIR_Allreduce_impl` and `MPIR_Reduce_scatter_impl`, for a given
kind of communicator and a recognized configured value other than `auto`, any
two calls on communicators of that kind - whatever their buffers, counts,
datatype and operator - call exactly the namesake algorithm of the value. -/
theorem manual_mode_ignores_signature (env : Env) (kind : MPIR_Comm_kind) :
    (∀ alg, allreduce_manual env kind = some alg →
      ∀ args args' : Allreduce_args,
        args.comm_ptr.comm_kind = kind → args'.comm_ptr.comm_kind = kind →
        invoked (MPIR_Allreduce_impl env args) = [alg] ∧
        invoked (MPIR_Allreduce_impl env args') = [alg]) ∧
    (∀ alg, reduce_scatter_manual env kind = some alg →
      ∀ args args' : Reduce_scatter_args,
        args.comm_ptr.comm_kind = kind → args'.comm_ptr.comm_kind = kind →
        invoked (MPIR_Reduce_scatter_impl env args) = [alg] ∧
        invoked (MPIR_Reduce_scatter_impl env args') = [alg]) := by
  constructor
  · intro alg h args args' hk hk'
    exact ⟨(invoked_allreduce_impl env args alg).mpr (manual_not_auto_allreduce h args hk),
      (invoked_allreduce_impl env args' alg).mpr (manual_not_auto_allreduce h args' hk')⟩
  · intro alg h args args' hk hk'
    exact ⟨(invoked_reduce_scatter_impl env args alg).mpr
        (manual_not_auto_reduce_scatter h args hk),
      (invoked_reduce_scatter_impl env args' alg).mpr
        (manual_not_auto_reduce_scatter h args' hk')⟩

/-- C16 at a concrete input: in `env0` the value `recursive_doubling` is
configured for allreduce on intracommunicators; two calls that differ in
buffers, count, datatype and operator both call
`MPIR_Allreduce_intra_recursive_doubling`. -/
theorem manual_mode_ignores_signature_witness :
    invoked (MPIR_Allreduce_impl env0 (allreduce0 intra4))
        = [.MPIR_Allreduce_intra_recursive_doubling] ∧
    invoked (MPIR_Allreduce_impl env0
        { sendbuf := 1, recvbuf := 2, count := 77, datatype := 9,
          op := { handle := 5, is_commutative := true }, comm_ptr := intra4, errflag := 0 })
        = [.MPIR_Allreduce_intra_recursive_doubling] :=
  (manual_mode_ignores_signature env0 .MPIR_COMM_KIND__INTRACOMM).1
    .MPIR_Allreduce_intra_recursive_doubling rfl (allreduce0 intra4)
    { sendbuf := 1, recvbuf := 2, count := 77, datatype := 9,
      op := { handle := 5, is_commutative := true }, comm_ptr := intra4, errflag := 0 }
    rfl rfl

theorem allreduce_auto_selection_none (env : Env) (args : Allreduce_args) :
    allreduce_auto_selection env args = none ↔
      env.MPIR_Csel_search args.comm_ptr.csel_comm (.MPIR_CSEL_COLL_TYPE__ALLREDUCE args) = none ∨
      ∃ cnt, env.MPIR_Csel_search args.comm_ptr.csel_comm
          (.MPIR_CSEL_COLL_TYPE__ALLREDUCE args) = some cnt ∧ allreduce_case cnt.id = none := by
  unfold allreduce_auto_selection
  cases env.MPIR_Csel_search args.comm_ptr.csel_comm
      (MPIR_Csel_coll_sig_s.MPIR_CSEL_COLL_TYPE__ALLREDUCE args) <;> simp

theorem reduce_scatter_auto_selection_none (env : Env) (args : Reduce_scatter_args) :
    reduce_scatter_auto_selection env args = none ↔
      env.MPIR_Csel_search args.comm_ptr.csel_comm
          (.MPIR_CSEL_COLL_TYPE__REDUCE_SCATTER args) = none ∨
      ∃ cnt, env.MPIR_Csel_search args.comm_ptr.csel_comm
          (.MPIR_CSEL_COLL_TYPE__REDUCE_SCATTER args) = some cnt ∧
        reduce_scatter_case cnt.id = none := by
  unfold reduce_scatter_auto_selection
  cases env.MPIR_Csel_search args.comm_ptr.csel_comm
      (MPIR_Csel_coll_sig_s.MPIR_CSEL_COLL_TYPE__REDUCE_SCATTER args) <;> simp

theorem allreduce_unrecognized_fails (env : Env) (args : Allreduce_args) (v : Int)
    (h : (args.comm_ptr.comm_kind = .MPIR_COMM_KIND__INTRACOMM ∧
        env.MPIR_CVAR_ALLREDUCE_INTRA_ALGORITHM = .unrecognized v) ∨
      (args.comm_ptr.comm_kind = .MPIR_COMM_KIND__INTERCOMM ∧
        env.MPIR_CVAR_ALLREDUCE_INTER_ALGORITHM = .unrecognized v)) :
    MPIR_Allreduce_impl env args = assert_fail := by
  unfold MPIR_Allreduce_impl
  rcases h with ⟨h1, h2⟩ | ⟨h1, h2⟩ <;> simp [h1, h2]

theorem reduce_scatter_unrecognized_fails (env : Env) (args : Reduce_scatter_args) (v : Int)
    (h : (args.comm_ptr.comm_kind = .MPIR_COMM_KIND__INTRACOMM ∧
        env.MPIR_CVAR_REDUCE_SCATTER_INTRA_ALGORITHM = .unrecognized v) ∨
      (args.comm_ptr.comm_kind = .MPIR_COMM_KIND__INTERCOMM ∧
        env.MPIR_CVAR_REDUCE_SCATTER_INTER_ALGORITHM = .unrecognized v)) :
    MPIR_Reduce_scatter_impl env args = assert_fail := by
  unfold MPIR_Reduce_scatter_impl
  rcases h with ⟨h1, h2⟩ | ⟨h1, h2⟩ <;> simp [h1, h2]

theorem allreduce_auto_miss_fails (env : Env) (args : Allreduce_args)
    (h : allreduce_auto_selection env args = none) :
    MPIR_Allreduce_allcomm_auto env args = assert_fail ∧
    (allreduce_auto_configured env args.comm_ptr.comm_kind →
      MPIR_Allreduce_impl env args = assert_fail) := by
  constructor
  · rw [allreduce_auto_eq, h]
    rfl
  · intro hauto
    rw [allreduce_impl_eq]
    unfold allreduce_selection
    rw [if_pos hauto, h]
    rfl

theorem reduce_scatter_auto_miss_fails (env : Env) (args : Reduce_scatter_args)
    (h : reduce_scatter_auto_selection env args = none) :
    MPIR_Reduce_scatter_allcomm_auto env args = assert_fail ∧
    (reduce_scatter_auto_configured env args.comm_ptr.comm_kind →
      MPIR_Reduce_scatter_impl env args = assert_fail) := by
  constructor
  · rw [reduce_scatter_auto_eq, h]
    rfl
  · intro hauto
    rw [reduce_scatter_impl_eq]
    unfold reduce_scatter_selection
    rw [if_pos hauto, h]
    rfl

/-- C17: in the allreduce and reduce-scatter dispatchers, a configured value
with no case for the kind of the communicator makes `MPIR_Allreduce_impl` and
`MPIR_Reduce_scatter_impl` fail an assertion before any algorithm is called; a
lookup that returns no container, or a container whose id has no case for the
operation, does the same to `MPIR_Allreduce_allcomm_auto` and
`MPIR_Reduce_scatter_allcomm_auto`, and to the `_impl` functions when `auto` is
configured.  The run is `assert_fail`: no external call, no status. -/
theorem no_silent_fallback (env : Env) :
    (∀ (args : Allreduce_args) (v : Int),
      (args.comm_ptr.comm_kind = .MPIR_COMM_KIND__INTRACOMM ∧
          env.MPIR_CVAR_ALLREDUCE_INTRA_ALGORITHM = .unrecognized v) ∨
        (args.comm_ptr.comm_kind = .MPIR_COMM_KIND__INTERCOMM ∧
          env.MPIR_CVAR_ALLREDUCE_INTER_ALGORITHM = .unrecognized v) →
      MPIR_Allreduce_impl env args = assert_fail) ∧
    (∀ (args : Allreduce_args),
      env.MPIR_Csel_search args.comm_ptr.csel_comm (.MPIR_CSEL_COLL_TYPE__ALLREDUCE args)
          = none ∨
        (∃ cnt, env.MPIR_Csel_search args.comm_ptr.csel_comm
            (.MPIR_CSEL_COLL_TYPE__ALLREDUCE args) = some cnt ∧
          allreduce_case cnt.id = none) →
      MPIR_Allreduce_allcomm_auto env args = assert_fail ∧
      (allreduce_auto_configured env args.comm_ptr.comm_kind →
        MPIR_Allreduce_impl env args = assert_fail)) ∧
    (∀ (args : Reduce_scatter_args) (v : Int),
      (args.comm_ptr.comm_kind = .MPIR_COMM_KIND__INTRACOMM ∧
          env.MPIR_CVAR_REDUCE_SCATTER_INTRA_ALGORITHM = .unrecognized v) ∨
        (args.comm_ptr.comm_kind = .MPIR_COMM_KIND__INTERCOMM ∧
          env.MPIR_CVAR_REDUCE_SCATTER_INTER_ALGORITHM = .unrecognized v) →
      MPIR_Reduce_scatter_impl env args = assert_fail) ∧
    (∀ (args : Reduce_scatter_args),
      env.MPIR_Csel_search args.comm_ptr.csel_comm
          (.MPIR_CSEL_COLL_TYPE__REDUCE_SCATTER args) = none ∨
        (∃ cnt, env.MPIR_Csel_search args.comm_ptr.csel_comm
            (.MPIR_CSEL_COLL_TYPE__REDUCE_SCATTER args) = some cnt ∧
          reduce_scatter_case cnt.id = none) →
      MPIR_Reduce_scatter_allcomm_auto env args = assert_fail ∧
      (reduce_scatter_auto_configured env args.comm_ptr.comm_kind →
        MPIR_Reduce_scatter_impl env args = assert_fail)) :=
  ⟨fun args v h => allreduce_unrecognized_fails env args v h,
    fun args h => allreduce_auto_miss_fails env args
      ((allreduce_auto_selection_none env args).mpr h),
    fun args v h => reduce_scatter_unrecognized_fails env args v h,
    fun args h => reduce_scatter_auto_miss_fails env args
      ((reduce_scatter_auto_selection_none env args).mpr h)⟩

/-- C17 at concrete inputs in `env0`: reduce-scatter on an intercommunicator,
for which the unrecognized value 7 is configured, and the automatic path of
reduce-scatter, whose lookup returns no container. -/
theorem no_silent_fallback_witness :
    MPIR_Reduce_scatter_impl env0 (reduce_scatter0 inter4) = assert_fail ∧
    MPIR_Reduce_scatter_allcomm_auto env0 (reduce_scatter0 intra4) = assert_fail :=
  ⟨(no_silent_fallback env0).2.2.1 (reduce_scatter0 inter4) 7 (Or.inr ⟨rfl, rfl⟩),
    ((no_silent_fallback env0).2.2.2 (reduce_scatter0 intra4) (Or.inl rfl)).1⟩

/-- C18: for every recognized selection, manual or automatic, each of the four
dispatch functions makes exactly one external call, the call of the selected
algorithm with the arguments it was given, and returns the status of that call
as it is, whether `MPI_SUCCESS` or an error. -/
theorem status_propagation (env : Env) :
    (∀ (args : Allreduce_args) (a : Algorithm), allreduce_selection env args = some a →
      MPIR_Allreduce_impl env args
        = { trace := [.allreduce a args], outcome := .ok (env.allreduce_algorithm a args) }) ∧
    (∀ (args : Allreduce_args) (a : Algorithm), allreduce_auto_selection env args = some a →
      MPIR_Allreduce_allcomm_auto env args
        = { trace := [.allreduce a args], outcome := .ok (env.allreduce_algorithm a args) }) ∧
    (∀ (args : Reduce_scatter_args) (a : Algorithm),
      reduce_scatter_selection env args = some a →
      MPIR_Reduce_scatter_impl env args
        = { trace := [.reduce_scatter a args],
            outcome := .ok (env.reduce_scatter_algorithm a args) }) ∧
    (∀ (args : Reduce_scatter_args) (a : Algorithm),
      reduce_scatter_auto_selection env args = some a →
      MPIR_Reduce_scatter_allcomm_auto env args
        = { trace := [.reduce_scatter a args],
            outcome := .ok (env.reduce_scatter_algorithm a args) }) := by
  refine ⟨?_, ?_, ?_, ?_⟩
  · intro args a h
    rw [allreduce_impl_eq, h]
    rfl
  · intro args a h
    rw [allreduce_auto_eq, h]
    rfl
  · intro args a h
    rw [reduce_scatter_impl_eq, h]
    rfl
  · intro args a h
    rw [reduce_scatter_auto_eq, h]
    rfl

/-- C18 at concrete inputs: a manual selection in `env0`, where the algorithm
returns the error status 5, and an automatic selection in `env1`. -/
theorem status_propagation_witness :
    MPIR_Allreduce_impl env0 (allreduce0 intra4)
      = { trace := [.allreduce .MPIR_Allreduce_intra_recursive_doubling (allreduce0 intra4)],
          outcome := .ok 5 } ∧
    MPIR_Reduce_scatter_allcomm_auto env1 (reduce_scatter0 intra4)
      = { trace := [.reduce_scatter .MPIR_Reduce_scatter_intra_pairwise
            (reduce_scatter0 intra4)],
          outcome := .ok 3 } :=
  ⟨(status_propagation env0).1 (allreduce0 intra4) .MPIR_Allreduce_intra_recursive_doubling
      (by decide),
    (status_propagation env1).2.2.2 (reduce_scatter0 intra4)
      .MPIR_Reduce_scatter_intra_pairwise (by decide)⟩

/-- C19: in `MPIR_Allreduce` and `MPIR_Reduce_scatter`, whatever status `s` the
dispatched call returns, the function returns `s`, and it passes the host
buffers it obtained from `MPIR_Coll_host_buffer_alloc` to
`MPIR_Coll_host_buffer_free` exactly once, as its last external call. -/
theorem staging_release (env : Env) :
    (∀ (args : Allreduce_args) (s : Int),
      (Allreduce_dispatched env (Allreduce_staged args (Allreduce_host env args).1
        (Allreduce_host env args).2)).outcome = .ok s →
      (MPIR_Allreduce env args).outcome = .ok s ∧
      freed (MPIR_Allreduce env args) = [Allreduce_host env args] ∧
      (MPIR_Allreduce env args).trace.getLast?
        = some (.MPIR_Coll_host_buffer_free (Allreduce_host env args).1
            (Allreduce_host env args).2)) ∧
    (∀ (args : Reduce_scatter_args) (s : Int),
      (Reduce_scatter_dispatched env (Reduce_scatter_staged args
        (Reduce_scatter_host env args).1 (Reduce_scatter_host env args).2)).outcome = .ok s →
      (MPIR_Reduce_scatter env args).outcome = .ok s ∧
      freed (MPIR_Reduce_scatter env args) = [Reduce_scatter_host env args] ∧
      (MPIR_Reduce_scatter env args).trace.getLast?
        = some (.MPIR_Coll_host_buffer_free (Reduce_scatter_host env args).1
            (Reduce_scatter_host env args).2)) := by
  constructor
  · intro args s h
    exact staging_epilogue_ok _ (freed_allreduce_dispatched env _) s h _ _ _ _ _ _ _ _ _
  · intro args s h
    exact staging_epilogue_ok _ (freed_reduce_scatter_dispatched env _) s h _ _ _ _ _ _ _ _ _

/-- C19 at concrete inputs: in `env0` the dispatched allreduce call returns the
error status 5; in `env1` the device entry point returns 15.  The receive
buffer is staged at address 4096. -/
theorem staging_release_witness :
    ((MPIR_Allreduce env0 (allreduce0 intra4)).outcome = .ok 5 ∧
      freed (MPIR_Allreduce env0 (allreduce0 intra4)) = [Allreduce_host env0 (allreduce0 intra4)] ∧
      (MPIR_Allreduce env0 (allreduce0 intra4)).trace.getLast?
        = some (.MPIR_Coll_host_buffer_free (Allreduce_host env0 (allreduce0 intra4)).1
            (Allreduce_host env0 (allreduce0 intra4)).2)) ∧
    (MPIR_Allreduce env1 (allreduce0 intra4)).outcome = .ok 15 :=
  ⟨(staging_release env0).1 (allreduce0 intra4) 5 (by decide),
    ((staging_release env1).1 (allreduce0 intra4) 15 (by decide)).1⟩

/-! ## The receive-count sum of reduce-scatter -/

theorem sum_take_bounds (l : List Int) (hl : ∀ x ∈ l, 0 ≤ x) (m : Nat) :
    0 ≤ (l.take m).sum ∧ (l.take m).sum ≤ l.sum := by
  have h1 : 0 ≤ (l.take m).sum :=
    List.sum_nonneg fun x hx => hl x (List.mem_of_mem_take hx)
  have h2 : 0 ≤ (l.drop m).sum :=
    List.sum_nonneg fun x hx => hl x (List.mem_of_mem_drop hx)
  have h3 : (l.take m).sum + (l.drop m).sum = l.sum := by
    rw [← List.sum_append, List.take_append_drop]
  exact ⟨h1, by omega⟩

theorem count_fold_eq (l : List Int) (hl : ∀ x ∈ l, 0 ≤ x) (hs : l.sum ≤ 2147483647) :
    ∀ m : Nat, m ≤ l.length →
      (List.range m).foldl (fun count i => wrap (count + l.getD i 0)) 0 = (l.take m).sum := by
  intro m
  induction m with
  | zero => intro _; simp
  | succ m ih =>
    intro hm
    have hlt : m < l.length := by omega
    rw [List.range_succ, List.foldl_append, ih (by omega), List.sum_take_succ l m hlt]
    simp only [List.foldl_cons, List.foldl_nil]
    have hget : l.getD m 0 = l[m] := by
      simp [List.getD, List.getElem?_eq_getElem hlt]
    rw [hget]
    have hb := sum_take_bounds l hl (m + 1)
    rw [List.sum_take_succ l m hlt] at hb
    exact wrap_id hb.1 (by omega)

theorem reduce_scatter_count_exact (l : List Int) (hl : ∀ x ∈ l, 0 ≤ x)
    (hs : l.sum ≤ 2147483647) (size : Int) (hsize : size = (l.length : Int)) :
    reduce_scatter_count size l = l.sum := by
  unfold reduce_scatter_count
  rw [hsize, Int.toNat_natCast, count_fold_eq l hl hs l.length (le_refl _), List.take_length]

/-! ## The counts that reach the staging helpers -/

theorem staging_counts_dispatch_reduce_scatter (env : Env) (args : Reduce_scatter_args)
    (s : Option Algorithm) : staging_counts (dispatch_reduce_scatter env args s) = [] := by
  cases s <;> rfl

theorem staging_counts_reduce_scatter_dispatched (env : Env) (args : Reduce_scatter_args) :
    staging_counts (Reduce_scatter_dispatched env args) = [] := by
  unfold Reduce_scatter_dispatched
  split
  · rfl
  · rw [reduce_scatter_impl_eq, staging_counts_dispatch_reduce_scatter]

theorem staging_counts_epilogue (r : Run) (hr : staging_counts r = [])
    (sendbuf recvbuf count datatype host_sendbuf host_recvbuf in_recvbuf d : Int) :
    staging_counts (staging_epilogue (.MPIR_Coll_host_buffer_alloc sendbuf recvbuf count datatype)
        r host_sendbuf host_recvbuf in_recvbuf count d) ≠ [] ∧
    ∀ c ∈ staging_counts (staging_epilogue
        (.MPIR_Coll_host_buffer_alloc sendbuf recvbuf count datatype)
        r host_sendbuf host_recvbuf in_recvbuf count d), c = count := by
  obtain ⟨trace, outcome⟩ := r
  unfold staging_counts at hr
  simp only at hr
  unfold staging_epilogue staging_counts
  cases outcome with
  | error f => simp [hr]
  | ok s =>
    by_cases h : host_recvbuf ≠ 0
    · simp [h, List.flatMap_append, hr]
    · simp [h, List.flatMap_append, hr]

/-- C25 on the code: `MPIR_Reduce_scatter` adds the receive counts, which are
`MPI_Aint` values, in a counter of type `int`.  For a communicator of size `n`
and non-negative `recvcounts[0..n-1]` whose sum is at most `INT_MAX`, every
element count passed to `MPIR_Coll_host_buffer_alloc` and to the copy-out is
the exact sum.  When the sum passes `INT_MAX` the counter wraps: for 2 ranks
with `2^30` elements each the sum is `2^31`, and the count passed to the
allocation and to the copy-out is `-2^31`. -/
theorem reduce_scatter_staging_count :
    (∀ (env : Env) (args : Reduce_scatter_args),
      args.comm_ptr.local_size = (args.recvcounts.length : Int) →
      (∀ x ∈ args.recvcounts, 0 ≤ x) → args.recvcounts.sum ≤ 2147483647 →
      staging_counts (MPIR_Reduce_scatter env args) ≠ [] ∧
      ∀ c ∈ staging_counts (MPIR_Reduce_scatter env args), c = args.recvcounts.sum) ∧
    reduce_scatter_count 2 [1073741824, 1073741824] = -2147483648 ∧
    ([1073741824, 1073741824] : List Int).sum = 2147483648 ∧
    staging_counts (MPIR_Reduce_scatter env0
        { reduce_scatter0 intra2 with recvcounts := [1073741824, 1073741824] })
      = [-2147483648, -2147483648, -2147483648] := by
  refine ⟨?_, by decide, by decide, by decide⟩
  intro env args hsize hl hs
  have hc := reduce_scatter_count_exact args.recvcounts hl hs _ hsize
  have h := staging_counts_epilogue _ (staging_counts_reduce_scatter_dispatched env
    (Reduce_scatter_staged args (Reduce_scatter_host env args).1
      (Reduce_scatter_host env args).2))
    args.sendbuf args.recvbuf (reduce_scatter_count args.comm_ptr.local_size args.recvcounts)
    args.datatype (Reduce_scatter_host env args).1 (Reduce_scatter_host env args).2
    args.recvbuf args.datatype
  rw [hc] at h
  unfold MPIR_Reduce_scatter
  unfold Reduce_scatter_host at h
  rw [hc] at h ⊢
  exact h

/-- C25 at a concrete input within the range of `int`: 4 ranks with the receive
counts 1, 2, 3, 4 in `env0`; every count passed on is the sum. -/
theorem reduce_scatter_staging_count_witness :
    staging_counts (MPIR_Reduce_scatter env0 (reduce_scatter0 intra4)) ≠ [] ∧
    ∀ c ∈ staging_counts (MPIR_Reduce_scatter env0 (reduce_scatter0 intra4)),
      c = (reduce_scatter0 intra4).recvcounts.sum :=
  reduce_scatter_staging_count.1 env0 (reduce_scatter0 intra4) (by decide) (by decide)
    (by decide)

end Coll
